import Mathlib

/-!
The software rasteriser of `wall.c` (sw_wall)

A shallow embedding of the rendering core of `wall.c` (clip-region stack,
`r_vline`, `r_hline`, `r_clip_line`, `r_line`, `r_rect`, `intersect`, `update`)
and theorems about it.

Conventions of the embedding

* C `int` values are mathematical integers (`ℤ`); signed overflow is undefined
  behaviour in C and is not modelled.
* C `float` values are the type `F` below: a finite value is a rational, and
  the IEEE 754 special values (negative zero, the two infinities, NaN) are
  kept, because `r_clip_line` and `intersect` divide by values that can be zero.
* The float arithmetic of `wall.c` is embedded twice.  The definitions at the
  top level (`r_clip_line`, `r_line`, `intersect`, `project`, `update`, ...)
  compute a finite result exactly, without rounding: this is the reading of the
  statements made "in exact arithmetic".  The definitions of the namespace `B32`
  are the same functions with the result of every operation rounded to IEEE 754
  binary32 (binary64 where C computes in `double`), to nearest with ties to even,
  with overflow to the infinities and gradual underflow: this is what the
  compiled program computes, and statements that fail under rounding are
  refuted there.
* The pixel buffer `int* pix` is a map from indices to colours together with a
  ghost log of the positions `(x, y)` written so far, in order; the write
  `pix[y * W + x] = color` is `Canvas.store`.
* Loops whose termination is not syntactic take a fuel argument and return
  `none` when it runs out.
* The library functions `sinf` and `cosf` are parameters of `update`; in the
  exact reading the arguments and the player state of `update` are finite
  floats, in `B32` they are any floats.
* The cast `(int)x` is truncation toward zero to a mathematical integer, also
  for a value outside the range of `int`, where C leaves the cast undefined; the
  cast of an infinity or of NaN, undefined as well, is `0`.
-/

namespace SwWall

/-! ## Macros and constants -/

/-- The macro `#define W 320` -/
def W : ℤ := 320

/-- The macro `#define H 200` -/
def H : ℤ := 200

/-- The macro `#define AREA_STACK_SIZE 8` -/
def AREA_STACK_SIZE : ℕ := 8

/-- The macro `#define m_sign(x) (((x) > 0) - ((x) < 0))` on an `int`. -/
def m_sign (x : ℤ) : ℤ := (if x > 0 then 1 else 0) - (if x < 0 then 1 else 0)

/-- The macro `#define m_min(a, b) ((a) < (b) ? (a) : (b))` -/
def m_min (a b : ℤ) : ℤ := if a < b then a else b

/-- The macro `#define m_max(a, b) ((a) > (b) ? (a) : (b))` -/
def m_max (a b : ℤ) : ℤ := if a > b then a else b

/-- The macro `#define m_clamp(x, a, b) m_max(a, m_min(x, b))` -/
def m_clamp (x a b : ℤ) : ℤ := m_max a (m_min x b)

/-! ## Clip-region stack -/

/-- The type `struct r_rect { int l, t, r, b; }` -/
structure Rect where
  l : ℤ
  t : ℤ
  r : ℤ
  b : ℤ
  deriving DecidableEq, Repr

/-- The globals `area`, `area_stack_top` and `area_stack`.  The stack index is a
    natural number: it starts at `0` and a decrement below `0` is an out-of-bounds
    access, reported as `none` by `r_pop_area`. -/
structure AreaState where
  area : Rect
  area_stack_top : ℕ
  area_stack : Fin AREA_STACK_SIZE → Rect

/-- The initial value `struct r_rect area = { 0, 0, W, H }` -/
def area_init : Rect := ⟨0, 0, W, H⟩

/-- The function `void r_push_area() { area_stack[area_stack_top++] = area; }`;
    `none` is the out-of-bounds store (there is no bounds check in the source). -/
def r_push_area (s : AreaState) : Option AreaState :=
  if h : s.area_stack_top < AREA_STACK_SIZE then
    some { s with
      area_stack := Function.update s.area_stack ⟨s.area_stack_top, h⟩ s.area
      area_stack_top := s.area_stack_top + 1 }
  else none

/-- The function `void r_pop_area() { area = area_stack[--area_stack_top]; }`;
    `none` is the out-of-bounds load. -/
def r_pop_area (s : AreaState) : Option AreaState :=
  if s.area_stack_top = 0 then none
  else if h : s.area_stack_top - 1 < AREA_STACK_SIZE then
    some { s with
      area_stack_top := s.area_stack_top - 1
      area := s.area_stack ⟨s.area_stack_top - 1, h⟩ }
  else none

/-- The function `void r_area(int l, int t, int r, int b)` -/
def r_area (s : AreaState) (l t r b : ℤ) : AreaState :=
  { s with area := ⟨l, t, r, b⟩ }

/-! ## Pixel buffer -/

/-- The buffer `pix` (index to colour) and the ghost log of written positions. -/
structure Canvas where
  pix : ℤ → ℤ
  log : List (ℤ × ℤ)

/-- The store `pix[y * W + x] = color`. -/
def Canvas.store (c : Canvas) (x y color : ℤ) : Canvas :=
  { pix := Function.update c.pix (y * W + x) color
    log := c.log ++ [(x, y)] }

/-! ## Vertical and horizontal lines -/

/-- The loop `for (; y0 != y1 + dir; y0 += dir) pix[y0 * W + x] = color;`. -/
def r_vline_loop : ℕ → Canvas → ℤ → ℤ → ℤ → ℤ → ℤ → Option Canvas
  | fuel, c, color, x, y0, y1, dir =>
    if y0 = y1 + dir then some c
    else match fuel with
      | 0 => none
      | n + 1 => r_vline_loop n (c.store x y0 color) color x (y0 + dir) y1 dir

/-- The function `void r_vline(int* pix, int color, int x, int y0, int y1)` -/
def r_vline (fuel : ℕ) (area : Rect) (c : Canvas) (color x y0 y1 : ℤ) : Option Canvas :=
  if x < area.l ∨ x ≥ area.r then some c
  else
    let y0 := m_clamp y0 area.t (area.b - 1)
    let y1 := m_clamp y1 area.t (area.b - 1)
    let dy := y1 - y0
    let dir := Int.lor (m_sign dy) 1
    r_vline_loop fuel c color x y0 y1 dir

/-- The loop `for (; x0 != x1 + dir; x0 += dir) pix[y * W + x0] = color;`. -/
def r_hline_loop : ℕ → Canvas → ℤ → ℤ → ℤ → ℤ → ℤ → Option Canvas
  | fuel, c, color, x0, x1, y, dir =>
    if x0 = x1 + dir then some c
    else match fuel with
      | 0 => none
      | n + 1 => r_hline_loop n (c.store x0 y color) color (x0 + dir) x1 y dir

/-- The function `void r_hline(int* pix, int color, int x0, int x1, int y)` -/
def r_hline (fuel : ℕ) (area : Rect) (c : Canvas) (color x0 x1 y : ℤ) : Option Canvas :=
  if y < area.t ∨ y ≥ area.b then some c
  else
    let x0 := m_clamp x0 area.l (area.r - 1)
    let x1 := m_clamp x1 area.l (area.r - 1)
    let dx := x1 - x0
    let dir := Int.lor (m_sign dx) 1
    r_hline_loop fuel c color x0 x1 y dir

/-! ## Floats -/

/-- A C `float`: a rational (`fin 0` is `+0.0`), negative zero, the two
    infinities, or NaN.  The operations of this namespace are the exact ones: a
    finite result is not rounded, and the special values follow IEEE 754.  The
    rounded operations are those of `B32`. -/
inductive F where
  | fin (q : ℚ)
  | nzero
  | pinf
  | ninf
  | nan
  deriving DecidableEq, Repr

namespace F

/-- Is the value NaN? -/
def isNaN : F → Bool
  | nan => true
  | _ => false

/-- Is the value an infinity? -/
def isInf : F → Bool
  | pinf => true
  | ninf => true
  | _ => false

/-- The value of a finite float (`0` for the special values). -/
def val : F → ℚ
  | fin q => q
  | _ => 0

/-- Is the value finite (not an infinity, not NaN)? -/
def isFin (x : F) : Bool := !x.isNaN && !x.isInf

/-- The test `!x` of C, true for both zeros. -/
def isZero (x : F) : Bool := x.isFin && decide (x.val = 0)

/-- The sign bit. -/
def sgn : F → Bool
  | fin q => decide (q < 0)
  | nzero => true
  | pinf => false
  | ninf => true
  | nan => false

/-- The zero with the given sign bit. -/
def zero (s : Bool) : F := if s then nzero else fin 0

/-- The infinity with the given sign bit. -/
def inf (s : Bool) : F := if s then ninf else pinf

/-- The finite float of value `v` whose sign bit, should `v` be zero, is `s`. -/
def mk (s : Bool) (v : ℚ) : F := if v = 0 then zero s else fin v

/-- Unary minus. -/
def neg : F → F
  | fin q => if q = 0 then nzero else fin (-q)
  | nzero => fin 0
  | pinf => ninf
  | ninf => pinf
  | nan => nan

/-- Addition `x + y`. -/
def add (x y : F) : F :=
  if x.isNaN || y.isNaN then nan
  else if x.isInf then (if y.isInf && (x.sgn != y.sgn) then nan else x)
  else if y.isInf then y
  else if x.isZero && y.isZero then zero (x.sgn && y.sgn)
  else fin (x.val + y.val)

/-- Subtraction `x - y`. -/
def sub (x y : F) : F := x.add y.neg

/-- Multiplication `x * y`. -/
def mul (x y : F) : F :=
  if x.isNaN || y.isNaN then nan
  else if x.isInf || y.isInf then
    (if x.isZero || y.isZero then nan else inf (x.sgn != y.sgn))
  else mk (x.sgn != y.sgn) (x.val * y.val)

/-- Division `x / y`. -/
def div (x y : F) : F :=
  if x.isNaN || y.isNaN then nan
  else if x.isInf then (if y.isInf then nan else inf (x.sgn != y.sgn))
  else if y.isInf then zero (x.sgn != y.sgn)
  else if y.isZero then (if x.isZero then nan else inf (x.sgn != y.sgn))
  else mk (x.sgn != y.sgn) (x.val / y.val)

/-- The comparison `x < y` (false when either side is NaN). -/
def lt (x y : F) : Bool :=
  if x.isNaN || y.isNaN then false
  else if x.isInf then (x.sgn && !(y.isInf && y.sgn))
  else if y.isInf then !y.sgn
  else decide (x.val < y.val)

/-- The comparison `x > y`. -/
def gt (x y : F) : Bool := y.lt x

/-- The comparison `x == y` (false when either side is NaN, true for `-0 == +0`). -/
def beq (x y : F) : Bool :=
  if x.isNaN || y.isNaN then false
  else if x.isInf || y.isInf then (x.isInf && y.isInf && (x.sgn == y.sgn))
  else decide (x.val = y.val)

/-- Conversion of an `int` to `float`. -/
def ofInt (i : ℤ) : F := fin i

end F

/-- The cast `(int)q` of a finite float: truncation toward zero. -/
def ctrunc (q : ℚ) : ℤ := if 0 ≤ q then ⌊q⌋ else ⌈q⌉

/-- The cast `(int)x`.  The cast of an infinity or of NaN is undefined in C; it is
    `0` here and does not arise in `r_line`, where the clipped endpoints are
    finite (`r_clip_line_sound`). -/
def F.toInt (x : F) : ℤ := ctrunc x.val

/-! ## Line clipping -/

/-- The macro `edge(pval, qval)` of `r_clip_line`, on the interval `(t0, t1)`:
    `none` is `return 0`.  Exact arithmetic; `B32.edge` rounds. -/
def edge (p q : F) (t : F × F) : Option (F × F) :=
  if p.isZero && q.lt (F.fin 0) then none
  else
    let r := q.div p
    if p.lt (F.fin 0) then
      if r.gt t.2 then none
      else if r.gt t.1 then some (r, t.2)
      else some t
    else
      if r.lt t.1 then none
      else if r.lt t.2 then some (t.1, r)
      else some t

/-- The function `int r_clip_line(float* x0, float* y0, float* x1, float* y1)`: `none` is the
    result `0`, and `some (x0, y0, x1, y1)` is the result `1` with the rewritten
    endpoints.  Exact arithmetic; `B32.r_clip_line` rounds. -/
def r_clip_line (area : Rect) (x0 y0 x1 y1 : F) : Option (F × F × F × F) :=
  let t : F × F := (F.fin 0, F.fin 1)
  let dx := x1.sub x0
  let dy := y1.sub y0
  (edge dx.neg (x0.sub (F.ofInt area.l)) t).bind fun t =>
  (edge dx ((F.ofInt (area.r - 1)).sub x0) t).bind fun t =>
  (edge dy.neg (y0.sub (F.ofInt area.t)) t).bind fun t =>
  (edge dy ((F.ofInt (area.b - 1)).sub y0) t).bind fun t =>
  some (x0.add (t.1.mul dx), y0.add (t.1.mul dy), x0.add (t.2.mul dx), y0.add (t.2.mul dy))

/-! ## General lines -/

/-- The macro `#define m_abs(x) (((x) < 0) ? -(x) : (x))` on a finite float. -/
def m_abs (x : ℚ) : ℚ := if x < 0 then -x else x

/-- The inner loop of `r_line`,
    `while (err >= 0.5f) { if ((int)y0 == (int)y1 + ydir) return; pix[..] = color;
    y0 += ydir, err -= 1; }`.
    The result is the canvas, `y0`, `err`, and whether the `return` was taken. -/
def r_line_inner : ℕ → Canvas → ℤ → ℤ → ℤ → ℤ → ℤ → ℚ → Option (Canvas × ℤ × ℚ × Bool)
  | fuel, c, color, x0, y0, y1, ydir, err =>
    if err ≥ 1 / 2 then
      if y0 = y1 + ydir then some (c, y0, err, true)
      else match fuel with
        | 0 => none
        | n + 1 => r_line_inner n (c.store x0 y0 color) color x0 (y0 + ydir) y1 ydir (err - 1)
    else some (c, y0, err, false)

/-- The outer loop of `r_line`, `for (; (int)x0 != (int)x1 + xdir; x0 += xdir)`.
    `x0`, `y0`, `x1`, `y1` hold integers at this point (they were assigned from
    `(int)` casts and are changed by adding the `int`s `xdir`, `ydir`), so they are
    integers here and the casts `(int)x0`, `(int)y0` are the identity.  `ifuel` is
    the fuel handed to each run of the inner loop. -/
def r_line_walk (ifuel : ℕ) :
    ℕ → Canvas → ℤ → ℤ → ℤ → ℤ → ℤ → ℤ → ℤ → ℚ → ℚ → Option Canvas
  | fuel, c, color, x0, y0, x1, y1, xdir, ydir, errstep, err =>
    if x0 = x1 + xdir then some c
    else match fuel with
      | 0 => none
      | n + 1 =>
        match r_line_inner ifuel (c.store x0 y0 color) color x0 y0 y1 ydir (err + errstep) with
        | none => none
        | some (c, _, _, true) => some c
        | some (c, y0, err, false) =>
          r_line_walk ifuel n c color (x0 + xdir) y0 x1 y1 xdir ydir errstep err

/-- The function `void r_line(int* pix, int color, float x0, float y0, float x1, float y1)` for
    finite arguments, in exact arithmetic (`B32.r_line` rounds).  When the rounded
    `dx` is `0` the C quotient `dy / dx` is an infinity or NaN and the loop body is
    never entered (`xdir` is `0` and `x0 == x1`); the rational quotient used for
    `errstep` is then unused as well. -/
def r_line (fuel : ℕ) (area : Rect) (c : Canvas) (color : ℤ) (x0 y0 x1 y1 : ℚ) :
    Option Canvas :=
  let x0 := ctrunc x0 + area.l
  let x1 := ctrunc x1 + area.l
  let y0 := ctrunc y0 + area.t
  let y1 := ctrunc y1 + area.t
  if x0 = x1 then r_vline fuel area c color x0 y0 y1
  else if y0 = y1 then r_hline fuel area c color x0 x1 y0
  else
    match r_clip_line area (F.ofInt x0) (F.ofInt y0) (F.ofInt x1) (F.ofInt y1) with
    | none => some c
    | some (x0, y0, x1, y1) =>
      let x0 := (x0.add (F.fin (1 / 2))).toInt
      let x1 := (x1.add (F.fin (1 / 2))).toInt
      let y0 := (y0.add (F.fin (1 / 2))).toInt
      let y1 := (y1.add (F.fin (1 / 2))).toInt
      let dx := x1 - x0
      let dy := y1 - y0
      let errstep := m_abs ((dy : ℚ) / (dx : ℚ))
      let xdir := m_sign dx
      let ydir := m_sign dy
      r_line_walk fuel fuel c color x0 y0 x1 y1 xdir ydir errstep 0

/-- The function `void r_rect(int* pix, int color, int l, int t, int r, int b)` -/
def r_rect (fuel : ℕ) (area : Rect) (c : Canvas) (color l t r b : ℤ) : Option Canvas :=
  (r_line fuel area c color l t r t).bind fun c =>
  (r_line fuel area c color r t r b).bind fun c =>
  (r_line fuel area c color l b r b).bind fun c =>
  r_line fuel area c color l t l b

/-! ## Intersection -/

/-- The macro `#define cross(x0, y0, x1, y1) ((x0) * (y1) - (y0) * (x1))` -/
def cross (x0 y0 x1 y1 : F) : F := (x0.mul y1).sub (y0.mul x1)

/-- The function `void intersect(...)`: the pair `(*ix, *iy)`.  Exact arithmetic;
    `B32.intersect` rounds. -/
def intersect (rx0 ry0 rx1 ry1 sx0 sy0 sx1 sy1 : F) : F × F :=
  let x := cross rx0 ry0 rx1 ry1
  let y := cross sx0 sy0 sx1 sy1
  let denom := cross (rx0.sub rx1) (ry0.sub ry1) (sx0.sub sx1) (sy0.sub sy1)
  ((cross x (rx0.sub rx1) y (sx0.sub sx1)).div denom,
   (cross x (ry0.sub ry1) y (sy0.sub sy1)).div denom)

/-! ## Scene update -/

/-- The constant `M_PI` of `<math.h>`, `3.14159265358979323846`, as an exact
    rational (`B32.M_PI` is the `double`). -/
def M_PI : ℚ := 3.14159265358979323846

/-- The wall constant `int const wx0 = 40`. -/
def wx0 : ℤ := 40

/-- The wall constant `int const wz0 = 30`. -/
def wz0 : ℤ := 30

/-- The wall constant `int const wx1 = 60`. -/
def wx1 : ℤ := 60

/-- The wall constant `int const wz1 = 30`. -/
def wz1 : ℤ := 30

/-- The macro `#define area_w (area.r-area.l)`. -/
def area_w (area : Rect) : ℤ := area.r - area.l

/-- The macro `#define area_h (area.b-area.t)`. -/
def area_h (area : Rect) : ℤ := area.b - area.t

/-- The function `void r_clear(int* pix, int color)`: the loop
    `for (i = 0; i < W * H; ++i) pix[i] = color;`, the index `i` being the position
    `(i % W, i / W)`. -/
def r_clear (c : Canvas) (color : ℤ) : Canvas :=
  (List.range (W * H).toNat).foldl
    (fun c (i : ℕ) => c.store ((i : ℤ) % W) ((i : ℤ) / W) color) c

/-- The loop `while (pangle < 0) pangle += 2*M_PI;` of `update`, in exact
    arithmetic (`B32.norm_lo` rounds). -/
def norm_lo : ℕ → ℚ → Option ℚ
  | fuel, pangle =>
    if pangle < 0 then
      match fuel with
      | 0 => none
      | n + 1 => norm_lo n (pangle + 2 * M_PI)
    else some pangle

/-- The loop `while (pangle >= 2*M_PI) pangle -= 2*M_PI;` of `update`, in exact
    arithmetic (`B32.norm_hi` rounds). -/
def norm_hi : ℕ → ℚ → Option ℚ
  | fuel, pangle =>
    if pangle ≥ 2 * M_PI then
      match fuel with
      | 0 => none
      | n + 1 => norm_hi n (pangle - 2 * M_PI)
    else some pangle

/-- The heading update of `update`:
    `pangle += M_PI * wishlook * tdelta;` followed by the two normalisation loops,
    in exact arithmetic (`B32.heading_step` rounds). -/
def heading_step (fuel : ℕ) (pangle : ℚ) (wishlook : ℤ) (tdelta : ℚ) : Option ℚ :=
  (norm_lo fuel (pangle + M_PI * wishlook * tdelta)).bind fun pangle =>
  norm_hi fuel pangle

/-- The comparison `x <= y` (false when either side is NaN). -/
def F.le (x y : F) : Bool := x.lt y || x.beq y

/-- The comparison `x >= y`. -/
def F.ge (x y : F) : Bool := y.le x

/-- The function `r_line` on float arguments of any kind.  Only the casts `(int)x0`,
    ... of the arguments are used by `r_line`; the cast of an infinity or of NaN is
    undefined in C and is `0` here, as in `F.toInt`. -/
def r_lineF (fuel : ℕ) (area : Rect) (c : Canvas) (color : ℤ) (x0 y0 x1 y1 : F) :
    Option Canvas :=
  r_line fuel area c color x0.val y0.val x1.val y1.val

/-- The wall in the player's frame, `(tx0, tz0, tx1, tz1)`:
    `tx0 = (wx0-px) * pcos + (wz0-pz) * psin`, `tx1 = (wx1-px) * pcos + (wz1-pz) * psin`,
    `tz0 = (wx0-px) * (-psin) + (wz0-pz) * pcos`, `tz1 = (wx1-px) * (-psin) + (wz1-pz) * pcos`. -/
def local_wall (px pz psin pcos : ℚ) : ℚ × ℚ × ℚ × ℚ :=
  ((wx0 - px) * pcos + (wz0 - pz) * psin,
   (wx0 - px) * (-psin) + (wz0 - pz) * pcos,
   (wx1 - px) * pcos + (wz1 - pz) * psin,
   (wx1 - px) * (-psin) + (wz1 - pz) * pcos)

/-- The block "2D static view" of `update`, after `r_area(5, 50, 105, 150)`. -/
def view_static (fuel : ℕ) (area : Rect) (pix : Canvas) (px pz psin pcos : ℚ) :
    Option Canvas :=
  (r_line fuel area pix 0xFFFF00 wx0 wz0 wx1 wz0).bind fun pix =>
  (r_line fuel area pix 0x333333 px pz (px + 10 * psin) (pz - 10 * pcos)).bind fun pix =>
  (r_line fuel area pix 0xFFFFFF px pz px pz).bind fun pix =>
  r_rect fuel area pix 0xFF0000 0 0 (area_w area - 1) (area_h area - 1)

/-- The block "2D top-down view" of `update`, after `r_area(110, 50, 210, 150)`,
    for the wall `(tx0, tz0, tx1, tz1)` in the player's frame. -/
def view_topdown (fuel : ℕ) (area : Rect) (pix : Canvas) (tx0 tz0 tx1 tz1 : ℚ) :
    Option Canvas :=
  let midx := Int.tdiv (area_w area) 2
  let midy := Int.tdiv (area_h area) 2
  (r_line fuel area pix 0xFFFF00 (tx0 + midx) (tz0 + midy) (tx1 + midx) (tz1 + midy)).bind
    fun pix =>
  (r_line fuel area pix 0x333333 midx midy midx (midy - 10 : ℤ)).bind fun pix =>
  (r_line fuel area pix 0xFFFFFF midx midy midx midy).bind fun pix =>
  r_rect fuel area pix 0x00FF00 0 0 (area_w area - 1) (area_h area - 1)

/-- The three ways through the first-person view: `behind` is the first
    `goto wall_done` (wall completely behind the player), `degenerate` is the
    second one, and `visible tx0 tz0 tx1 tz1` reaches the perspective divide with
    these values. -/
inductive Clip3D where
  | behind
  | degenerate
  | visible (tx0 tz0 tx1 tz1 : F)
  deriving DecidableEq, Repr

/-- The substitution of the clipped endpoints and the second guard of the
    first-person view, for the intersection results `(ix0, iz0)`, `(ix1, iz1)`:
    `if (tz0 > 0) { if (iz0 <= 0) tx0 = ix0, tz0 = iz0; else tx0 = ix1, tz0 = iz1; }`,
    the same for `tx1, tz1`, then `if (tz0 >= 0 || tz1 >= 0) goto wall_done;`. -/
def frustum_pick (tx0 tz0 tx1 tz1 ix0 iz0 ix1 iz1 : F) : Clip3D :=
  let p0 := if tz0.gt (F.fin 0) then (if iz0.le (F.fin 0) then (ix0, iz0) else (ix1, iz1))
    else (tx0, tz0)
  let p1 := if tz1.gt (F.fin 0) then (if iz0.le (F.fin 0) then (ix0, iz0) else (ix1, iz1))
    else (tx1, tz1)
  if p0.2.ge (F.fin 0) || p1.2.ge (F.fin 0) then Clip3D.degenerate
  else Clip3D.visible p0.1 p0.2 p1.1 p1.2

/-- The frustum clip of the first-person view: the guard
    `if (tz0 > 0 && tz1 > 0) goto wall_done;`, the two calls
    `intersect(tx0, tz0, tx1, tz1, -0.0001f, 0.0001f, -50, 5, &ix0, &iz0)` and
    `intersect(tx0, tz0, tx1, tz1, +0.0001f, 0.0001f, +50, 5, &ix1, &iz1)`, and the
    substitution.  Exact arithmetic, with the constant `0.0001f` taken as `1/10000`;
    `B32.clip3d` rounds. -/
def clip3d (tx0 tz0 tx1 tz1 : F) : Clip3D :=
  if tz0.gt (F.fin 0) && tz1.gt (F.fin 0) then Clip3D.behind
  else
    let i0 := intersect tx0 tz0 tx1 tz1 (F.fin (-0.0001)) (F.fin 0.0001) (F.ofInt (-50))
      (F.ofInt 5)
    let i1 := intersect tx0 tz0 tx1 tz1 (F.fin 0.0001) (F.fin 0.0001) (F.ofInt 50) (F.ofInt 5)
    frustum_pick tx0 tz0 tx1 tz1 i0.1 i0.2 i1.1 i1.2

/-- The perspective divide of the first-person view, giving
    `(tx0, tx1, ty0t, ty1t, ty0b, ty1b)`:
    `tx0 = (-tx0 * 50) / tz0 + midx`, `tx1 = (-tx1 * 50) / tz1 + midx`,
    `ty0t = -50 / tz0 + midy`, `ty1t = -50 / tz1 + midy`,
    `ty0b = 50 / tz0 + midy`, `ty1b = 50 / tz1 + midy`.  Exact arithmetic;
    `B32.project` rounds. -/
def project (tx0 tz0 tx1 tz1 : F) (midx midy : ℤ) : F × F × F × F × F × F :=
  ((((tx0.neg).mul (F.ofInt 50)).div tz0).add (F.ofInt midx),
   (((tx1.neg).mul (F.ofInt 50)).div tz1).add (F.ofInt midx),
   ((F.ofInt (-50)).div tz0).add (F.ofInt midy),
   ((F.ofInt (-50)).div tz1).add (F.ofInt midy),
   ((F.ofInt 50).div tz0).add (F.ofInt midy),
   ((F.ofInt 50).div tz1).add (F.ofInt midy))

/-- The four wall `r_line` calls of the first-person view, for the projected
    values `(tx0, tx1, ty0t, ty1t, ty0b, ty1b)`. -/
def draw_wall (fuel : ℕ) (area : Rect) (pix : Canvas) (q : F × F × F × F × F × F) :
    Option Canvas :=
  (r_lineF fuel area pix 0xFFFF00 q.1 q.2.2.1 q.2.1 q.2.2.2.1).bind fun pix =>
  (r_lineF fuel area pix 0xFFFF00 q.2.1 q.2.2.2.1 q.2.1 q.2.2.2.2.2).bind fun pix =>
  (r_lineF fuel area pix 0xFFFF00 q.1 q.2.2.2.2.1 q.2.1 q.2.2.2.2.2).bind fun pix =>
  r_lineF fuel area pix 0xFFFF00 q.1 q.2.2.1 q.1 q.2.2.2.2.1

/-- The block "3D first person view" of `update`, after
    `r_area(215, 50, 315, 150)`, up to and including the border at `wall_done`. -/
def view_3d (fuel : ℕ) (area : Rect) (pix : Canvas) (tx0 tz0 tx1 tz1 : ℚ) : Option Canvas :=
  match clip3d (F.fin tx0) (F.fin tz0) (F.fin tx1) (F.fin tz1) with
  | Clip3D.visible tx0 tz0 tx1 tz1 =>
    let midx := Int.tdiv (area_w area) 2
    let midy := Int.tdiv (area_h area) 2
    (draw_wall fuel area pix (project tx0 tz0 tx1 tz1 midx midy)).bind fun pix =>
    r_rect fuel area pix 0x0000FF 0 0 (area_w area - 1) (area_h area - 1)
  | _ => r_rect fuel area pix 0x0000FF 0 0 (area_w area - 1) (area_h area - 1)

/-- The globals read and written by `update`: the clip-region stack, the movement
    axes and the player state (finite floats). -/
structure Game where
  areas : AreaState
  wishx : ℤ
  wishz : ℤ
  wishlook : ℤ
  px : ℚ
  pz : ℚ
  pangle : ℚ

/-- The function `void update(int* pix, float tdelta)`, in exact arithmetic (`B32.update`
    rounds).  The library functions `sinf` and `cosf` are parameters. -/
def update (fuel : ℕ) (sinf cosf : ℚ → ℚ) (g : Game) (pix : Canvas) (tdelta : ℚ) :
    Option (Game × Canvas) :=
  let pix := r_clear pix 0
  (heading_step fuel g.pangle g.wishlook tdelta).bind fun pangle =>
  let psin := sinf pangle
  let pcos := cosf pangle
  let px := g.px + 20 * tdelta * (g.wishx * pcos + g.wishz * psin)
  let pz := g.pz - 20 * tdelta * (g.wishx * (-psin) + g.wishz * pcos)
  (r_push_area g.areas).bind fun s =>
  let s := r_area s 5 50 105 150
  (view_static fuel s.area pix px pz psin pcos).bind fun pix =>
  let s := r_area s 110 50 210 150
  let t := local_wall px pz psin pcos
  (view_topdown fuel s.area pix t.1 t.2.1 t.2.2.1 t.2.2.2).bind fun pix =>
  let s := r_area s 215 50 315 150
  (view_3d fuel s.area pix t.1 t.2.1 t.2.2.1 t.2.2.2).bind fun pix =>
  (r_pop_area s).map fun s =>
    ({ g with areas := s, px := px, pz := pz, pangle := pangle }, pix)

/-! ## Binary floating point

The definitions above compute with finite floats exactly.  The definitions of
this part round: `Fmt.round` is rounding to nearest, ties to even, to a binary
format, and the namespace `B32` holds the functions of `wall.c` once more, with
every `float` operation rounded to binary32 and every `double` operation rounded
to binary64 (each operation is rounded on its own, no fused multiply-add and no
wider intermediate precision).  An operation of `B32` is the exact operation of
`F` followed by the rounding of its result. -/

/-- The integer nearest to `q`, a tie going to the even one. -/
def rne (q : ℚ) : ℤ :=
  if 2 * Int.fract q < 1 then ⌊q⌋
  else if 1 < 2 * Int.fract q then ⌊q⌋ + 1
  else if ⌊q⌋ % 2 = 0 then ⌊q⌋ else ⌊q⌋ + 1

/-- A binary floating-point format: `prec` significand bits, the least positive
    value `2 ^ emin`, and overflow from magnitude `2 ^ emax` on. -/
structure Fmt where
  prec : ℤ
  emin : ℤ
  emax : ℤ

/-- The format of a C `float` (IEEE 754 binary32). -/
def binary32 : Fmt := ⟨24, -149, 128⟩

/-- The format of a C `double` (IEEE 754 binary64). -/
def binary64 : Fmt := ⟨53, -1074, 1024⟩

/-- Rounding of a real number to the format, to nearest, ties to even: the
    result is a multiple of `2 ^ e`, `e` the exponent of the last place of `q`;
    a result of magnitude `2 ^ emax` or more is an infinity, and a non-zero `q`
    that rounds to zero keeps its sign. -/
def Fmt.round (f : Fmt) (q : ℚ) : F :=
  if q = 0 then F.fin 0
  else
    let e := max (Int.log 2 |q| - (f.prec - 1)) f.emin
    let r := (rne (q / 2 ^ e) : ℚ) * 2 ^ e
    if r = 0 then F.zero (decide (q < 0))
    else if (2 : ℚ) ^ f.emax ≤ |r| then F.inf (decide (q < 0))
    else F.fin r

/-- Rounding of the exact result of an operation to the format; the special
    values are results already. -/
def F.rnd (f : Fmt) : F → F
  | F.fin q => f.round q
  | x => x

/-! ## `wall.c` in binary32 -/

namespace B32

/-- The `float` sum `x + y`. -/
def fadd (x y : F) : F := (x.add y).rnd binary32

/-- The `float` difference `x - y`. -/
def fsub (x y : F) : F := (x.sub y).rnd binary32

/-- The `float` product `x * y`. -/
def fmul (x y : F) : F := (x.mul y).rnd binary32

/-- The `float` quotient `x / y`. -/
def fdiv (x y : F) : F := (x.div y).rnd binary32

/-- Conversion of an `int` to `float`. -/
def ofInt (i : ℤ) : F := (F.ofInt i).rnd binary32

/-- The `double` sum `x + y`. -/
def dadd (x y : F) : F := (x.add y).rnd binary64

/-- The `double` difference `x - y`. -/
def dsub (x y : F) : F := (x.sub y).rnd binary64

/-- The `double` product `x * y`. -/
def dmul (x y : F) : F := (x.mul y).rnd binary64

/-- Conversion of an `int` to `double`. -/
def dofInt (i : ℤ) : F := (F.ofInt i).rnd binary64

/-! ### Line clipping -/

/-- The macro `edge(pval, qval)` of `r_clip_line`, on the interval `(t0, t1)`:
    `none` is `return 0`. -/
def edge (p q : F) (t : F × F) : Option (F × F) :=
  if p.isZero && q.lt (F.fin 0) then none
  else
    let r := fdiv q p
    if p.lt (F.fin 0) then
      if r.gt t.2 then none
      else if r.gt t.1 then some (r, t.2)
      else some t
    else
      if r.lt t.1 then none
      else if r.lt t.2 then some (t.1, r)
      else some t

/-- The function `int r_clip_line(float* x0, float* y0, float* x1, float* y1)`: `none` is the
    result `0`, and `some (x0, y0, x1, y1)` is the result `1` with the rewritten
    endpoints. -/
def r_clip_line (area : Rect) (x0 y0 x1 y1 : F) : Option (F × F × F × F) :=
  let t : F × F := (F.fin 0, F.fin 1)
  let dx := fsub x1 x0
  let dy := fsub y1 y0
  (edge dx.neg (fsub x0 (ofInt area.l)) t).bind fun t =>
  (edge dx (fsub (ofInt (area.r - 1)) x0) t).bind fun t =>
  (edge dy.neg (fsub y0 (ofInt area.t)) t).bind fun t =>
  (edge dy (fsub (ofInt (area.b - 1)) y0) t).bind fun t =>
  some (fadd x0 (fmul t.1 dx), fadd y0 (fmul t.1 dy), fadd x0 (fmul t.2 dx),
    fadd y0 (fmul t.2 dy))

/-! ### General lines -/

/-- The macro `#define m_abs(x) (((x) < 0) ? -(x) : (x))` on a `float`. -/
def m_abs (x : F) : F := if x.lt (F.fin 0) then x.neg else x

/-- The macro `#define m_sign(x) (((x) > 0) - ((x) < 0))` on a `float`. -/
def m_sign (x : F) : ℤ :=
  (if x.gt (F.fin 0) then 1 else 0) - (if x.lt (F.fin 0) then 1 else 0)

/-- The inner loop of `r_line`,
    `while (err >= 0.5f) { if ((int)y0 == (int)y1 + ydir) return; pix[..] = color;
    y0 += ydir, err -= 1; }`.
    The result is the canvas, `y0`, `err`, and whether the `return` was taken. -/
def r_line_inner : ℕ → Canvas → ℤ → F → F → F → ℤ → F → Option (Canvas × F × F × Bool)
  | fuel, c, color, x0, y0, y1, ydir, err =>
    if err.ge (F.fin (1 / 2)) then
      if y0.toInt = y1.toInt + ydir then some (c, y0, err, true)
      else match fuel with
        | 0 => none
        | n + 1 =>
          r_line_inner n (c.store x0.toInt y0.toInt color) color x0 (fadd y0 (ofInt ydir)) y1
            ydir (fsub err (ofInt 1))
    else some (c, y0, err, false)

/-- The outer loop of `r_line`,
    `for (; (int)x0 != (int)x1 + xdir; x0 += xdir) { pix[..] = color; err += errstep; ... }`.
    `ifuel` is the fuel handed to each run of the inner loop. -/
def r_line_walk (ifuel : ℕ) :
    ℕ → Canvas → ℤ → F → F → F → F → ℤ → ℤ → F → F → Option Canvas
  | fuel, c, color, x0, y0, x1, y1, xdir, ydir, errstep, err =>
    if x0.toInt = x1.toInt + xdir then some c
    else match fuel with
      | 0 => none
      | n + 1 =>
        match r_line_inner ifuel (c.store x0.toInt y0.toInt color) color x0 y0 y1 ydir
            (fadd err errstep) with
        | none => none
        | some (c, _, _, true) => some c
        | some (c, y0, err, false) =>
          r_line_walk ifuel n c color (fadd x0 (ofInt xdir)) y0 x1 y1 xdir ydir errstep err

/-- The function `void r_line(int* pix, int color, float x0, float y0, float x1, float y1)`. -/
def r_line (fuel : ℕ) (area : Rect) (c : Canvas) (color : ℤ) (x0 y0 x1 y1 : F) :
    Option Canvas :=
  let x0 := ofInt (x0.toInt + area.l)
  let x1 := ofInt (x1.toInt + area.l)
  let y0 := ofInt (y0.toInt + area.t)
  let y1 := ofInt (y1.toInt + area.t)
  if x0.beq x1 then r_vline fuel area c color x0.toInt y0.toInt y1.toInt
  else if y0.beq y1 then r_hline fuel area c color x0.toInt x1.toInt y0.toInt
  else
    match r_clip_line area x0 y0 x1 y1 with
    | none => some c
    | some (x0, y0, x1, y1) =>
      let x0 := ofInt (fadd x0 (F.fin (1 / 2))).toInt
      let x1 := ofInt (fadd x1 (F.fin (1 / 2))).toInt
      let y0 := ofInt (fadd y0 (F.fin (1 / 2))).toInt
      let y1 := ofInt (fadd y1 (F.fin (1 / 2))).toInt
      let dx := fsub x1 x0
      let dy := fsub y1 y0
      let errstep := m_abs (fdiv dy dx)
      let xdir := m_sign dx
      let ydir := m_sign dy
      r_line_walk fuel fuel c color x0 y0 x1 y1 xdir ydir errstep (F.fin 0)

/-- The function `void r_rect(int* pix, int color, int l, int t, int r, int b)` -/
def r_rect (fuel : ℕ) (area : Rect) (c : Canvas) (color l t r b : ℤ) : Option Canvas :=
  (r_line fuel area c color (ofInt l) (ofInt t) (ofInt r) (ofInt t)).bind fun c =>
  (r_line fuel area c color (ofInt r) (ofInt t) (ofInt r) (ofInt b)).bind fun c =>
  (r_line fuel area c color (ofInt l) (ofInt b) (ofInt r) (ofInt b)).bind fun c =>
  r_line fuel area c color (ofInt l) (ofInt t) (ofInt l) (ofInt b)

/-! ### Intersection -/

/-- The macro `#define cross(x0, y0, x1, y1) ((x0) * (y1) - (y0) * (x1))` -/
def cross (x0 y0 x1 y1 : F) : F := fsub (fmul x0 y1) (fmul y0 x1)

/-- The function `void intersect(...)`: the pair `(*ix, *iy)`. -/
def intersect (rx0 ry0 rx1 ry1 sx0 sy0 sx1 sy1 : F) : F × F :=
  let x := cross rx0 ry0 rx1 ry1
  let y := cross sx0 sy0 sx1 sy1
  let denom := cross (fsub rx0 rx1) (fsub ry0 ry1) (fsub sx0 sx1) (fsub sy0 sy1)
  (fdiv (cross x (fsub rx0 rx1) y (fsub sx0 sx1)) denom,
   fdiv (cross x (fsub ry0 ry1) y (fsub sy0 sy1)) denom)

/-! ### Scene update -/

/-- The constant `M_PI` of `<math.h>`: the `double` nearest to
    `3.14159265358979323846`. -/
def M_PI : F := binary64.round 3.14159265358979323846

/-- The `double` expression `2*M_PI`. -/
def two_pi : F := dmul (dofInt 2) M_PI

/-- The loop `while (pangle < 0) pangle += 2*M_PI;` of `update`: the sum is a
    `double`, converted to `float` by the assignment. -/
def norm_lo : ℕ → F → Option F
  | fuel, pangle =>
    if pangle.lt (F.fin 0) then
      match fuel with
      | 0 => none
      | n + 1 => norm_lo n ((dadd pangle two_pi).rnd binary32)
    else some pangle

/-- The loop `while (pangle >= 2*M_PI) pangle -= 2*M_PI;` of `update`: the
    comparison and the difference are in `double`. -/
def norm_hi : ℕ → F → Option F
  | fuel, pangle =>
    if pangle.ge two_pi then
      match fuel with
      | 0 => none
      | n + 1 => norm_hi n ((dsub pangle two_pi).rnd binary32)
    else some pangle

/-- The heading update of `update`:
    `pangle += M_PI * wishlook * tdelta;` (a `double` expression, converted to `float`
    by the assignment) followed by the two normalisation loops. -/
def heading_step (fuel : ℕ) (pangle : F) (wishlook : ℤ) (tdelta : F) : Option F :=
  (norm_lo fuel ((dadd pangle (dmul (dmul M_PI (dofInt wishlook)) tdelta)).rnd binary32)).bind
    fun pangle => norm_hi fuel pangle

/-- The wall in the player's frame, `(tx0, tz0, tx1, tz1)`:
    `tx0 = (wx0-px) * pcos + (wz0-pz) * psin`, `tx1 = (wx1-px) * pcos + (wz1-pz) * psin`,
    `tz0 = (wx0-px) * (-psin) + (wz0-pz) * pcos`, `tz1 = (wx1-px) * (-psin) + (wz1-pz) * pcos`. -/
def local_wall (px pz psin pcos : F) : F × F × F × F :=
  (fadd (fmul (fsub (ofInt wx0) px) pcos) (fmul (fsub (ofInt wz0) pz) psin),
   fadd (fmul (fsub (ofInt wx0) px) psin.neg) (fmul (fsub (ofInt wz0) pz) pcos),
   fadd (fmul (fsub (ofInt wx1) px) pcos) (fmul (fsub (ofInt wz1) pz) psin),
   fadd (fmul (fsub (ofInt wx1) px) psin.neg) (fmul (fsub (ofInt wz1) pz) pcos))

/-- The block "2D static view" of `update`, after `r_area(5, 50, 105, 150)`. -/
def view_static (fuel : ℕ) (area : Rect) (pix : Canvas) (px pz psin pcos : F) :
    Option Canvas :=
  (r_line fuel area pix 0xFFFF00 (ofInt wx0) (ofInt wz0) (ofInt wx1) (ofInt wz0)).bind fun pix =>
  (r_line fuel area pix 0x333333 px pz (fadd px (fmul (ofInt 10) psin))
    (fsub pz (fmul (ofInt 10) pcos))).bind fun pix =>
  (r_line fuel area pix 0xFFFFFF px pz px pz).bind fun pix =>
  r_rect fuel area pix 0xFF0000 0 0 (area_w area - 1) (area_h area - 1)

/-- The block "2D top-down view" of `update`, after `r_area(110, 50, 210, 150)`,
    for the wall `(tx0, tz0, tx1, tz1)` in the player's frame. -/
def view_topdown (fuel : ℕ) (area : Rect) (pix : Canvas) (tx0 tz0 tx1 tz1 : F) :
    Option Canvas :=
  let midx := Int.tdiv (area_w area) 2
  let midy := Int.tdiv (area_h area) 2
  (r_line fuel area pix 0xFFFF00 (fadd tx0 (ofInt midx)) (fadd tz0 (ofInt midy))
    (fadd tx1 (ofInt midx)) (fadd tz1 (ofInt midy))).bind fun pix =>
  (r_line fuel area pix 0x333333 (ofInt midx) (ofInt midy) (ofInt midx)
    (ofInt (midy - 10))).bind fun pix =>
  (r_line fuel area pix 0xFFFFFF (ofInt midx) (ofInt midy) (ofInt midx) (ofInt midy)).bind
    fun pix =>
  r_rect fuel area pix 0x00FF00 0 0 (area_w area - 1) (area_h area - 1)

/-- The frustum clip of the first-person view: the guard
    `if (tz0 > 0 && tz1 > 0) goto wall_done;`, the two calls
    `intersect(tx0, tz0, tx1, tz1, -0.0001f, 0.0001f, -50, 5, &ix0, &iz0)` and
    `intersect(tx0, tz0, tx1, tz1, +0.0001f, 0.0001f, +50, 5, &ix1, &iz1)`, and the
    substitution `frustum_pick`, which only compares.  The constant `0.0001f` is
    the `float` nearest to `0.0001`. -/
def clip3d (tx0 tz0 tx1 tz1 : F) : Clip3D :=
  if tz0.gt (F.fin 0) && tz1.gt (F.fin 0) then Clip3D.behind
  else
    let i0 := intersect tx0 tz0 tx1 tz1 (binary32.round 0.0001).neg (binary32.round 0.0001)
      (ofInt (-50)) (ofInt 5)
    let i1 := intersect tx0 tz0 tx1 tz1 (binary32.round 0.0001) (binary32.round 0.0001)
      (ofInt 50) (ofInt 5)
    frustum_pick tx0 tz0 tx1 tz1 i0.1 i0.2 i1.1 i1.2

/-- The perspective divide of the first-person view, giving
    `(tx0, tx1, ty0t, ty1t, ty0b, ty1b)`:
    `tx0 = (-tx0 * 50) / tz0 + midx`, `tx1 = (-tx1 * 50) / tz1 + midx`,
    `ty0t = -50 / tz0 + midy`, `ty1t = -50 / tz1 + midy`,
    `ty0b = 50 / tz0 + midy`, `ty1b = 50 / tz1 + midy`. -/
def project (tx0 tz0 tx1 tz1 : F) (midx midy : ℤ) : F × F × F × F × F × F :=
  (fadd (fdiv (fmul tx0.neg (ofInt 50)) tz0) (ofInt midx),
   fadd (fdiv (fmul tx1.neg (ofInt 50)) tz1) (ofInt midx),
   fadd (fdiv (ofInt (-50)) tz0) (ofInt midy),
   fadd (fdiv (ofInt (-50)) tz1) (ofInt midy),
   fadd (fdiv (ofInt 50) tz0) (ofInt midy),
   fadd (fdiv (ofInt 50) tz1) (ofInt midy))

/-- The four wall `r_line` calls of the first-person view, for the projected
    values `(tx0, tx1, ty0t, ty1t, ty0b, ty1b)`. -/
def draw_wall (fuel : ℕ) (area : Rect) (pix : Canvas) (q : F × F × F × F × F × F) :
    Option Canvas :=
  (r_line fuel area pix 0xFFFF00 q.1 q.2.2.1 q.2.1 q.2.2.2.1).bind fun pix =>
  (r_line fuel area pix 0xFFFF00 q.2.1 q.2.2.2.1 q.2.1 q.2.2.2.2.2).bind fun pix =>
  (r_line fuel area pix 0xFFFF00 q.1 q.2.2.2.2.1 q.2.1 q.2.2.2.2.2).bind fun pix =>
  r_line fuel area pix 0xFFFF00 q.1 q.2.2.1 q.1 q.2.2.2.2.1

/-- The block "3D first person view" of `update`, after
    `r_area(215, 50, 315, 150)`, up to and including the border at `wall_done`. -/
def view_3d (fuel : ℕ) (area : Rect) (pix : Canvas) (tx0 tz0 tx1 tz1 : F) : Option Canvas :=
  match clip3d tx0 tz0 tx1 tz1 with
  | Clip3D.visible tx0 tz0 tx1 tz1 =>
    let midx := Int.tdiv (area_w area) 2
    let midy := Int.tdiv (area_h area) 2
    (draw_wall fuel area pix (project tx0 tz0 tx1 tz1 midx midy)).bind fun pix =>
    r_rect fuel area pix 0x0000FF 0 0 (area_w area - 1) (area_h area - 1)
  | _ => r_rect fuel area pix 0x0000FF 0 0 (area_w area - 1) (area_h area - 1)

/-- The globals read and written by `update`: the clip-region stack, the movement
    axes and the player state. -/
structure Game where
  areas : AreaState
  wishx : ℤ
  wishz : ℤ
  wishlook : ℤ
  px : F
  pz : F
  pangle : F

/-- The function `void update(int* pix, float tdelta)`.  The library functions `sinf` and
    `cosf` are parameters. -/
def update (fuel : ℕ) (sinf cosf : F → F) (g : Game) (pix : Canvas) (tdelta : F) :
    Option (Game × Canvas) :=
  let pix := r_clear pix 0
  (heading_step fuel g.pangle g.wishlook tdelta).bind fun pangle =>
  let psin := sinf pangle
  let pcos := cosf pangle
  let px := fadd g.px (fmul (fmul (ofInt 20) tdelta)
    (fadd (fmul (ofInt g.wishx) pcos) (fmul (ofInt g.wishz) psin)))
  let pz := fsub g.pz (fmul (fmul (ofInt 20) tdelta)
    (fadd (fmul (ofInt g.wishx) psin.neg) (fmul (ofInt g.wishz) pcos)))
  (r_push_area g.areas).bind fun s =>
  let s := r_area s 5 50 105 150
  (view_static fuel s.area pix px pz psin pcos).bind fun pix =>
  let s := r_area s 110 50 210 150
  let t := local_wall px pz psin pcos
  (view_topdown fuel s.area pix t.1 t.2.1 t.2.2.1 t.2.2.2).bind fun pix =>
  let s := r_area s 215 50 315 150
  (view_3d fuel s.area pix t.1 t.2.1 t.2.2.1 t.2.2.2).bind fun pix =>
  (r_pop_area s).map fun s =>
    ({ g with areas := s, px := px, pz := pz, pangle := pangle }, pix)

end B32

/-! ## Specification vocabulary -/

/-- The canvas after the stores `pix[y * W + x] = color` for the positions of
    `ws`, in order. -/
def Canvas.paint (c : Canvas) (color : ℤ) (ws : List (ℤ × ℤ)) : Canvas :=
  ws.foldl (fun c p => c.store p.1 p.2 color) c

/-- The positions `(x, y0), (x, y0 + dir), ...`, `n` of them. -/
def vrun (x y0 dir : ℤ) (n : ℕ) : List (ℤ × ℤ) :=
  (List.range n).map fun (k : ℕ) => (x, y0 + (k : ℤ) * dir)

/-- The positions `(x0, y), (x0 + dir, y), ...`, `n` of them. -/
def hrun (x0 y dir : ℤ) (n : ℕ) : List (ℤ × ℤ) :=
  (List.range n).map fun (k : ℕ) => (x0 + (k : ℤ) * dir, y)

/-- From canvas `c` to canvas `c1`, exactly the positions satisfying `S` were
    written, with `color`: the log grew by positions that are exactly those of `S`,
    every index `y * W + x` of such a position holds `color`, and every other
    index holds what it held. -/
def Canvas.wroteExactly (c c1 : Canvas) (color : ℤ) (S : ℤ × ℤ → Prop) : Prop :=
  (∃ ws, c1.log = c.log ++ ws ∧ ∀ p, p ∈ ws ↔ S p) ∧
  (∀ i, (∃ p, S p ∧ p.2 * W + p.1 = i) → c1.pix i = color) ∧
  (∀ i, (¬ ∃ p, S p ∧ p.2 * W + p.1 = i) → c1.pix i = c.pix i)

/-- The heading after a sequence of frames, each given by its `wishlook` and
    `tdelta`, from the heading `a`. -/
def heading_seq (fuel : ℕ) : List (ℤ × ℚ) → ℚ → Option ℚ
  | [], a => some a
  | f :: fs, a => (heading_step fuel a f.1 f.2).bind (heading_seq fuel fs)

/-- The heading after a sequence of frames in binary32, each given by its
    `wishlook` and `tdelta`, from the heading `a`. -/
def B32.heading_seq (fuel : ℕ) : List (ℤ × F) → F → Option F
  | [], a => some a
  | f :: fs, a => (B32.heading_step fuel a f.1 f.2).bind (B32.heading_seq fuel fs)

/-- Two positions are the same or neighbours, diagonals included. -/
def adjacent (p q : ℤ × ℤ) : Prop := |q.1 - p.1| ≤ 1 ∧ |q.2 - p.2| ≤ 1

/-- A drawing operation returns for every sufficient fuel, on every canvas. -/
def Terminates (f : ℕ → Canvas → Option Canvas) : Prop :=
  ∃ N, ∀ fuel, N ≤ fuel → ∀ c, ∃ c1, f fuel c = some c1

/-- A sequence of `r_area` calls, each given by its four arguments. -/
def r_area_seq (s : AreaState) (calls : List (ℤ × ℤ × ℤ × ℤ)) : AreaState :=
  calls.foldl (fun s q => r_area s q.1 q.2.1 q.2.2.1 q.2.2.2) s

/-! ## The clip-region stack -/

theorem r_area_seq_top (calls : List (ℤ × ℤ × ℤ × ℤ)) (s : AreaState) :
    (r_area_seq s calls).area_stack_top = s.area_stack_top ∧
    (r_area_seq s calls).area_stack = s.area_stack := by
  induction calls generalizing s with
  | nil => exact ⟨rfl, rfl⟩
  | cons q qs ih =>
    have h := ih (r_area s q.1 q.2.1 q.2.2.1 q.2.2.2)
    simpa [r_area_seq, r_area] using h

theorem r_pop_area_of_top (s : AreaState) (k : ℕ) (hk : k < AREA_STACK_SIZE)
    (htop : s.area_stack_top = k + 1) :
    ∃ s2, r_pop_area s = some s2 ∧ s2.area = s.area_stack ⟨k, hk⟩ ∧
      s2.area_stack_top = k ∧ s2.area_stack = s.area_stack := by
  obtain ⟨a, top, st⟩ := s
  simp only at htop
  subst htop
  refine ⟨⟨st ⟨k, hk⟩, k, st⟩, ?_, rfl, rfl, rfl⟩
  simp [r_pop_area, hk]

/-- C8: when `area_stack_top < AREA_STACK_SIZE`, `r_push_area`, then any finite
    sequence of `r_area` calls, then `r_pop_area` all succeed and leave `area` and
    `area_stack_top` as they were before the push. -/
theorem push_area_seq_pop (s : AreaState) (calls : List (ℤ × ℤ × ℤ × ℤ))
    (h : s.area_stack_top < AREA_STACK_SIZE) :
    ∃ s1 s2, r_push_area s = some s1 ∧ r_pop_area (r_area_seq s1 calls) = some s2 ∧
      s2.area = s.area ∧ s2.area_stack_top = s.area_stack_top := by
  have hp : r_push_area s = some { s with
      area_stack := Function.update s.area_stack ⟨s.area_stack_top, h⟩ s.area
      area_stack_top := s.area_stack_top + 1 } := by
    simp [r_push_area, h]
  obtain ⟨h1, h2⟩ := r_area_seq_top calls { s with
      area_stack := Function.update s.area_stack ⟨s.area_stack_top, h⟩ s.area
      area_stack_top := s.area_stack_top + 1 }
  obtain ⟨s2, e2, a2, t2, -⟩ := r_pop_area_of_top _ s.area_stack_top h h1
  refine ⟨_, s2, hp, e2, ?_, t2⟩
  rw [a2, h2]
  simp

/-- C8 at a concrete state: top `3`, two intervening `r_area` calls. -/
theorem push_area_seq_pop_witness :
    ∃ s1 s2, r_push_area ⟨⟨1, 2, 3, 4⟩, 3, fun _ => area_init⟩ = some s1 ∧
      r_pop_area (r_area_seq s1 [(5, 50, 105, 150), (110, 50, 210, 150)]) = some s2 ∧
      s2.area = ⟨1, 2, 3, 4⟩ ∧ s2.area_stack_top = 3 :=
  push_area_seq_pop ⟨⟨1, 2, 3, 4⟩, 3, fun _ => area_init⟩
    [(5, 50, 105, 150), (110, 50, 210, 150)] (by decide)

/-! ## Painting -/

theorem paint_nil (c : Canvas) (color : ℤ) : c.paint color [] = c := rfl

theorem paint_cons (c : Canvas) (color : ℤ) (p : ℤ × ℤ) (ws : List (ℤ × ℤ)) :
    c.paint color (p :: ws) = (c.store p.1 p.2 color).paint color ws := rfl

theorem paint_append (c : Canvas) (color : ℤ) (ws vs : List (ℤ × ℤ)) :
    c.paint color (ws ++ vs) = (c.paint color ws).paint color vs := by
  simp [Canvas.paint, List.foldl_append]

theorem paint_log (color : ℤ) (ws : List (ℤ × ℤ)) (c : Canvas) :
    (c.paint color ws).log = c.log ++ ws := by
  induction ws generalizing c with
  | nil => simp [paint_nil]
  | cons p ws ih => rw [paint_cons, ih]; simp [Canvas.store]

theorem paint_pix (color : ℤ) (ws : List (ℤ × ℤ)) (c : Canvas) (i : ℤ) :
    (c.paint color ws).pix i =
      if ∃ p, p ∈ ws ∧ p.2 * W + p.1 = i then color else c.pix i := by
  induction ws generalizing c with
  | nil => simp [paint_nil]
  | cons p ws ih =>
    rw [paint_cons, ih]
    by_cases h : ∃ q, q ∈ ws ∧ q.2 * W + q.1 = i
    · have h2 : ∃ q, q ∈ p :: ws ∧ q.2 * W + q.1 = i := by
        obtain ⟨q, hq, e⟩ := h
        exact ⟨q, List.mem_cons_of_mem _ hq, e⟩
      rw [if_pos h, if_pos h2]
    · rw [if_neg h]
      by_cases hp : p.2 * W + p.1 = i
      · have h2 : ∃ q, q ∈ p :: ws ∧ q.2 * W + q.1 = i := ⟨p, List.mem_cons_self _ _, hp⟩
        rw [if_pos h2]
        simp [Canvas.store, hp]
      · have h2 : ¬ ∃ q, q ∈ p :: ws ∧ q.2 * W + q.1 = i := by
          rintro ⟨q, hq, e⟩
          rcases List.mem_cons.1 hq with rfl | hq
          · exact hp e
          · exact h ⟨q, hq, e⟩
        rw [if_neg h2]
        simp only [Canvas.store]
        exact Function.update_noteq (Ne.symm hp) _ _

theorem paint_wroteExactly (c : Canvas) (color : ℤ) (ws : List (ℤ × ℤ))
    (S : ℤ × ℤ → Prop) (hS : ∀ p, p ∈ ws ↔ S p) :
    c.wroteExactly (c.paint color ws) color S := by
  refine ⟨⟨ws, paint_log color ws c, hS⟩, ?_, ?_⟩
  · rintro i ⟨p, hp, e⟩
    rw [paint_pix, if_pos ⟨p, (hS p).2 hp, e⟩]
  · intro i hi
    rw [paint_pix, if_neg]
    rintro ⟨p, hp, e⟩
    exact hi ⟨p, (hS p).1 hp, e⟩

/-! ## Vertical and horizontal lines -/

theorem dir_eq (d : ℤ) : Int.lor (m_sign d) 1 = if d < 0 then -1 else 1 := by
  rcases lt_trichotomy d 0 with h | h | h
  · have e : m_sign d = -1 := by simp [m_sign, h, not_lt.2 h.le]
    rw [e, if_pos h]
    show Int.negSucc (Nat.ldiff 0 1) = _
    simp [Nat.ldiff]
  · subst h
    simp [m_sign, Int.lor]
  · have e : m_sign d = 1 := by simp [m_sign, h, not_lt.2 h.le]
    rw [e, if_neg (not_lt.2 h.le)]
    simp [Int.lor]

theorem vrun_succ (x y0 dir : ℤ) (n : ℕ) :
    vrun x y0 dir (n + 1) = (x, y0) :: vrun x (y0 + dir) dir n := by
  simp only [vrun, List.range_succ_eq_map, List.map_cons, List.map_map]
  refine congrArg₂ _ (by simp) (List.map_congr_left ?_)
  intro k _
  simp only [Function.comp, Nat.succ_eq_add_one]
  push_cast
  ring_nf

theorem hrun_succ (x0 y dir : ℤ) (n : ℕ) :
    hrun x0 y dir (n + 1) = (x0, y) :: hrun (x0 + dir) y dir n := by
  simp only [hrun, List.range_succ_eq_map, List.map_cons, List.map_map]
  refine congrArg₂ _ (by simp) (List.map_congr_left ?_)
  intro k _
  simp only [Function.comp, Nat.succ_eq_add_one]
  push_cast
  ring_nf

theorem r_vline_loop_run (color x dir : ℤ) (hdir : dir ≠ 0) (n : ℕ) :
    ∀ (fuel : ℕ) (c : Canvas) (y0 y1 : ℤ), y0 + n * dir = y1 + dir → n ≤ fuel →
      r_vline_loop fuel c color x y0 y1 dir = some (c.paint color (vrun x y0 dir n)) := by
  induction n with
  | zero =>
    intro fuel c y0 y1 h _
    have h2 : y0 = y1 + dir := by simpa using h
    unfold r_vline_loop
    rw [if_pos h2]
    rfl
  | succ n ih =>
    intro fuel c y0 y1 h hf
    have h2 : y0 ≠ y1 + dir := by
      intro e
      rw [e] at h
      have : ((n : ℤ) + 1) * dir = 0 := by push_cast at h; linarith
      rcases mul_eq_zero.1 this with h3 | h3
      · omega
      · exact hdir h3
    obtain ⟨m, rfl⟩ : ∃ m, fuel = m + 1 := ⟨fuel - 1, by omega⟩
    unfold r_vline_loop
    rw [if_neg h2, vrun_succ, paint_cons]
    exact ih m _ _ _ (by push_cast at h; linarith) (by omega)

theorem r_hline_loop_run (color y dir : ℤ) (hdir : dir ≠ 0) (n : ℕ) :
    ∀ (fuel : ℕ) (c : Canvas) (x0 x1 : ℤ), x0 + n * dir = x1 + dir → n ≤ fuel →
      r_hline_loop fuel c color x0 x1 y dir = some (c.paint color (hrun x0 y dir n)) := by
  induction n with
  | zero =>
    intro fuel c x0 x1 h _
    have h2 : x0 = x1 + dir := by simpa using h
    unfold r_hline_loop
    rw [if_pos h2]
    rfl
  | succ n ih =>
    intro fuel c x0 x1 h hf
    have h2 : x0 ≠ x1 + dir := by
      intro e
      rw [e] at h
      have : ((n : ℤ) + 1) * dir = 0 := by push_cast at h; linarith
      rcases mul_eq_zero.1 this with h3 | h3
      · omega
      · exact hdir h3
    obtain ⟨m, rfl⟩ : ∃ m, fuel = m + 1 := ⟨fuel - 1, by omega⟩
    unfold r_hline_loop
    rw [if_neg h2, hrun_succ, paint_cons]
    exact ih m _ _ _ (by push_cast at h; linarith) (by omega)

theorem mem_vrun (x y0 dir : ℤ) (n : ℕ) (p : ℤ × ℤ) :
    p ∈ vrun x y0 dir n ↔ ∃ k : ℕ, k < n ∧ p = (x, y0 + k * dir) := by
  simp only [vrun, List.mem_map, List.mem_range]
  constructor
  · rintro ⟨k, hk, rfl⟩; exact ⟨k, hk, rfl⟩
  · rintro ⟨k, hk, rfl⟩; exact ⟨k, hk, rfl⟩

theorem mem_hrun (x0 y dir : ℤ) (n : ℕ) (p : ℤ × ℤ) :
    p ∈ hrun x0 y dir n ↔ ∃ k : ℕ, k < n ∧ p = (x0 + k * dir, y) := by
  simp only [hrun, List.mem_map, List.mem_range]
  constructor
  · rintro ⟨k, hk, rfl⟩; exact ⟨k, hk, rfl⟩
  · rintro ⟨k, hk, rfl⟩; exact ⟨k, hk, rfl⟩

/-- The positions of a run from `a` to `b` (either order) are those between them. -/
theorem mem_vrun_between (x a b : ℤ) (p : ℤ × ℤ) :
    p ∈ vrun x a (if b - a < 0 then -1 else 1) ((b - a).natAbs + 1) ↔
      p.1 = x ∧ min a b ≤ p.2 ∧ p.2 ≤ max a b := by
  rw [mem_vrun]
  obtain ⟨p1, p2⟩ := p
  simp only [Prod.mk.injEq]
  constructor
  · rintro ⟨k, hk, rfl, rfl⟩
    split_ifs with h <;> refine ⟨rfl, ?_, ?_⟩ <;> omega
  · rintro ⟨rfl, h1, h2⟩
    refine ⟨(p2 - a).natAbs, ?_, rfl, ?_⟩
    · omega
    · split_ifs with h <;> omega

theorem mem_hrun_between (y a b : ℤ) (p : ℤ × ℤ) :
    p ∈ hrun a y (if b - a < 0 then -1 else 1) ((b - a).natAbs + 1) ↔
      p.2 = y ∧ min a b ≤ p.1 ∧ p.1 ≤ max a b := by
  rw [mem_hrun]
  obtain ⟨p1, p2⟩ := p
  simp only [Prod.mk.injEq]
  constructor
  · rintro ⟨k, hk, rfl, rfl⟩
    split_ifs with h <;> refine ⟨rfl, ?_, ?_⟩ <;> omega
  · rintro ⟨rfl, h1, h2⟩
    refine ⟨(p1 - a).natAbs, ?_, ?_, rfl⟩
    · omega
    · split_ifs with h <;> omega

theorem r_vline_run (fuel : ℕ) (area : Rect) (c : Canvas) (color x y0 y1 : ℤ)
    (hx : ¬ (x < area.l ∨ x ≥ area.r))
    (hf : (m_clamp y1 area.t (area.b - 1) - m_clamp y0 area.t (area.b - 1)).natAbs + 1 ≤ fuel) :
    r_vline fuel area c color x y0 y1 =
      some (c.paint color (vrun x (m_clamp y0 area.t (area.b - 1))
        (if m_clamp y1 area.t (area.b - 1) - m_clamp y0 area.t (area.b - 1) < 0 then -1 else 1)
        ((m_clamp y1 area.t (area.b - 1) - m_clamp y0 area.t (area.b - 1)).natAbs + 1))) := by
  unfold r_vline
  rw [if_neg hx]
  simp only [dir_eq]
  apply r_vline_loop_run _ _ _ _ _ _ _ _ _ _ hf
  · split_ifs <;> decide
  · split_ifs with h <;> simp only [Nat.cast_add, Nat.cast_one] <;> omega

theorem r_hline_run (fuel : ℕ) (area : Rect) (c : Canvas) (color x0 x1 y : ℤ)
    (hy : ¬ (y < area.t ∨ y ≥ area.b))
    (hf : (m_clamp x1 area.l (area.r - 1) - m_clamp x0 area.l (area.r - 1)).natAbs + 1 ≤ fuel) :
    r_hline fuel area c color x0 x1 y =
      some (c.paint color (hrun (m_clamp x0 area.l (area.r - 1)) y
        (if m_clamp x1 area.l (area.r - 1) - m_clamp x0 area.l (area.r - 1) < 0 then -1 else 1)
        ((m_clamp x1 area.l (area.r - 1) - m_clamp x0 area.l (area.r - 1)).natAbs + 1))) := by
  unfold r_hline
  rw [if_neg hy]
  simp only [dir_eq]
  apply r_hline_loop_run _ _ _ _ _ _ _ _ _ _ hf
  · split_ifs <;> decide
  · split_ifs with h <;> simp only [Nat.cast_add, Nat.cast_one] <;> omega

/-- C6: `r_vline` terminates (every sufficient fuel gives a result).  When `x < l`
    or `x >= r` the canvas is unchanged; otherwise exactly the positions `(x, y)`
    with `y` between `c(y0)` and `c(y1)` inclusive, `c(v) = max(t, min(v, b-1))`,
    are set to the colour and every other index is unchanged, and with `y0 = y1`
    exactly one position is written.  `r_hline` does the same with the axes
    exchanged. -/
theorem r_vline_r_hline_spec (area : Rect) (c : Canvas) (color u v0 v1 : ℤ) :
    (∃ N, ∀ fuel, N ≤ fuel → ∃ c1, r_vline fuel area c color u v0 v1 = some c1 ∧
      ((u < area.l ∨ u ≥ area.r) → c1 = c) ∧
      (¬ (u < area.l ∨ u ≥ area.r) →
        c.wroteExactly c1 color (fun p => p.1 = u ∧
          min (m_clamp v0 area.t (area.b - 1)) (m_clamp v1 area.t (area.b - 1)) ≤ p.2 ∧
          p.2 ≤ max (m_clamp v0 area.t (area.b - 1)) (m_clamp v1 area.t (area.b - 1))) ∧
        (v0 = v1 → c1.log = c.log ++ [(u, m_clamp v0 area.t (area.b - 1))]))) ∧
    (∃ N, ∀ fuel, N ≤ fuel → ∃ c1, r_hline fuel area c color v0 v1 u = some c1 ∧
      ((u < area.t ∨ u ≥ area.b) → c1 = c) ∧
      (¬ (u < area.t ∨ u ≥ area.b) →
        c.wroteExactly c1 color (fun p => p.2 = u ∧
          min (m_clamp v0 area.l (area.r - 1)) (m_clamp v1 area.l (area.r - 1)) ≤ p.1 ∧
          p.1 ≤ max (m_clamp v0 area.l (area.r - 1)) (m_clamp v1 area.l (area.r - 1))) ∧
        (v0 = v1 → c1.log = c.log ++ [(m_clamp v0 area.l (area.r - 1), u)]))) := by
  constructor
  · refine ⟨(m_clamp v1 area.t (area.b - 1) - m_clamp v0 area.t (area.b - 1)).natAbs + 1, ?_⟩
    intro fuel hf
    by_cases hx : u < area.l ∨ u ≥ area.r
    · exact ⟨c, by simp [r_vline, hx], fun _ => rfl, fun h => absurd hx h⟩
    · refine ⟨_, r_vline_run fuel area c color u v0 v1 hx hf, fun h => absurd h hx, fun _ => ?_⟩
      refine ⟨paint_wroteExactly _ _ _ _ (mem_vrun_between _ _ _), ?_⟩
      rintro rfl
      rw [paint_log]
      simp [vrun, List.range_succ]
  · refine ⟨(m_clamp v1 area.l (area.r - 1) - m_clamp v0 area.l (area.r - 1)).natAbs + 1, ?_⟩
    intro fuel hf
    by_cases hy : u < area.t ∨ u ≥ area.b
    · exact ⟨c, by simp [r_hline, hy], fun _ => rfl, fun h => absurd hy h⟩
    · refine ⟨_, r_hline_run fuel area c color v0 v1 u hy hf, fun h => absurd h hy, fun _ => ?_⟩
      refine ⟨paint_wroteExactly _ _ _ _ (mem_hrun_between _ _ _), ?_⟩
      rintro rfl
      rw [paint_log]
      simp [hrun, List.range_succ]

/-! ## Horizontal lines through `r_line` -/

theorem m_clamp_eq (x a b : ℤ) : m_clamp x a b = max a (min x b) := by
  unfold m_clamp m_max m_min
  split_ifs <;> omega

theorem ctrunc_intCast (z : ℤ) : ctrunc (z : ℚ) = z := by
  unfold ctrunc
  split_ifs <;> simp

/-- C9: with the clip rectangle equal to the full canvas, `r_line` between two
    distinct integer points `(x0, y)`, `(x1, y)` of the canvas terminates and sets
    exactly the positions `(x, y)` with `min(x0,x1) <= x <= max(x0,x1)`, in the order
    of the walk from `x0` to `x1`, changing no other index. -/
theorem r_line_horizontal_full (c : Canvas) (color x0 x1 y : ℤ)
    (hx0 : 0 ≤ x0 ∧ x0 < W) (hx1 : 0 ≤ x1 ∧ x1 < W) (hne : x0 ≠ x1) (hy : 0 ≤ y ∧ y < H) :
    ∃ N, ∀ fuel, N ≤ fuel → ∃ c1, r_line fuel area_init c color x0 y x1 y = some c1 ∧
      c.wroteExactly c1 color (fun p => p.2 = y ∧ min x0 x1 ≤ p.1 ∧ p.1 ≤ max x0 x1) ∧
      c1.log = c.log ++ hrun x0 y (if x1 - x0 < 0 then -1 else 1) ((x1 - x0).natAbs + 1) := by
  have e0 : m_clamp (x0 + 0) area_init.l (area_init.r - 1) = x0 := by
    rw [m_clamp_eq]; simp only [area_init, W] at *; omega
  have e1 : m_clamp (x1 + 0) area_init.l (area_init.r - 1) = x1 := by
    rw [m_clamp_eq]; simp only [area_init, W] at *; omega
  refine ⟨(x1 - x0).natAbs + 1, fun fuel hf => ?_⟩
  have hy2 : ¬ (y + 0 < area_init.t ∨ y + 0 ≥ area_init.b) := by
    simp only [area_init, H] at *; omega
  have hr := r_hline_run fuel area_init c color (x0 + 0) (x1 + 0) (y + 0) hy2
    (by rw [e0, e1]; exact hf)
  rw [e0, e1] at hr
  simp only [add_zero] at hr
  refine ⟨c.paint color (hrun x0 y (if x1 - x0 < 0 then -1 else 1) ((x1 - x0).natAbs + 1)),
    ?_, paint_wroteExactly _ _ _ _ ?_, ?_⟩
  · unfold r_line
    simp only [ctrunc_intCast]
    have h1 : ¬ (x0 + area_init.l = x1 + area_init.l) := by simpa using hne
    rw [if_neg h1]
    simpa [area_init] using hr
  · intro p
    simpa using mem_hrun_between y x0 x1 p
  · rw [paint_log]

/-- C9 at the scenario of the specification: `r_line` from `(0,0)` to `(5,0)` on
    the full canvas sets exactly the six positions `(0,0)..(5,0)`. -/
theorem r_line_horizontal_full_witness :
    ∃ N, ∀ fuel, N ≤ fuel → ∃ c1, r_line fuel area_init ⟨fun _ => 0, []⟩ 7
        ((0 : ℤ) : ℚ) ((0 : ℤ) : ℚ) ((5 : ℤ) : ℚ) ((0 : ℤ) : ℚ) = some c1 ∧
      Canvas.wroteExactly ⟨fun _ => 0, []⟩ c1 7
        (fun p => p.2 = 0 ∧ min 0 5 ≤ p.1 ∧ p.1 ≤ max 0 5) ∧
      c1.log = [] ++ [(0, 0), (1, 0), (2, 0), (3, 0), (4, 0), (5, 0)] :=
  r_line_horizontal_full ⟨fun _ => 0, []⟩ 7 0 5 0 (by decide) (by decide) (by decide)
    (by decide)

/-! ## Finite floats -/

theorem F.isFin_fin (a : ℚ) : (F.fin a).isFin = true := rfl

theorem F.val_fin (a : ℚ) : (F.fin a).val = a := rfl

theorem F.lt_of_isFin (x y : F) (hx : x.isFin = true) (hy : y.isFin = true) :
    x.lt y = decide (x.val < y.val) := by
  cases x <;> cases y <;> simp [F.isFin, F.isNaN, F.isInf, F.lt] at *

theorem F.isZero_of_isFin (x : F) (hx : x.isFin = true) :
    x.isZero = decide (x.val = 0) := by
  simp [F.isZero, hx]

theorem F.mk_isFin (s : Bool) (v : ℚ) : (F.mk s v).isFin = true ∧ (F.mk s v).val = v := by
  unfold F.mk F.zero
  split_ifs with h1 h2 <;> simp [F.isFin, F.isNaN, F.isInf, F.val, h1]

theorem F.div_of_isFin (x y : F) (hx : x.isFin = true) (hy : y.isFin = true)
    (h : y.val ≠ 0) : (x.div y).isFin = true ∧ (x.div y).val = x.val / y.val := by
  have e : x.div y = F.mk (x.sgn != y.sgn) (x.val / y.val) := by
    cases x <;> cases y <;> simp [F.isFin, F.isNaN, F.isInf, F.div, F.isZero, F.val] at * <;>
      exact fun h0 => absurd h0 h
  rw [e]
  exact F.mk_isFin _ _

theorem F.div_zero_of_isFin (x y : F) (hx : x.isFin = true) (hy : y.isFin = true)
    (h : y.val = 0) :
    x.div y = if x.val = 0 then F.nan else F.inf (x.sgn != y.sgn) := by
  cases x <;> cases y <;> simp [F.isFin, F.isNaN, F.isInf, F.div, F.isZero, F.val] at * <;>
    simp [h]

theorem F.mul_of_isFin (x y : F) (hx : x.isFin = true) (hy : y.isFin = true) :
    (x.mul y).isFin = true ∧ (x.mul y).val = x.val * y.val := by
  have e : x.mul y = F.mk (x.sgn != y.sgn) (x.val * y.val) := by
    cases x <;> cases y <;> simp [F.isFin, F.isNaN, F.isInf, F.mul] at * 
  rw [e]
  exact F.mk_isFin _ _

theorem F.neg_of_isFin (x : F) (hx : x.isFin = true) :
    x.neg.isFin = true ∧ x.neg.val = -x.val := by
  cases x <;> simp [F.isFin, F.isNaN, F.isInf, F.neg, F.val] at *
  split_ifs with h <;> simp [F.isNaN, F.isInf, F.val, h]

theorem F.add_fin_left (a : ℚ) (y : F) (hy : y.isFin = true) :
    (F.fin a).add y = F.fin (a + y.val) := by
  cases y <;> simp [F.isFin, F.isNaN, F.isInf, F.add, F.isZero, F.val, F.zero, F.sgn] at *
  · intro h1 h2; simp [h1, h2]
  · intro h1; simp [h1]

theorem F.sub_fin_fin (a b : ℚ) : (F.fin a).sub (F.fin b) = F.fin (a - b) := by
  unfold F.sub
  rw [F.add_fin_left _ _ (F.neg_of_isFin (F.fin b) rfl).1, (F.neg_of_isFin (F.fin b) rfl).2]
  simp [F.val, sub_eq_add_neg]

theorem F.nan_lt (t : F) : F.nan.lt t = false := by simp [F.lt, F.isNaN]

theorem F.pinf_lt (t : F) : F.pinf.lt t = false := by
  cases t <;> simp [F.lt, F.isNaN, F.isInf, F.sgn]

theorem F.ninf_lt (t : F) (ht : t.isFin = true) : F.ninf.lt t = true := by
  cases t <;> simp [F.lt, F.isNaN, F.isInf, F.sgn, F.isFin] at *

/-! ## Line clipping -/

/-- One `edge` step on a finite interval: the interval shrinks and, on the new
    interval, the constraint `p * s <= q` of the edge holds. -/
theorem edge_sound (p q t0 t1 u0 u1 : F) (hp : p.isFin = true) (hq : q.isFin = true)
    (h0 : t0.isFin = true) (h1 : t1.isFin = true)
    (h : edge p q (t0, t1) = some (u0, u1)) :
    u0.isFin = true ∧ u1.isFin = true ∧ t0.val ≤ u0.val ∧ u1.val ≤ t1.val ∧
      (t0.val ≤ t1.val → u0.val ≤ u1.val) ∧
      ∀ s, u0.val ≤ s → s ≤ u1.val → p.val * s ≤ q.val := by
  unfold edge at h
  simp only [F.isZero_of_isFin p hp, F.lt_of_isFin q _ hq (F.isFin_fin 0),
    F.lt_of_isFin p _ hp (F.isFin_fin 0), F.gt, F.val_fin, Bool.and_eq_true,
    decide_eq_true_eq] at h
  by_cases hpz : p.val = 0
  · by_cases hq0 : q.val < 0
    · rw [if_pos ⟨hpz, hq0⟩] at h; exact absurd h (by simp)
    · have hr := F.div_zero_of_isFin q p hq hp hpz
      rw [if_neg (fun hh => hq0 hh.2), if_neg (by rw [hpz]; exact lt_irrefl 0)] at h
      by_cases hq1 : q.val = 0
      · rw [hr, if_pos hq1] at h
        simp only [F.nan_lt, Bool.false_eq_true, if_false, Option.some.injEq,
          Prod.mk.injEq] at h
        obtain ⟨rfl, rfl⟩ := h
        refine ⟨h0, h1, le_refl _, le_refl _, id, fun s _ _ => ?_⟩
        rw [hpz, hq1]; simp
      · rw [hr, if_neg hq1] at h
        cases hb : (q.sgn != p.sgn)
        · rw [hb] at h
          simp only [F.inf, Bool.false_eq_true, if_false, F.pinf_lt, Option.some.injEq,
            Prod.mk.injEq] at h
          obtain ⟨rfl, rfl⟩ := h
          refine ⟨h0, h1, le_refl _, le_refl _, id, fun s _ _ => ?_⟩
          rw [hpz]; simp; exact not_lt.1 hq0
        · rw [hb] at h
          simp [F.inf, F.ninf_lt t0 h0] at h
  · obtain ⟨hrf, hrv⟩ := F.div_of_isFin q p hq hp hpz
    rw [if_neg (fun hh => hpz hh.1)] at h
    simp only [F.lt_of_isFin _ _ h1 hrf, F.lt_of_isFin _ _ h0 hrf, F.lt_of_isFin _ _ hrf h0,
      F.lt_of_isFin _ _ hrf h1, decide_eq_true_eq] at h
    by_cases hneg : p.val < 0
    · rw [if_pos hneg] at h
      by_cases c1 : t1.val < (q.div p).val
      · rw [if_pos c1] at h; exact absurd h (by simp)
      · rw [if_neg c1] at h
        by_cases c2 : t0.val < (q.div p).val
        · rw [if_pos c2] at h
          simp only [Option.some.injEq, Prod.mk.injEq] at h
          obtain ⟨rfl, rfl⟩ := h
          refine ⟨hrf, h1, c2.le, le_refl _, fun _ => not_lt.1 c1, fun s hs _ => ?_⟩
          rw [hrv] at hs
          have := (div_le_iff_of_neg hneg).1 hs
          linarith
        · rw [if_neg c2] at h
          simp only [Option.some.injEq, Prod.mk.injEq] at h
          obtain ⟨rfl, rfl⟩ := h
          refine ⟨h0, h1, le_refl _, le_refl _, id, fun s hs _ => ?_⟩
          have hs2 : q.val / p.val ≤ s := by rw [← hrv]; linarith [not_lt.1 c2]
          have := (div_le_iff_of_neg hneg).1 hs2
          linarith
    · rw [if_neg hneg] at h
      have hpos : 0 < p.val := lt_of_le_of_ne (not_lt.1 hneg) (Ne.symm hpz)
      by_cases c1 : (q.div p).val < t0.val
      · rw [if_pos c1] at h; exact absurd h (by simp)
      · rw [if_neg c1] at h
        by_cases c2 : (q.div p).val < t1.val
        · rw [if_pos c2] at h
          simp only [Option.some.injEq, Prod.mk.injEq] at h
          obtain ⟨rfl, rfl⟩ := h
          refine ⟨h0, hrf, le_refl _, c2.le, fun _ => not_lt.1 c1, fun s _ hs => ?_⟩
          rw [hrv] at hs
          have := (le_div_iff₀ hpos).1 hs
          linarith
        · rw [if_neg c2] at h
          simp only [Option.some.injEq, Prod.mk.injEq] at h
          obtain ⟨rfl, rfl⟩ := h
          refine ⟨h0, h1, le_refl _, le_refl _, id, fun s _ hs => ?_⟩
          have hs2 : s ≤ q.val / p.val := by rw [← hrv]; linarith [not_lt.1 c2]
          have := (le_div_iff₀ hpos).1 hs2
          linarith

/-- Soundness of `r_clip_line` on finite endpoints: an accepted segment is
    rewritten to the sub-segment of parameters `t0 <= t1` in `[0, 1]`, and every
    point of that sub-segment lies in `[l, r-1] x [t, b-1]`. -/
theorem r_clip_line_sound (area : Rect) (x0 y0 x1 y1 : ℚ) (X0 Y0 X1 Y1 : F)
    (h : r_clip_line area (F.fin x0) (F.fin y0) (F.fin x1) (F.fin y1) = some (X0, Y0, X1, Y1)) :
    ∃ t0 t1 : ℚ, 0 ≤ t0 ∧ t0 ≤ t1 ∧ t1 ≤ 1 ∧
      X0 = F.fin (x0 + t0 * (x1 - x0)) ∧ Y0 = F.fin (y0 + t0 * (y1 - y0)) ∧
      X1 = F.fin (x0 + t1 * (x1 - x0)) ∧ Y1 = F.fin (y0 + t1 * (y1 - y0)) ∧
      ∀ s, t0 ≤ s → s ≤ t1 →
        (area.l : ℚ) ≤ x0 + s * (x1 - x0) ∧ x0 + s * (x1 - x0) ≤ ((area.r - 1 : ℤ) : ℚ) ∧
        (area.t : ℚ) ≤ y0 + s * (y1 - y0) ∧ y0 + s * (y1 - y0) ≤ ((area.b - 1 : ℤ) : ℚ) := by
  unfold r_clip_line at h
  simp only [F.sub_fin_fin, F.ofInt] at h
  obtain ⟨⟨a1, b1⟩, e1, h⟩ := Option.bind_eq_some.1 h
  obtain ⟨⟨a2, b2⟩, e2, h⟩ := Option.bind_eq_some.1 h
  obtain ⟨⟨a3, b3⟩, e3, h⟩ := Option.bind_eq_some.1 h
  obtain ⟨⟨a4, b4⟩, e4, h⟩ := Option.bind_eq_some.1 h
  have nx := F.neg_of_isFin (F.fin (x1 - x0)) rfl
  have ny := F.neg_of_isFin (F.fin (y1 - y0)) rfl
  obtain ⟨fa1, fb1, la1, lb1, m1, c1⟩ := edge_sound _ _ _ _ _ _ nx.1 (F.isFin_fin _) (F.isFin_fin _) (F.isFin_fin _) e1
  obtain ⟨fa2, fb2, la2, lb2, m2, c2⟩ := edge_sound _ _ _ _ _ _ (F.isFin_fin _) (F.isFin_fin _) fa1 fb1 e2
  obtain ⟨fa3, fb3, la3, lb3, m3, c3⟩ := edge_sound _ _ _ _ _ _ ny.1 (F.isFin_fin _) fa2 fb2 e3
  obtain ⟨fa4, fb4, la4, lb4, m4, c4⟩ := edge_sound _ _ _ _ _ _ (F.isFin_fin _) (F.isFin_fin _) fa3 fb3 e4
  simp only [F.val_fin] at la1 lb1 m1 c1 c2 c3 c4
  rw [nx.2] at c1
  rw [ny.2] at c3
  simp only [F.val_fin] at c1 c3
  have o1 := m1 (by norm_num)
  have o2 := m2 o1
  have o3 := m3 o2
  have o4 := m4 o3
  simp only [Option.some.injEq, Prod.mk.injEq] at h
  obtain ⟨rfl, rfl, rfl, rfl⟩ := h
  refine ⟨a4.val, b4.val, by linarith, o4, by linarith, ?_, ?_, ?_, ?_, ?_⟩
  · rw [F.add_fin_left _ _ (F.mul_of_isFin _ _ fa4 (F.isFin_fin _)).1, (F.mul_of_isFin _ _ fa4 (F.isFin_fin _)).2]; rfl
  · rw [F.add_fin_left _ _ (F.mul_of_isFin _ _ fa4 (F.isFin_fin _)).1, (F.mul_of_isFin _ _ fa4 (F.isFin_fin _)).2]; rfl
  · rw [F.add_fin_left _ _ (F.mul_of_isFin _ _ fb4 (F.isFin_fin _)).1, (F.mul_of_isFin _ _ fb4 (F.isFin_fin _)).2]; rfl
  · rw [F.add_fin_left _ _ (F.mul_of_isFin _ _ fb4 (F.isFin_fin _)).1, (F.mul_of_isFin _ _ fb4 (F.isFin_fin _)).2]; rfl
  · intro s hs0 hs1
    have k1 := c1 s (by linarith) (by linarith)
    have k2 := c2 s (by linarith) (by linarith)
    have k3 := c3 s (by linarith) (by linarith)
    have k4 := c4 s hs0 hs1
    push_cast at k1 k2 k3 k4 ⊢
    refine ⟨?_, ?_, ?_, ?_⟩ <;> linarith

/-- An `edge` step whose constraint `p * s <= q` already holds at `s = 0` and at
    `s = 1`, for `p` not zero, leaves the interval `(0, 1)` as it is. -/
theorem edge_unit_noop (p q : F) (hp : p.isFin = true) (hq : q.isFin = true)
    (hpz : p.val ≠ 0) (h0 : 0 ≤ q.val) (h1 : p.val ≤ q.val) :
    edge p q (F.fin 0, F.fin 1) = some (F.fin 0, F.fin 1) := by
  obtain ⟨hrf, hrv⟩ := F.div_of_isFin q p hq hp hpz
  unfold edge
  simp only [F.isZero_of_isFin p hp, F.lt_of_isFin q _ hq (F.isFin_fin 0),
    F.lt_of_isFin p _ hp (F.isFin_fin 0), F.gt, F.val_fin, Bool.and_eq_true,
    decide_eq_true_eq, F.lt_of_isFin _ _ (F.isFin_fin 1) hrf,
    F.lt_of_isFin _ _ (F.isFin_fin 0) hrf, F.lt_of_isFin _ _ hrf (F.isFin_fin 0),
    F.lt_of_isFin _ _ hrf (F.isFin_fin 1), hrv]
  rw [if_neg (fun hh => hpz hh.1)]
  by_cases hneg : p.val < 0
  · have hr : q.val / p.val ≤ 0 := div_nonpos_of_nonneg_of_nonpos h0 hneg.le
    rw [if_pos hneg, if_neg (by linarith), if_neg (by linarith)]
  · have hpos : 0 < p.val := lt_of_le_of_ne (not_lt.1 hneg) (Ne.symm hpz)
    have hr : 1 ≤ q.val / p.val := (one_le_div hpos).2 h1
    rw [if_neg hneg, if_neg (by linarith), if_neg (by linarith)]

/-- A segment that is not axis-parallel and has both endpoints in
    `[l, r-1] x [t, b-1]` is accepted by `r_clip_line` with its endpoints
    unchanged. -/
theorem r_clip_line_inside (area : Rect) (x0 y0 x1 y1 : ℚ) (hx : x0 ≠ x1) (hy : y0 ≠ y1)
    (a0 : (area.l : ℚ) ≤ x0 ∧ x0 ≤ ((area.r - 1 : ℤ) : ℚ))
    (b0 : (area.t : ℚ) ≤ y0 ∧ y0 ≤ ((area.b - 1 : ℤ) : ℚ))
    (a1 : (area.l : ℚ) ≤ x1 ∧ x1 ≤ ((area.r - 1 : ℤ) : ℚ))
    (b1 : (area.t : ℚ) ≤ y1 ∧ y1 ≤ ((area.b - 1 : ℤ) : ℚ)) :
    r_clip_line area (F.fin x0) (F.fin y0) (F.fin x1) (F.fin y1) =
      some (F.fin x0, F.fin y0, F.fin x1, F.fin y1) := by
  have hdx : x1 - x0 ≠ 0 := sub_ne_zero.2 (Ne.symm hx)
  have hdy : y1 - y0 ≠ 0 := sub_ne_zero.2 (Ne.symm hy)
  have nx := F.neg_of_isFin (F.fin (x1 - x0)) (F.isFin_fin _)
  have ny := F.neg_of_isFin (F.fin (y1 - y0)) (F.isFin_fin _)
  simp only [F.val_fin] at nx ny
  have f := F.isFin_fin
  have e1 := edge_unit_noop (F.fin (x1 - x0)).neg (F.fin (x0 - (area.l : ℚ))) nx.1 (f _)
    (by rw [nx.2]; exact neg_ne_zero.2 hdx) (by rw [F.val_fin]; linarith)
    (by rw [nx.2, F.val_fin]; linarith)
  have e2 := edge_unit_noop (F.fin (x1 - x0)) (F.fin (((area.r - 1 : ℤ) : ℚ) - x0)) (f _) (f _)
    (by rw [F.val_fin]; exact hdx) (by rw [F.val_fin]; linarith)
    (by rw [F.val_fin, F.val_fin]; linarith)
  have e3 := edge_unit_noop (F.fin (y1 - y0)).neg (F.fin (y0 - (area.t : ℚ))) ny.1 (f _)
    (by rw [ny.2]; exact neg_ne_zero.2 hdy) (by rw [F.val_fin]; linarith)
    (by rw [ny.2, F.val_fin]; linarith)
  have e4 := edge_unit_noop (F.fin (y1 - y0)) (F.fin (((area.b - 1 : ℤ) : ℚ) - y0)) (f _) (f _)
    (by rw [F.val_fin]; exact hdy) (by rw [F.val_fin]; linarith)
    (by rw [F.val_fin, F.val_fin]; linarith)
  unfold r_clip_line
  simp only [F.sub_fin_fin, F.ofInt]
  rw [e1, Option.some_bind, e2, Option.some_bind, e3, Option.some_bind, e4, Option.some_bind]
  rw [F.add_fin_left _ _ (F.mul_of_isFin _ _ (f 0) (f _)).1,
    F.add_fin_left _ _ (F.mul_of_isFin _ _ (f 0) (f _)).1,
    F.add_fin_left _ _ (F.mul_of_isFin _ _ (f 1) (f _)).1,
    F.add_fin_left _ _ (F.mul_of_isFin _ _ (f 1) (f _)).1,
    (F.mul_of_isFin _ _ (f 0) (f (x1 - x0))).2, (F.mul_of_isFin _ _ (f 0) (f (y1 - y0))).2,
    (F.mul_of_isFin _ _ (f 1) (f (x1 - x0))).2, (F.mul_of_isFin _ _ (f 1) (f (y1 - y0))).2]
  simp only [F.val_fin]
  norm_num

/-- C2, amended: in exact arithmetic, for a segment with `x0 != x1` and
    `y0 != y1`, when `r_clip_line` returns 1 there are `t0 <= t1` in `[0, 1]` such that the rewritten endpoints are
    `(x0 + t0*dx, y0 + t0*dy)` and `(x0 + t1*dx, y0 + t1*dy)` for the original
    `x0, y0, dx, dy`, and both satisfy `l <= x <= r-1` and `t <= y <= b-1`. -/
theorem r_clip_line_accept (area : Rect) (x0 y0 x1 y1 : ℚ) (X0 Y0 X1 Y1 : F)
    (_hx : x0 ≠ x1) (_hy : y0 ≠ y1)
    (h : r_clip_line area (F.fin x0) (F.fin y0) (F.fin x1) (F.fin y1) = some (X0, Y0, X1, Y1)) :
    ∃ t0 t1 : ℚ, 0 ≤ t0 ∧ t0 ≤ t1 ∧ t1 ≤ 1 ∧
      X0 = F.fin (x0 + t0 * (x1 - x0)) ∧ Y0 = F.fin (y0 + t0 * (y1 - y0)) ∧
      X1 = F.fin (x0 + t1 * (x1 - x0)) ∧ Y1 = F.fin (y0 + t1 * (y1 - y0)) ∧
      ((area.l : ℚ) ≤ X0.val ∧ X0.val ≤ ((area.r - 1 : ℤ) : ℚ) ∧
        (area.t : ℚ) ≤ Y0.val ∧ Y0.val ≤ ((area.b - 1 : ℤ) : ℚ)) ∧
      ((area.l : ℚ) ≤ X1.val ∧ X1.val ≤ ((area.r - 1 : ℤ) : ℚ) ∧
        (area.t : ℚ) ≤ Y1.val ∧ Y1.val ≤ ((area.b - 1 : ℤ) : ℚ)) := by
  obtain ⟨t0, t1, h0, h01, h1, rfl, rfl, rfl, rfl, hin⟩ := r_clip_line_sound area x0 y0 x1 y1 _ _ _ _ h
  exact ⟨t0, t1, h0, h01, h1, rfl, rfl, rfl, rfl, hin t0 le_rfl h01, hin t1 h01 le_rfl⟩

/-- C2, amended, at a concrete input: the segment `(-10,5)-(10,6)` against `(0,0)-(20,20)`
    is accepted and rewritten to `(0, 11/2)-(10, 6)`. -/
theorem r_clip_line_accept_witness :
    r_clip_line ⟨0, 0, 20, 20⟩ (F.fin (-10)) (F.fin 5) (F.fin 10) (F.fin 6) =
        some (F.fin 0, F.fin (11 / 2), F.fin 10, F.fin 6) ∧
    ∃ t0 t1 : ℚ, 0 ≤ t0 ∧ t0 ≤ t1 ∧ t1 ≤ 1 ∧
      F.fin 0 = F.fin (-10 + t0 * (10 - -10)) ∧ F.fin (11 / 2) = F.fin (5 + t0 * (6 - 5)) ∧
      F.fin 10 = F.fin (-10 + t1 * (10 - -10)) ∧ F.fin 6 = F.fin (5 + t1 * (6 - 5)) ∧
      ((((⟨0, 0, 20, 20⟩ : Rect).l : ℤ) : ℚ) ≤ (F.fin 0).val ∧
        (F.fin 0).val ≤ (((⟨0, 0, 20, 20⟩ : Rect).r - 1 : ℤ) : ℚ) ∧
        (((⟨0, 0, 20, 20⟩ : Rect).t : ℤ) : ℚ) ≤ (F.fin (11 / 2)).val ∧
        (F.fin (11 / 2)).val ≤ (((⟨0, 0, 20, 20⟩ : Rect).b - 1 : ℤ) : ℚ)) ∧
      ((((⟨0, 0, 20, 20⟩ : Rect).l : ℤ) : ℚ) ≤ (F.fin 10).val ∧
        (F.fin 10).val ≤ (((⟨0, 0, 20, 20⟩ : Rect).r - 1 : ℤ) : ℚ) ∧
        (((⟨0, 0, 20, 20⟩ : Rect).t : ℤ) : ℚ) ≤ (F.fin 6).val ∧
        (F.fin 6).val ≤ (((⟨0, 0, 20, 20⟩ : Rect).b - 1 : ℤ) : ℚ)) :=
  have e : r_clip_line ⟨0, 0, 20, 20⟩ (F.fin (-10)) (F.fin 5) (F.fin 10) (F.fin 6) =
      some (F.fin 0, F.fin (11 / 2), F.fin 10, F.fin 6) := by
    norm_num [r_clip_line, edge, F.sub, F.add, F.neg, F.div, F.mul, F.lt, F.gt, F.isZero,
      F.isFin, F.isNaN, F.isInf, F.val, F.sgn, F.mk, F.zero, F.ofInt, F.inf]
  ⟨e, r_clip_line_accept ⟨0, 0, 20, 20⟩ (-10) 5 10 6 _ _ _ _ (by norm_num) (by norm_num) e⟩

/-- C3, amended: in exact arithmetic, a segment none of whose points lies in the
    rectangle `[l, r-1] x [t, b-1]` is fully clipped: `r_clip_line` returns 0. -/
theorem r_clip_line_outside (area : Rect) (x0 y0 x1 y1 : ℚ)
    (hout : ∀ s : ℚ, 0 ≤ s → s ≤ 1 →
      ¬ ((area.l : ℚ) ≤ x0 + s * (x1 - x0) ∧ x0 + s * (x1 - x0) ≤ ((area.r - 1 : ℤ) : ℚ) ∧
        (area.t : ℚ) ≤ y0 + s * (y1 - y0) ∧ y0 + s * (y1 - y0) ≤ ((area.b - 1 : ℤ) : ℚ))) :
    r_clip_line area (F.fin x0) (F.fin y0) (F.fin x1) (F.fin y1) = none := by
  cases h : r_clip_line area (F.fin x0) (F.fin y0) (F.fin x1) (F.fin y1) with
  | none => rfl
  | some q =>
    obtain ⟨X0, Y0, X1, Y1⟩ := q
    obtain ⟨t0, t1, h0, h01, h1, -, -, -, -, hin⟩ := r_clip_line_sound area x0 y0 x1 y1 _ _ _ _ h
    exact absurd (hin t0 le_rfl h01) (hout t0 h0 (le_trans h01 h1))

/-- C3, amended, at a concrete input: the segment `(-10,-5)-(-3,-1)` lies left of the
    rectangle `(0,0)-(20,20)` and is fully clipped. -/
theorem r_clip_line_outside_witness :
    r_clip_line ⟨0, 0, 20, 20⟩ (F.fin (-10)) (F.fin (-5)) (F.fin (-3)) (F.fin (-1)) = none :=
  r_clip_line_outside ⟨0, 0, 20, 20⟩ (-10) (-5) (-3) (-1) (by
    rintro s h0 h1 ⟨h2, -⟩
    norm_num at h2
    linarith)

/-- C4, the failing input: the vertical segment `(5,1)-(5,3)` has both endpoints
    inside `(0,0)-(20,20)`, yet `r_clip_line` returns 0.  In `edge(-dx, *x0-area.l)`
    `p` is `-0.0` and `q` is `5`, so `r = q / p` is `-inf`, `p < 0` is false and
    `r < t0` holds. -/
theorem r_clip_line_vertical_inside :
    ((0 : ℚ) ≤ 5 ∧ (5 : ℚ) ≤ 20 - 1 ∧ (0 : ℚ) ≤ 1 ∧ (3 : ℚ) ≤ 20 - 1) ∧
    (F.fin 0).neg = F.nzero ∧ (F.fin 5).div F.nzero = F.ninf ∧
    r_clip_line ⟨0, 0, 20, 20⟩ (F.fin 5) (F.fin 1) (F.fin 5) (F.fin 3) = none := by
  refine ⟨by norm_num, ?_, ?_, ?_⟩ <;>
  norm_num [r_clip_line, edge, F.sub, F.add, F.neg, F.div, F.mul, F.lt, F.gt, F.isZero,
    F.isFin, F.isNaN, F.isInf, F.val, F.sgn, F.mk, F.zero, F.ofInt, F.inf]

/-- C5, the failing input: with the clip rectangle `(0,0)-(20,20)`, `r_clip_line`
    on the segment `(-10,5)-(10,5)` returns 0 instead of rewriting the endpoints to
    `(0,5)-(10,5)`.  The first two edges leave `t0 = 1/2`, `t1 = 1`; in
    `edge(-dy, *y0-area.t)` `p` is `-0.0` and `q` is `5`, so `r` is `-inf`,
    `p < 0` is false and `r < t0` holds. -/
theorem r_clip_line_scenario3 :
    edge (F.fin 20).neg (F.fin (-10)) (F.fin 0, F.fin 1) = some (F.fin (1 / 2), F.fin 1) ∧
    edge (F.fin 20) (F.fin 29) (F.fin (1 / 2), F.fin 1) = some (F.fin (1 / 2), F.fin 1) ∧
    edge (F.fin 0).neg (F.fin 5) (F.fin (1 / 2), F.fin 1) = none ∧
    r_clip_line ⟨0, 0, 20, 20⟩ (F.fin (-10)) (F.fin 5) (F.fin 10) (F.fin 5) = none := by
  refine ⟨?_, ?_, ?_, ?_⟩ <;>
  norm_num [r_clip_line, edge, F.sub, F.add, F.neg, F.div, F.mul, F.lt, F.gt, F.isZero,
    F.isFin, F.isNaN, F.isInf, F.val, F.sgn, F.mk, F.zero, F.ofInt, F.inf]

/-! ## Intersection -/

theorem F.add_of_isFin (x y : F) (hx : x.isFin = true) (hy : y.isFin = true) :
    (x.add y).isFin = true ∧ (x.add y).val = x.val + y.val := by
  cases x with
  | fin a => rw [F.add_fin_left a y hy]; exact ⟨rfl, rfl⟩
  | nzero =>
    cases y with
    | fin b =>
      by_cases hb : b = 0 <;>
        simp [F.add, F.isNaN, F.isInf, F.isZero, F.isFin, F.val, F.zero, F.sgn, hb]
    | nzero => simp [F.add, F.isNaN, F.isInf, F.isZero, F.isFin, F.val, F.zero, F.sgn]
    | pinf => simp [F.isFin, F.isNaN, F.isInf] at hy
    | ninf => simp [F.isFin, F.isNaN, F.isInf] at hy
    | nan => simp [F.isFin, F.isNaN, F.isInf] at hy
  | pinf => simp [F.isFin, F.isNaN, F.isInf] at hx
  | ninf => simp [F.isFin, F.isNaN, F.isInf] at hx
  | nan => simp [F.isFin, F.isNaN, F.isInf] at hx

theorem F.sub_of_isFin (x y : F) (hx : x.isFin = true) (hy : y.isFin = true) :
    (x.sub y).isFin = true ∧ (x.sub y).val = x.val - y.val := by
  obtain ⟨h1, h2⟩ := F.neg_of_isFin y hy
  obtain ⟨h3, h4⟩ := F.add_of_isFin x y.neg hx h1
  exact ⟨h3, by rw [F.sub, h4, h2, sub_eq_add_neg]⟩

theorem cross_of_isFin (x0 y0 x1 y1 : F) (h1 : x0.isFin = true) (h2 : y0.isFin = true)
    (h3 : x1.isFin = true) (h4 : y1.isFin = true) :
    (cross x0 y0 x1 y1).isFin = true ∧
      (cross x0 y0 x1 y1).val = x0.val * y1.val - y0.val * x1.val := by
  obtain ⟨a1, a2⟩ := F.mul_of_isFin x0 y1 h1 h4
  obtain ⟨b1, b2⟩ := F.mul_of_isFin y0 x1 h2 h3
  obtain ⟨c1, c2⟩ := F.sub_of_isFin _ _ a1 b1
  exact ⟨c1, by rw [cross, c2, a2, b2]⟩

theorem F.beq_of_isFin (x y : F) (hx : x.isFin = true) (hy : y.isFin = true) :
    x.beq y = decide (x.val = y.val) := by
  cases x <;> cases y <;> simp [F.isFin, F.isNaN, F.isInf, F.beq] at *

/-- The point computed by `intersect` on finite inputs whose direction cross
    product is not zero. -/
theorem intersect_of_isFin (rx0 ry0 rx1 ry1 sx0 sy0 sx1 sy1 : ℚ)
    (hd : (rx0 - rx1) * (sy0 - sy1) - (ry0 - ry1) * (sx0 - sx1) ≠ 0) :
    (intersect (F.fin rx0) (F.fin ry0) (F.fin rx1) (F.fin ry1)
        (F.fin sx0) (F.fin sy0) (F.fin sx1) (F.fin sy1)).1.isFin = true ∧
    (intersect (F.fin rx0) (F.fin ry0) (F.fin rx1) (F.fin ry1)
        (F.fin sx0) (F.fin sy0) (F.fin sx1) (F.fin sy1)).2.isFin = true ∧
    (intersect (F.fin rx0) (F.fin ry0) (F.fin rx1) (F.fin ry1)
        (F.fin sx0) (F.fin sy0) (F.fin sx1) (F.fin sy1)).1.val =
      ((rx0 * ry1 - ry0 * rx1) * (sx0 - sx1) - (rx0 - rx1) * (sx0 * sy1 - sy0 * sx1)) /
        ((rx0 - rx1) * (sy0 - sy1) - (ry0 - ry1) * (sx0 - sx1)) ∧
    (intersect (F.fin rx0) (F.fin ry0) (F.fin rx1) (F.fin ry1)
        (F.fin sx0) (F.fin sy0) (F.fin sx1) (F.fin sy1)).2.val =
      ((rx0 * ry1 - ry0 * rx1) * (sy0 - sy1) - (ry0 - ry1) * (sx0 * sy1 - sy0 * sx1)) /
        ((rx0 - rx1) * (sy0 - sy1) - (ry0 - ry1) * (sx0 - sx1)) := by
  have f := F.isFin_fin
  obtain ⟨x1, x2⟩ := cross_of_isFin (F.fin rx0) (F.fin ry0) (F.fin rx1) (F.fin ry1)
    (f _) (f _) (f _) (f _)
  obtain ⟨y1, y2⟩ := cross_of_isFin (F.fin sx0) (F.fin sy0) (F.fin sx1) (F.fin sy1)
    (f _) (f _) (f _) (f _)
  obtain ⟨d1, d2⟩ := cross_of_isFin (F.fin (rx0 - rx1)) (F.fin (ry0 - ry1))
    (F.fin (sx0 - sx1)) (F.fin (sy0 - sy1)) (f _) (f _) (f _) (f _)
  obtain ⟨n1, n2⟩ := cross_of_isFin (cross (F.fin rx0) (F.fin ry0) (F.fin rx1) (F.fin ry1))
    (F.fin (rx0 - rx1)) (cross (F.fin sx0) (F.fin sy0) (F.fin sx1) (F.fin sy1))
    (F.fin (sx0 - sx1)) x1 (f _) y1 (f _)
  obtain ⟨m1, m2⟩ := cross_of_isFin (cross (F.fin rx0) (F.fin ry0) (F.fin rx1) (F.fin ry1))
    (F.fin (ry0 - ry1)) (cross (F.fin sx0) (F.fin sy0) (F.fin sx1) (F.fin sy1))
    (F.fin (sy0 - sy1)) x1 (f _) y1 (f _)
  simp only [F.val_fin] at d2 n2 m2 x2 y2
  have hd2 : (cross (F.fin (rx0 - rx1)) (F.fin (ry0 - ry1))
      (F.fin (sx0 - sx1)) (F.fin (sy0 - sy1))).val ≠ 0 := by
    rw [d2]; exact hd
  obtain ⟨p1, p2⟩ := F.div_of_isFin _ _ n1 d1 hd2
  obtain ⟨q1, q2⟩ := F.div_of_isFin _ _ m1 d1 hd2
  simp only [intersect, F.sub_fin_fin]
  refine ⟨p1, q1, ?_, ?_⟩
  · rw [p2, n2, d2, x2, y2]
  · rw [q2, m2, d2, x2, y2]

/-- C10, amended: for two segments whose direction cross product
    `(rx0-rx1)*(sy0-sy1) - (ry0-ry1)*(sx0-sx1)` is not zero, `intersect(r, s)` and
    `intersect(s, r)` return the same finite point (equal under `==` in both
    coordinates). -/
theorem intersect_symm (rx0 ry0 rx1 ry1 sx0 sy0 sx1 sy1 : ℚ)
    (hd : (rx0 - rx1) * (sy0 - sy1) - (ry0 - ry1) * (sx0 - sx1) ≠ 0) :
    (intersect (F.fin rx0) (F.fin ry0) (F.fin rx1) (F.fin ry1)
        (F.fin sx0) (F.fin sy0) (F.fin sx1) (F.fin sy1)).1.isFin = true ∧
    (intersect (F.fin rx0) (F.fin ry0) (F.fin rx1) (F.fin ry1)
        (F.fin sx0) (F.fin sy0) (F.fin sx1) (F.fin sy1)).2.isFin = true ∧
    (intersect (F.fin rx0) (F.fin ry0) (F.fin rx1) (F.fin ry1)
        (F.fin sx0) (F.fin sy0) (F.fin sx1) (F.fin sy1)).1.beq
      (intersect (F.fin sx0) (F.fin sy0) (F.fin sx1) (F.fin sy1)
        (F.fin rx0) (F.fin ry0) (F.fin rx1) (F.fin ry1)).1 = true ∧
    (intersect (F.fin rx0) (F.fin ry0) (F.fin rx1) (F.fin ry1)
        (F.fin sx0) (F.fin sy0) (F.fin sx1) (F.fin sy1)).2.beq
      (intersect (F.fin sx0) (F.fin sy0) (F.fin sx1) (F.fin sy1)
        (F.fin rx0) (F.fin ry0) (F.fin rx1) (F.fin ry1)).2 = true := by
  have hd2 : (sx0 - sx1) * (ry0 - ry1) - (sy0 - sy1) * (rx0 - rx1) ≠ 0 := by
    intro e; apply hd; linarith
  obtain ⟨a1, a2, a3, a4⟩ := intersect_of_isFin rx0 ry0 rx1 ry1 sx0 sy0 sx1 sy1 hd
  obtain ⟨b1, b2, b3, b4⟩ := intersect_of_isFin sx0 sy0 sx1 sy1 rx0 ry0 rx1 ry1 hd2
  refine ⟨a1, a2, ?_, ?_⟩
  · rw [F.beq_of_isFin _ _ a1 b1, decide_eq_true_eq, a3, b3, div_eq_div_iff hd hd2]
    ring
  · rw [F.beq_of_isFin _ _ a2 b2, decide_eq_true_eq, a4, b4, div_eq_div_iff hd hd2]
    ring

/-- C10, amended, at a concrete input: the diagonals `(0,0)-(1,1)` and
    `(0,1)-(1,0)` meet at `(1/2, 1/2)` in either order. -/
theorem intersect_symm_witness :
    (intersect (F.fin 0) (F.fin 0) (F.fin 1) (F.fin 1)
        (F.fin 0) (F.fin 1) (F.fin 1) (F.fin 0)).1.isFin = true ∧
    (intersect (F.fin 0) (F.fin 0) (F.fin 1) (F.fin 1)
        (F.fin 0) (F.fin 1) (F.fin 1) (F.fin 0)).2.isFin = true ∧
    (intersect (F.fin 0) (F.fin 0) (F.fin 1) (F.fin 1)
        (F.fin 0) (F.fin 1) (F.fin 1) (F.fin 0)).1.beq
      (intersect (F.fin 0) (F.fin 1) (F.fin 1) (F.fin 0)
        (F.fin 0) (F.fin 0) (F.fin 1) (F.fin 1)).1 = true ∧
    (intersect (F.fin 0) (F.fin 0) (F.fin 1) (F.fin 1)
        (F.fin 0) (F.fin 1) (F.fin 1) (F.fin 0)).2.beq
      (intersect (F.fin 0) (F.fin 1) (F.fin 1) (F.fin 0)
        (F.fin 0) (F.fin 0) (F.fin 1) (F.fin 1)).2 = true :=
  intersect_symm 0 0 1 1 0 1 1 0 (by norm_num)

/-- C10 as stated fails: for the parallel segments `(0,0)-(1,1)` and
    `(0,1)-(1,2)` the denominator is zero, `intersect(r, s)` is `(-inf, -inf)` and
    `intersect(s, r)` is `(+inf, +inf)`; the two results differ under `==`. -/
theorem intersect_parallel_not_symm :
    intersect (F.fin 0) (F.fin 0) (F.fin 1) (F.fin 1)
        (F.fin 0) (F.fin 1) (F.fin 1) (F.fin 2) = (F.ninf, F.ninf) ∧
    intersect (F.fin 0) (F.fin 1) (F.fin 1) (F.fin 2)
        (F.fin 0) (F.fin 0) (F.fin 1) (F.fin 1) = (F.pinf, F.pinf) ∧
    (intersect (F.fin 0) (F.fin 0) (F.fin 1) (F.fin 1)
        (F.fin 0) (F.fin 1) (F.fin 1) (F.fin 2)).1.beq
      (intersect (F.fin 0) (F.fin 1) (F.fin 1) (F.fin 2)
        (F.fin 0) (F.fin 0) (F.fin 1) (F.fin 1)).1 = false := by
  refine ⟨?_, ?_, ?_⟩ <;>
  norm_num [intersect, cross, F.sub, F.add, F.neg, F.div, F.mul, F.beq, F.isZero,
    F.isFin, F.isNaN, F.isInf, F.val, F.sgn, F.mk, F.zero, F.inf]

/-! ## The walk of `r_line` -/

theorem r_line_inner_exit (fuel : ℕ) (c : Canvas) (color x0 y0 y1 ydir : ℤ) (err : ℚ)
    (h : err < 1 / 2) :
    r_line_inner fuel c color x0 y0 y1 ydir err = some (c, y0, err, false) := by
  unfold r_line_inner
  rw [if_neg (not_le.2 h)]

/-- One run of the inner loop, `m` being the number of steps that `y0` is away
    from `y1 + ydir`: it makes `k <= m` stores, in column `x0`, and either leaves
    with `err` below one half or returns with `k = m`. -/
theorem r_line_inner_run (color x0 y1 ydir : ℤ) (m : ℕ) :
    ∀ (fuel : ℕ) (c : Canvas) (y0 : ℤ) (err : ℚ), (ydir = 0 → err < 1 / 2) →
      y0 + m * ydir = y1 + ydir → m ≤ fuel →
      ∃ (k : ℕ) (ret : Bool), k ≤ m ∧
        r_line_inner fuel c color x0 y0 y1 ydir err =
          some (c.paint color (vrun x0 y0 ydir k), y0 + k * ydir, err - k, ret) ∧
        (ret = false → err - k < 1 / 2 ∧ (k = 0 ∨ -(1 / 2) ≤ err - (k : ℚ))) ∧
        (ret = true → k = m) := by
  induction m with
  | zero =>
    intro fuel c y0 err _ h _
    have h2 : y0 = y1 + ydir := by simpa using h
    by_cases he : err < 1 / 2
    · exact ⟨0, false, le_refl _, by simp [r_line_inner_exit _ _ _ _ _ _ _ _ he, vrun, paint_nil],
        fun _ => ⟨by simpa using he, Or.inl rfl⟩, fun hh => by simp at hh⟩
    · refine ⟨0, true, le_refl _, ?_, fun hh => by simp at hh, fun _ => rfl⟩
      unfold r_line_inner
      rw [if_pos (not_lt.1 he), if_pos h2]
      simp [vrun, paint_nil]
  | succ m ih =>
    intro fuel c y0 err hy h hf
    by_cases he : err < 1 / 2
    · exact ⟨0, false, Nat.zero_le _,
        by simp [r_line_inner_exit _ _ _ _ _ _ _ _ he, vrun, paint_nil],
        fun _ => ⟨by simpa using he, Or.inl rfl⟩, fun hh => by simp at hh⟩
    · have hy2 : ydir ≠ 0 := fun e => he (hy e)
      have h2 : y0 ≠ y1 + ydir := by
        intro e
        rw [e] at h
        have : ((m : ℤ) + 1) * ydir = 0 := by push_cast at h; linarith
        rcases mul_eq_zero.1 this with h3 | h3
        · omega
        · exact hy2 h3
      obtain ⟨f, rfl⟩ : ∃ f, fuel = f + 1 := ⟨fuel - 1, by omega⟩
      obtain ⟨k, ret, hk, hrun, hfalse, htrue⟩ :=
        ih f (c.store x0 y0 color) (y0 + ydir) (err - 1) (fun e => absurd e hy2)
          (by push_cast at h; linarith) (by omega)
      refine ⟨k + 1, ret, by omega, ?_, ?_, ?_⟩
      · unfold r_line_inner
        rw [if_pos (not_lt.1 he), if_neg h2]
        show r_line_inner f (c.store x0 y0 color) color x0 (y0 + ydir) y1 ydir (err - 1) = _
        rw [hrun, vrun_succ, paint_cons]
        simp only [Option.some.injEq, Prod.mk.injEq, true_and]
        push_cast
        refine ⟨by ring, by ring, trivial⟩
      · intro hr
        obtain ⟨a1, a2⟩ := hfalse hr
        push_cast
        refine ⟨by linarith, Or.inr ?_⟩
        rcases a2 with a2 | a2
        · subst a2
          have := not_lt.1 he
          norm_num
          linarith
        · linarith
      · intro hr
        rw [htrue hr]

theorem r_line_walk_succ (ifuel f : ℕ) (c : Canvas)
    (color x0 y0 x1 y1 xdir ydir : ℤ) (errstep err : ℚ) (h : x0 ≠ x1 + xdir) :
    r_line_walk ifuel (f + 1) c color x0 y0 x1 y1 xdir ydir errstep err =
      match r_line_inner ifuel (c.store x0 y0 color) color x0 y0 y1 ydir (err + errstep) with
      | none => none
      | some (c, _, _, true) => some c
      | some (c, y0, err, false) =>
        r_line_walk ifuel f c color (x0 + xdir) y0 x1 y1 xdir ydir errstep err := by
  rw [r_line_walk, if_neg h]

/-- The walk of `r_line` from a state that is `n` columns and `m` rows away from
    the end, with `A = |dx|`, `D = |dy|` and `errstep * A = D`: it terminates and
    every store is at a column `x1 - a * xdir` with `a < n` and a row
    `y1 - b * ydir` with `b < m`. -/
theorem r_line_walk_run (ifuel : ℕ) (color x1 y1 xdir ydir : ℤ) (A D : ℕ) (errstep : ℚ)
    (hyd : ydir = 0 → errstep = 0) (he0 : 0 ≤ errstep)
    (heA : errstep * A = D) (hif : D + 1 ≤ ifuel) (n : ℕ) :
    ∀ (fuel : ℕ) (c : Canvas) (x0 y0 : ℤ) (err : ℚ) (m : ℕ),
      x0 + n * xdir = x1 + xdir → n ≤ A + 1 → xdir ≠ 0 → y0 + m * ydir = y1 + ydir → m ≤ D + 1 →
      -(1 / 2) ≤ err → err < 1 / 2 →
      err = ((A : ℚ) + 1 - n) * errstep - ((D : ℚ) + 1 - m) → n ≤ fuel →
      ∃ ws, r_line_walk ifuel fuel c color x0 y0 x1 y1 xdir ydir errstep err =
          some (c.paint color ws) ∧
        ∀ p ∈ ws, ∃ a b : ℕ, a < n ∧ b < m ∧ p = (x1 - a * xdir, y1 - b * ydir) := by
  induction n with
  | zero =>
    intro fuel c x0 y0 err m hx _ _ _ _ _ _ _ _
    have h2 : x0 = x1 + xdir := by simpa using hx
    refine ⟨[], ?_, by simp⟩
    unfold r_line_walk
    rw [if_pos h2, paint_nil]
  | succ n ih =>
    intro fuel c x0 y0 err m hx hn hxd hy hm hlo hhi herr hf
    have h2 : x0 ≠ x1 + xdir := by
      intro e
      rw [e] at hx
      have : ((n : ℤ) + 1) * xdir = 0 := by push_cast at hx; linarith
      rcases mul_eq_zero.1 this with h3 | h3
      · omega
      · exact hxd h3
    have hm1 : 1 ≤ m := by
      have h3 : 0 ≤ (n : ℚ) * errstep := mul_nonneg (Nat.cast_nonneg n) he0
      push_cast at herr
      have h4 : (1 : ℚ) / 2 ≤ m := by nlinarith
      have h5 : (0 : ℚ) < m := by linarith
      exact_mod_cast h5
    obtain ⟨f, rfl⟩ : ∃ f, fuel = f + 1 := ⟨fuel - 1, by omega⟩
    obtain ⟨k, ret, hk, hrun, hfalse, htrue⟩ :=
      r_line_inner_run color x0 y1 ydir m ifuel (c.store x0 y0 color) y0 (err + errstep)
        (fun e => by rw [hyd e]; linarith) hy (by omega)
    have hfirst : ∀ p ∈ (x0, y0) :: vrun x0 y0 ydir k,
        ∃ a b : ℕ, a < n + 1 ∧ b < m ∧ p = (x1 - a * xdir, y1 - b * ydir) := by
      intro p hp
      have hx0 : x0 = x1 - n * xdir := by push_cast at hx; linarith
      rcases List.mem_cons.1 hp with rfl | hp
      · obtain ⟨b, hb⟩ : ∃ b, b + 1 = m := ⟨m - 1, by omega⟩
        refine ⟨n, b, by omega, by omega, ?_⟩
        have hb2 : (m : ℤ) = b + 1 := by exact_mod_cast hb.symm
        rw [hb2] at hy
        rw [Prod.mk.injEq]
        exact ⟨hx0, by linarith⟩
      · obtain ⟨j, hj, rfl⟩ := (mem_vrun _ _ _ _ _).1 hp
        obtain ⟨b, hb⟩ : ∃ b, b + j + 1 = m := ⟨m - j - 1, by omega⟩
        refine ⟨n, b, by omega, by omega, ?_⟩
        have hb2 : (m : ℤ) = b + j + 1 := by exact_mod_cast hb.symm
        rw [hb2] at hy
        rw [Prod.mk.injEq]
        exact ⟨hx0, by linarith⟩
    rw [r_line_walk_succ _ _ _ _ _ _ _ _ _ _ _ _ h2, hrun]
    cases ret with
    | true =>
      refine ⟨(x0, y0) :: vrun x0 y0 ydir k, ?_, hfirst⟩
      rw [paint_cons]
    | false =>
      obtain ⟨e1, e2⟩ := hfalse rfl
      obtain ⟨m2, hm2⟩ : ∃ m2, m2 + k = m := ⟨m - k, by omega⟩
      have hm3 : (m : ℤ) = m2 + k := by exact_mod_cast hm2.symm
      have hm4 : (m : ℚ) = m2 + k := by exact_mod_cast hm2.symm
      obtain ⟨ws, hws, hpos⟩ := ih f ((c.store x0 y0 color).paint color (vrun x0 y0 ydir k))
        (x0 + xdir) (y0 + k * ydir) (err + errstep - k) m2
        (by push_cast at hx; linarith) (by omega) hxd (by rw [hm3] at hy; linarith) (by omega)
        (by
          rcases e2 with e2 | e2
          · subst e2; norm_num; linarith
          · exact e2)
        e1 (by rw [herr, hm4]; push_cast; ring) (by omega)
      refine ⟨(x0, y0) :: (vrun x0 y0 ydir k ++ ws), ?_, ?_⟩
      · show r_line_walk ifuel f _ color (x0 + xdir) (y0 + k * ydir) x1 y1 xdir ydir errstep
          (err + errstep - k) = _
        rw [hws, paint_cons, paint_append]
      · intro p hp
        rcases List.mem_cons.1 hp with rfl | hp
        · exact hfirst _ (List.mem_cons_self _ _)
        · rcases List.mem_append.1 hp with hp | hp
          · exact hfirst _ (List.mem_cons_of_mem _ hp)
          · obtain ⟨a, b, ha, hb, rfl⟩ := hpos p hp
            exact ⟨a, b, by omega, by omega, rfl⟩

theorem m_sign_cases (d : ℤ) :
    (d < 0 ∧ m_sign d = -1) ∨ (d = 0 ∧ m_sign d = 0) ∨ (0 < d ∧ m_sign d = 1) := by
  rcases lt_trichotomy d 0 with h | h | h
  · exact Or.inl ⟨h, by simp [m_sign, h, not_lt.2 h.le]⟩
  · exact Or.inr (Or.inl ⟨h, by simp [m_sign, h]⟩)
  · exact Or.inr (Or.inr ⟨h, by simp [m_sign, h, not_lt.2 h.le]⟩)

theorem m_abs_eq_abs (x : ℚ) : m_abs x = |x| := by
  unfold m_abs
  split_ifs with h
  · exact (abs_of_neg h).symm
  · exact (abs_of_nonneg (not_lt.1 h)).symm

/-- The walk of `r_line` as it is started by `r_line`, from integer endpoints: it
    terminates and every store lies between the two endpoints in both axes. -/
theorem r_line_walk_init (fuel : ℕ) (c : Canvas) (color x0 y0 x1 y1 : ℤ)
    (hf : (x1 - x0).natAbs + (y1 - y0).natAbs + 2 ≤ fuel) :
    ∃ ws, r_line_walk fuel fuel c color x0 y0 x1 y1 (m_sign (x1 - x0)) (m_sign (y1 - y0))
        (m_abs (((y1 - y0 : ℤ) : ℚ) / ((x1 - x0 : ℤ) : ℚ))) 0 = some (c.paint color ws) ∧
      ∀ p ∈ ws, min x0 x1 ≤ p.1 ∧ p.1 ≤ max x0 x1 ∧ min y0 y1 ≤ p.2 ∧ p.2 ≤ max y0 y1 := by
  by_cases hdx : x1 - x0 = 0
  · refine ⟨[], ?_, by simp⟩
    have e : m_sign (x1 - x0) = 0 := by rw [hdx]; simp [m_sign]
    unfold r_line_walk
    rw [if_pos (by rw [e]; omega), paint_nil]
  · have hA : ((x1 - x0 : ℤ) : ℚ) ≠ 0 := by exact_mod_cast hdx
    have hqA : (((x1 - x0).natAbs : ℕ) : ℚ) = |((x1 - x0 : ℤ) : ℚ)| := by
      rw [Nat.cast_natAbs, Int.cast_abs]
    have hqD : (((y1 - y0).natAbs : ℕ) : ℚ) = |((y1 - y0 : ℤ) : ℚ)| := by
      rw [Nat.cast_natAbs, Int.cast_abs]
    obtain ⟨ws, hws, hpos⟩ := r_line_walk_run fuel color x1 y1 (m_sign (x1 - x0))
      (m_sign (y1 - y0)) (x1 - x0).natAbs (y1 - y0).natAbs
      (m_abs (((y1 - y0 : ℤ) : ℚ) / ((x1 - x0 : ℤ) : ℚ)))
      (by
        intro e
        have : y1 - y0 = 0 := by
          rcases m_sign_cases (y1 - y0) with h | h | h <;> omega
        rw [this]; simp [m_abs])
      (by rw [m_abs_eq_abs]; exact abs_nonneg _)
      (by rw [m_abs_eq_abs, abs_div, hqA, hqD, div_mul_cancel₀ _ (abs_ne_zero.2 hA)])
      (by omega) ((x1 - x0).natAbs + 1) fuel c x0 y0 0 ((y1 - y0).natAbs + 1)
      (by rcases m_sign_cases (x1 - x0) with h | h | h <;> rw [h.2] <;>
        simp only [Nat.cast_add, Nat.cast_one] <;> omega)
      (le_refl _)
      (by rcases m_sign_cases (x1 - x0) with h | h | h <;> rw [h.2] <;> omega)
      (by rcases m_sign_cases (y1 - y0) with h | h | h <;> rw [h.2] <;>
        simp only [Nat.cast_add, Nat.cast_one] <;> omega)
      (le_refl _) (by norm_num) (by norm_num) (by push_cast; ring) (by omega)
    refine ⟨ws, hws, ?_⟩
    intro p hp
    obtain ⟨a, b, ha, hb, rfl⟩ := hpos p hp
    simp only
    rcases m_sign_cases (x1 - x0) with h | h | h <;>
      rcases m_sign_cases (y1 - y0) with g | g | g <;>
      rw [h.2, g.2] <;> refine ⟨?_, ?_, ?_, ?_⟩ <;> omega

theorem r_vline_outside (fuel : ℕ) (area : Rect) (c : Canvas) (color x y0 y1 : ℤ)
    (h : x < area.l ∨ x ≥ area.r) : r_vline fuel area c color x y0 y1 = some c := by
  unfold r_vline
  rw [if_pos h]

theorem r_hline_outside (fuel : ℕ) (area : Rect) (c : Canvas) (color x0 x1 y : ℤ)
    (h : y < area.t ∨ y ≥ area.b) : r_hline fuel area c color x0 x1 y = some c := by
  unfold r_hline
  rw [if_pos h]

theorem r_line_vertical (fuel : ℕ) (area : Rect) (c : Canvas) (color : ℤ) (x0 y0 x1 y1 : ℚ)
    (hx : ctrunc x0 + area.l = ctrunc x1 + area.l) :
    r_line fuel area c color x0 y0 x1 y1 =
      r_vline fuel area c color (ctrunc x0 + area.l) (ctrunc y0 + area.t) (ctrunc y1 + area.t) := by
  unfold r_line
  dsimp only
  rw [if_pos hx]

theorem r_line_horizontal (fuel : ℕ) (area : Rect) (c : Canvas) (color : ℤ) (x0 y0 x1 y1 : ℚ)
    (hx : ctrunc x0 + area.l ≠ ctrunc x1 + area.l)
    (hy : ctrunc y0 + area.t = ctrunc y1 + area.t) :
    r_line fuel area c color x0 y0 x1 y1 =
      r_hline fuel area c color (ctrunc x0 + area.l) (ctrunc x1 + area.l) (ctrunc y0 + area.t) := by
  unfold r_line
  dsimp only
  rw [if_neg hx, if_pos hy]

theorem r_line_clipped (fuel : ℕ) (area : Rect) (c : Canvas) (color : ℤ) (x0 y0 x1 y1 : ℚ)
    (hx : ctrunc x0 + area.l ≠ ctrunc x1 + area.l)
    (hy : ctrunc y0 + area.t ≠ ctrunc y1 + area.t)
    (hc : r_clip_line area (F.ofInt (ctrunc x0 + area.l)) (F.ofInt (ctrunc y0 + area.t))
      (F.ofInt (ctrunc x1 + area.l)) (F.ofInt (ctrunc y1 + area.t)) = none) :
    r_line fuel area c color x0 y0 x1 y1 = some c := by
  unfold r_line
  dsimp only
  rw [if_neg hx, if_neg hy, hc]

theorem r_line_walked (fuel : ℕ) (area : Rect) (c : Canvas) (color : ℤ) (x0 y0 x1 y1 : ℚ)
    (X0 Y0 X1 Y1 : F)
    (hx : ctrunc x0 + area.l ≠ ctrunc x1 + area.l)
    (hy : ctrunc y0 + area.t ≠ ctrunc y1 + area.t)
    (hc : r_clip_line area (F.ofInt (ctrunc x0 + area.l)) (F.ofInt (ctrunc y0 + area.t))
      (F.ofInt (ctrunc x1 + area.l)) (F.ofInt (ctrunc y1 + area.t)) = some (X0, Y0, X1, Y1)) :
    r_line fuel area c color x0 y0 x1 y1 =
      r_line_walk fuel fuel c color (X0.add (F.fin (1 / 2))).toInt (Y0.add (F.fin (1 / 2))).toInt
        (X1.add (F.fin (1 / 2))).toInt (Y1.add (F.fin (1 / 2))).toInt
        (m_sign ((X1.add (F.fin (1 / 2))).toInt - (X0.add (F.fin (1 / 2))).toInt))
        (m_sign ((Y1.add (F.fin (1 / 2))).toInt - (Y0.add (F.fin (1 / 2))).toInt))
        (m_abs ((((Y1.add (F.fin (1 / 2))).toInt - (Y0.add (F.fin (1 / 2))).toInt : ℤ) : ℚ) /
          (((X1.add (F.fin (1 / 2))).toInt - (X0.add (F.fin (1 / 2))).toInt : ℤ) : ℚ))) 0 := by
  unfold r_line
  dsimp only
  rw [if_neg hx, if_neg hy, hc]

theorem r_clip_line_empty (area : Rect) (x0 y0 x1 y1 : ℚ)
    (h : area.l > area.r ∨ area.t > area.b) :
    r_clip_line area (F.fin x0) (F.fin y0) (F.fin x1) (F.fin y1) = none := by
  cases hc : r_clip_line area (F.fin x0) (F.fin y0) (F.fin x1) (F.fin y1) with
  | none => rfl
  | some q =>
    obtain ⟨X0, Y0, X1, Y1⟩ := q
    obtain ⟨t0, t1, -, h01, -, -, -, -, -, hin⟩ := r_clip_line_sound area x0 y0 x1 y1 _ _ _ _ hc
    obtain ⟨a1, a2, a3, a4⟩ := hin t0 le_rfl h01
    have hx : (area.l : ℚ) ≤ ((area.r - 1 : ℤ) : ℚ) := le_trans a1 a2
    have hy : (area.t : ℚ) ≤ ((area.b - 1 : ℤ) : ℚ) := le_trans a3 a4
    have hx2 : area.l ≤ area.r - 1 := by exact_mod_cast hx
    have hy2 : area.t ≤ area.b - 1 := by exact_mod_cast hy
    omega

theorem r_line_inverted_left (fuel : ℕ) (area : Rect) (c : Canvas) (color : ℤ)
    (x0 y0 x1 y1 : ℚ) (h : area.l > area.r)
    (hy : ctrunc y0 + area.t ≠ ctrunc y1 + area.t) :
    r_line fuel area c color x0 y0 x1 y1 = some c := by
  by_cases hx : ctrunc x0 + area.l = ctrunc x1 + area.l
  · rw [r_line_vertical _ _ _ _ _ _ _ _ hx]
    exact r_vline_outside _ _ _ _ _ _ _ (by omega)
  · exact r_line_clipped _ _ _ _ _ _ _ _ hx hy (r_clip_line_empty _ _ _ _ _ (Or.inl h))

theorem r_line_inverted_top (fuel : ℕ) (area : Rect) (c : Canvas) (color : ℤ)
    (x0 y0 x1 y1 : ℚ) (h : area.t > area.b)
    (hx : ctrunc x0 + area.l ≠ ctrunc x1 + area.l) :
    r_line fuel area c color x0 y0 x1 y1 = some c := by
  by_cases hy : ctrunc y0 + area.t = ctrunc y1 + area.t
  · rw [r_line_horizontal _ _ _ _ _ _ _ _ hx hy]
    exact r_hline_outside _ _ _ _ _ _ _ (by omega)
  · exact r_line_clipped _ _ _ _ _ _ _ _ hx hy (r_clip_line_empty _ _ _ _ _ (Or.inr h))

theorem r_line_inverted_both (fuel : ℕ) (area : Rect) (c : Canvas) (color : ℤ)
    (x0 y0 x1 y1 : ℚ) (h : area.l > area.r) (h2 : area.t > area.b) :
    r_line fuel area c color x0 y0 x1 y1 = some c := by
  by_cases hx : ctrunc x0 + area.l = ctrunc x1 + area.l
  · rw [r_line_vertical _ _ _ _ _ _ _ _ hx]
    exact r_vline_outside _ _ _ _ _ _ _ (by omega)
  · exact r_line_inverted_top _ _ _ _ _ _ _ _ h2 hx

/-- C7 as stated fails: with `left > right` only, `r_hline` clamps both ends to
    `left` and writes the position `(left, y)`; with `top > bottom` only,
    `r_vline` writes `(x, top)`. -/
theorem inverted_rect_still_writes :
    ((⟨5, 0, 3, 10⟩ : Rect).l > (⟨5, 0, 3, 10⟩ : Rect).r ∧
      (r_hline 2 ⟨5, 0, 3, 10⟩ ⟨fun _ => 0, []⟩ 7 0 1 2).map Canvas.log = some [(5, 2)]) ∧
    ((⟨0, 5, 10, 3⟩ : Rect).t > (⟨0, 5, 10, 3⟩ : Rect).b ∧
      (r_vline 2 ⟨0, 5, 10, 3⟩ ⟨fun _ => 0, []⟩ 7 2 0 1).map Canvas.log = some [(2, 5)]) := by
  decide

/-- C7, amended: with `left > right`, `r_vline` writes nothing and `r_line`
    writes nothing unless its truncated endpoints share the same `y` (the `r_hline`
    path); with `top > bottom`, `r_hline` writes nothing and `r_line` writes
    nothing unless its truncated endpoints share the same `x` (the `r_vline` path);
    with both, `r_vline`, `r_hline`, `r_line` and `r_rect` write nothing at all.
    "Writes nothing" is: the call returns, for every fuel, the canvas it was given. -/
theorem inverted_rect_nothing_drawn (area : Rect) (c : Canvas) (color : ℤ) :
    (area.l > area.r →
      (∀ fuel x y0 y1, r_vline fuel area c color x y0 y1 = some c) ∧
      (∀ fuel (x0 y0 x1 y1 : ℚ), ctrunc y0 + area.t ≠ ctrunc y1 + area.t →
        r_line fuel area c color x0 y0 x1 y1 = some c)) ∧
    (area.t > area.b →
      (∀ fuel x0 x1 y, r_hline fuel area c color x0 x1 y = some c) ∧
      (∀ fuel (x0 y0 x1 y1 : ℚ), ctrunc x0 + area.l ≠ ctrunc x1 + area.l →
        r_line fuel area c color x0 y0 x1 y1 = some c)) ∧
    (area.l > area.r ∧ area.t > area.b →
      (∀ fuel (x0 y0 x1 y1 : ℚ), r_line fuel area c color x0 y0 x1 y1 = some c) ∧
      (∀ fuel l t r b, r_rect fuel area c color l t r b = some c)) := by
  refine ⟨fun h => ⟨?_, ?_⟩, fun h => ⟨?_, ?_⟩, fun h => ⟨?_, ?_⟩⟩
  · intro fuel x y0 y1
    exact r_vline_outside _ _ _ _ _ _ _ (by omega)
  · intro fuel x0 y0 x1 y1 hy
    exact r_line_inverted_left _ _ _ _ _ _ _ _ h hy
  · intro fuel x0 x1 y
    exact r_hline_outside _ _ _ _ _ _ _ (by omega)
  · intro fuel x0 y0 x1 y1 hx
    exact r_line_inverted_top _ _ _ _ _ _ _ _ h hx
  · intro fuel x0 y0 x1 y1
    exact r_line_inverted_both _ _ _ _ _ _ _ _ h.1 h.2
  · intro fuel l t r b
    unfold r_rect
    simp only [r_line_inverted_both _ _ _ _ _ _ _ _ h.1 h.2, Option.some_bind]

/-- C7, amended, at the rectangle `(5,7)-(3,2)`: the four primitives return the
    canvas unchanged. -/
theorem inverted_rect_nothing_drawn_witness :
    r_vline 9 ⟨5, 7, 3, 2⟩ ⟨fun _ => 0, []⟩ 7 4 0 9 = some ⟨fun _ => 0, []⟩ ∧
    r_hline 9 ⟨5, 7, 3, 2⟩ ⟨fun _ => 0, []⟩ 7 0 9 4 = some ⟨fun _ => 0, []⟩ ∧
    r_line 9 ⟨5, 7, 3, 2⟩ ⟨fun _ => 0, []⟩ 7 0 0 4 4 = some ⟨fun _ => 0, []⟩ ∧
    r_rect 9 ⟨5, 7, 3, 2⟩ ⟨fun _ => 0, []⟩ 7 0 0 4 4 = some ⟨fun _ => 0, []⟩ :=
  ⟨((inverted_rect_nothing_drawn ⟨5, 7, 3, 2⟩ ⟨fun _ => 0, []⟩ 7).1 (by decide)).1 9 4 0 9,
   ((inverted_rect_nothing_drawn ⟨5, 7, 3, 2⟩ ⟨fun _ => 0, []⟩ 7).2.1 (by decide)).1 9 0 9 4,
   ((inverted_rect_nothing_drawn ⟨5, 7, 3, 2⟩ ⟨fun _ => 0, []⟩ 7).2.2
      ⟨by decide, by decide⟩).1 9 0 0 4 4,
   ((inverted_rect_nothing_drawn ⟨5, 7, 3, 2⟩ ⟨fun _ => 0, []⟩ 7).2.2
      ⟨by decide, by decide⟩).2 9 0 0 4 4⟩

/-! ## The intersection point lies on both lines -/

/-- C11: when the direction cross product
    `(rx0-rx1)*(sy0-sy1) - (ry0-ry1)*(sx0-sx1)` is not zero, the point `(ix, iy)`
    returned by `intersect` is finite and collinear with `r0, r1` and with
    `s0, s1` (exact arithmetic). -/
theorem intersect_on_both_lines (rx0 ry0 rx1 ry1 sx0 sy0 sx1 sy1 : ℚ)
    (hd : (rx0 - rx1) * (sy0 - sy1) - (ry0 - ry1) * (sx0 - sx1) ≠ 0) :
    ∃ ix iy : ℚ,
      (intersect (F.fin rx0) (F.fin ry0) (F.fin rx1) (F.fin ry1)
        (F.fin sx0) (F.fin sy0) (F.fin sx1) (F.fin sy1)).1.isFin = true ∧
      (intersect (F.fin rx0) (F.fin ry0) (F.fin rx1) (F.fin ry1)
        (F.fin sx0) (F.fin sy0) (F.fin sx1) (F.fin sy1)).2.isFin = true ∧
      (intersect (F.fin rx0) (F.fin ry0) (F.fin rx1) (F.fin ry1)
        (F.fin sx0) (F.fin sy0) (F.fin sx1) (F.fin sy1)).1.val = ix ∧
      (intersect (F.fin rx0) (F.fin ry0) (F.fin rx1) (F.fin ry1)
        (F.fin sx0) (F.fin sy0) (F.fin sx1) (F.fin sy1)).2.val = iy ∧
      (ix - rx0) * (ry1 - ry0) - (iy - ry0) * (rx1 - rx0) = 0 ∧
      (ix - sx0) * (sy1 - sy0) - (iy - sy0) * (sx1 - sx0) = 0 := by
  obtain ⟨a1, a2, a3, a4⟩ := intersect_of_isFin rx0 ry0 rx1 ry1 sx0 sy0 sx1 sy1 hd
  refine ⟨_, _, a1, a2, a3, a4, ?_, ?_⟩
  · field_simp
    ring
  · field_simp
    ring

/-- C11 at a concrete input: the diagonals `(0,0)-(2,2)` and `(0,2)-(2,0)`. -/
theorem intersect_on_both_lines_witness :
    ∃ ix iy : ℚ,
      (intersect (F.fin 0) (F.fin 0) (F.fin 2) (F.fin 2)
        (F.fin 0) (F.fin 2) (F.fin 2) (F.fin 0)).1.isFin = true ∧
      (intersect (F.fin 0) (F.fin 0) (F.fin 2) (F.fin 2)
        (F.fin 0) (F.fin 2) (F.fin 2) (F.fin 0)).2.isFin = true ∧
      (intersect (F.fin 0) (F.fin 0) (F.fin 2) (F.fin 2)
        (F.fin 0) (F.fin 2) (F.fin 2) (F.fin 0)).1.val = ix ∧
      (intersect (F.fin 0) (F.fin 0) (F.fin 2) (F.fin 2)
        (F.fin 0) (F.fin 2) (F.fin 2) (F.fin 0)).2.val = iy ∧
      (ix - 0) * (2 - 0) - (iy - 0) * (2 - 0) = 0 ∧
      (ix - 0) * (0 - 2) - (iy - 2) * (2 - 0) = 0 :=
  intersect_on_both_lines 0 0 2 2 0 2 2 0 (by norm_num)

/-! ## Heading normalisation -/

theorem M_PI_pos : 0 < M_PI := by norm_num [M_PI]

theorem norm_lo_run (n : ℕ) :
    ∀ a : ℚ, -(n : ℚ) * (2 * M_PI) ≤ a →
      ∃ b, (∀ fuel, n ≤ fuel → norm_lo fuel a = some b) ∧ 0 ≤ b ∧ (b < 2 * M_PI ∨ b = a) := by
  have hpi := M_PI_pos
  induction n with
  | zero =>
    intro a ha
    have h0 : ¬ a < 0 := by simpa using ha
    refine ⟨a, fun fuel _ => ?_, not_lt.1 h0, Or.inr rfl⟩
    unfold norm_lo
    rw [if_neg h0]
  | succ n ih =>
    intro a ha
    by_cases h0 : a < 0
    · obtain ⟨b, hb, hb0, hb1⟩ := ih (a + 2 * M_PI) (by push_cast at ha; linarith)
      refine ⟨b, fun fuel hf => ?_, hb0, Or.inl ?_⟩
      · obtain ⟨m, rfl⟩ : ∃ m, fuel = m + 1 := ⟨fuel - 1, by omega⟩
        unfold norm_lo
        rw [if_pos h0]
        exact hb m (by omega)
      · rcases hb1 with h | h
        · exact h
        · rw [h]; linarith
    · refine ⟨a, fun fuel _ => ?_, not_lt.1 h0, Or.inr rfl⟩
      unfold norm_lo
      rw [if_neg h0]

theorem norm_hi_run (n : ℕ) :
    ∀ a : ℚ, 0 ≤ a → a < ((n : ℚ) + 1) * (2 * M_PI) →
      ∃ b, (∀ fuel, n ≤ fuel → norm_hi fuel a = some b) ∧ 0 ≤ b ∧ b < 2 * M_PI := by
  have hpi := M_PI_pos
  induction n with
  | zero =>
    intro a h0 ha
    have h1 : ¬ a ≥ 2 * M_PI := by
      simp only [Nat.cast_zero, zero_add, one_mul] at ha
      exact not_le.2 ha
    refine ⟨a, fun fuel _ => ?_, h0, not_le.1 h1⟩
    unfold norm_hi
    rw [if_neg h1]
  | succ n ih =>
    intro a h0 ha
    by_cases h1 : a ≥ 2 * M_PI
    · obtain ⟨b, hb, hb0, hb1⟩ := ih (a - 2 * M_PI) (by linarith)
        (by push_cast at ha; linarith)
      refine ⟨b, fun fuel hf => ?_, hb0, hb1⟩
      obtain ⟨m, rfl⟩ : ∃ m, fuel = m + 1 := ⟨fuel - 1, by omega⟩
      unfold norm_hi
      rw [if_pos h1]
      exact hb m (by omega)
    · refine ⟨a, fun fuel _ => ?_, h0, not_le.1 h1⟩
      unfold norm_hi
      rw [if_neg h1]

/-- The heading update terminates, with a result in `[0, 2*M_PI)` that does not
    depend on the fuel. -/
theorem heading_step_run (pangle : ℚ) (wishlook : ℤ) (tdelta : ℚ) :
    ∃ N b, (∀ fuel, N ≤ fuel → heading_step fuel pangle wishlook tdelta = some b) ∧
      0 ≤ b ∧ b < 2 * M_PI := by
  have hpi := M_PI_pos
  have h2 : (0 : ℚ) < 2 * M_PI := by linarith
  obtain ⟨n1, hn1⟩ := exists_nat_ge (-(pangle + M_PI * wishlook * tdelta) / (2 * M_PI))
  obtain ⟨a, ha, ha0, -⟩ := norm_lo_run n1 (pangle + M_PI * wishlook * tdelta) (by
    have := (div_le_iff₀ h2).1 hn1
    linarith)
  obtain ⟨n2, hn2⟩ := exists_nat_ge (a / (2 * M_PI))
  obtain ⟨b, hb, hb0, hb1⟩ := norm_hi_run n2 a ha0 (by
    have := (div_le_iff₀ h2).1 hn2
    nlinarith)
  refine ⟨max n1 n2, b, fun fuel hf => ?_, hb0, hb1⟩
  unfold heading_step
  rw [ha fuel (le_trans (le_max_left _ _) hf), Option.some_bind]
  exact hb fuel (le_trans (le_max_right _ _) hf)

theorem heading_seq_run (frames : List (ℤ × ℚ)) :
    ∀ a : ℚ, 0 ≤ a → a < 2 * M_PI →
      ∃ N b, (∀ fuel, N ≤ fuel → heading_seq fuel frames a = some b) ∧
        0 ≤ b ∧ b < 2 * M_PI := by
  induction frames with
  | nil =>
    intro a h0 h1
    exact ⟨0, a, fun fuel _ => rfl, h0, h1⟩
  | cons f fs ih =>
    intro a _ _
    obtain ⟨N1, b, hb, hb0, hb1⟩ := heading_step_run a f.1 f.2
    obtain ⟨N2, d, hd, hd0, hd1⟩ := ih b hb0 hb1
    refine ⟨max N1 N2, d, fun fuel hf => ?_, hd0, hd1⟩
    show (heading_step fuel a f.1 f.2).bind (heading_seq fuel fs) = some d
    rw [hb fuel (le_trans (le_max_left _ _) hf), Option.some_bind]
    exact hd fuel (le_trans (le_max_right _ _) hf)

/-- In exact arithmetic, for every heading before a frame, every look axis value
    and every elapsed time, the two normalisation loops of `update` terminate and
    the heading after the frame is in `[0, 2*M_PI)`; hence the heading is in
    `[0, 2*M_PI)` after every sequence of frames that starts from the initial
    heading `0`. -/
theorem heading_in_range_exact :
    (∀ (pangle : ℚ) (wishlook : ℤ) (tdelta : ℚ),
      ∃ N b, (∀ fuel, N ≤ fuel → heading_step fuel pangle wishlook tdelta = some b) ∧
        0 ≤ b ∧ b < 2 * M_PI) ∧
    (∀ frames : List (ℤ × ℚ),
      ∃ N b, (∀ fuel, N ≤ fuel → heading_seq fuel frames 0 = some b) ∧
        0 ≤ b ∧ b < 2 * M_PI) := by
  refine ⟨heading_step_run, fun frames => ?_⟩
  exact heading_seq_run frames 0 le_rfl (by have := M_PI_pos; linarith)

/-! ## Perspective projection -/

theorem F.neg_fin_zero : (F.fin 0).neg = F.nzero := by simp [F.neg]

theorem F.neg_nzero : F.nzero.neg = F.fin 0 := rfl

theorem F.nzero_mul_fifty : F.nzero.mul (F.ofInt 50) = F.nzero := by
  norm_num [F.mul, F.isNaN, F.isInf, F.val, F.sgn, F.mk, F.zero, F.ofInt]

theorem F.zero_mul_fifty : (F.fin 0).mul (F.ofInt 50) = F.fin 0 := by
  norm_num [F.mul, F.isNaN, F.isInf, F.val, F.sgn, F.mk, F.zero, F.ofInt]

theorem F.nzero_div_neg (z : ℚ) (hz : z < 0) : F.nzero.div (F.fin z) = F.fin 0 := by
  have hz0 : ¬ z = 0 := ne_of_lt hz
  simp [F.div, F.isNaN, F.isInf, F.isZero, F.isFin, F.val, F.sgn, F.mk, F.zero, hz, hz0]

theorem F.zero_div_neg (z : ℚ) (hz : z < 0) : (F.fin 0).div (F.fin z) = F.nzero := by
  have hz0 : ¬ z = 0 := ne_of_lt hz
  simp [F.div, F.isNaN, F.isInf, F.isZero, F.isFin, F.val, F.sgn, F.mk, F.zero, hz, hz0]

theorem F.add_nzero_fin (b : ℚ) : F.nzero.add (F.fin b) = F.fin b := by
  by_cases hb : b = 0 <;>
    simp [F.add, F.isNaN, F.isInf, F.isZero, F.isFin, F.val, F.zero, F.sgn, hb]

theorem proj_x_of_isFin (tx tz : F) (htx : tx.isFin = true) (htz : tz.isFin = true)
    (hz : tz.val ≠ 0) (mid : ℤ) :
    ((((tx.neg).mul (F.ofInt 50)).div tz).add (F.ofInt mid)).isFin = true ∧
    ((((tx.neg).mul (F.ofInt 50)).div tz).add (F.ofInt mid)).val =
      (-tx.val * 50) / tz.val + mid := by
  obtain ⟨a1, a2⟩ := F.neg_of_isFin tx htx
  obtain ⟨b1, b2⟩ := F.mul_of_isFin tx.neg (F.ofInt 50) a1 (F.isFin_fin _)
  obtain ⟨c1, c2⟩ := F.div_of_isFin _ tz b1 htz hz
  obtain ⟨d1, d2⟩ := F.add_of_isFin _ (F.ofInt mid) c1 (F.isFin_fin _)
  refine ⟨d1, ?_⟩
  rw [d2, c2, b2, a2]
  simp [F.ofInt, F.val_fin]

theorem proj_y_of_isFin (k : ℤ) (tz : F) (htz : tz.isFin = true) (hz : tz.val ≠ 0) (mid : ℤ) :
    (((F.ofInt k).div tz).add (F.ofInt mid)).isFin = true ∧
    (((F.ofInt k).div tz).add (F.ofInt mid)).val = (k : ℚ) / tz.val + mid := by
  obtain ⟨c1, c2⟩ := F.div_of_isFin (F.ofInt k) tz (F.isFin_fin _) htz hz
  obtain ⟨d1, d2⟩ := F.add_of_isFin _ (F.ofInt mid) c1 (F.isFin_fin _)
  refine ⟨d1, ?_⟩
  rw [d2, c2]
  simp [F.ofInt, F.val_fin]

/-- In exact arithmetic, for player-local wall endpoints with equal strictly
    negative depth `z` and opposite lateral offsets `x`, `-x`, `x` not zero, the
    projection of `update` gives two finite, distinct screen x values with
    `sx0 + sx1 = 2 * midx` and the same top and the same bottom y at both ends; for
    the wall `(40,30)-(60,30)` seen from `(50,50)` with `sin = 0`, `cos = 1` the
    local endpoints are `(-10,-20)` and `(10,-20)` and the screen x values are `25`
    and `75` for `midx = 50`. -/
theorem project_symmetric_exact (x z : ℚ) (hx : x ≠ 0) (hz : z < 0) (midx midy : ℤ) :
    ((project (F.fin x) (F.fin z) (F.fin (-x)) (F.fin z) midx midy).1.isFin = true ∧
      (project (F.fin x) (F.fin z) (F.fin (-x)) (F.fin z) midx midy).2.1.isFin = true ∧
      (project (F.fin x) (F.fin z) (F.fin (-x)) (F.fin z) midx midy).1.val ≠
        (project (F.fin x) (F.fin z) (F.fin (-x)) (F.fin z) midx midy).2.1.val ∧
      (project (F.fin x) (F.fin z) (F.fin (-x)) (F.fin z) midx midy).1.val +
        (project (F.fin x) (F.fin z) (F.fin (-x)) (F.fin z) midx midy).2.1.val = 2 * midx ∧
      (project (F.fin x) (F.fin z) (F.fin (-x)) (F.fin z) midx midy).2.2.1 =
        (project (F.fin x) (F.fin z) (F.fin (-x)) (F.fin z) midx midy).2.2.2.1 ∧
      (project (F.fin x) (F.fin z) (F.fin (-x)) (F.fin z) midx midy).2.2.2.2.1 =
        (project (F.fin x) (F.fin z) (F.fin (-x)) (F.fin z) midx midy).2.2.2.2.2 ∧
      (project (F.fin x) (F.fin z) (F.fin (-x)) (F.fin z) midx midy).2.2.1.isFin = true ∧
      (project (F.fin x) (F.fin z) (F.fin (-x)) (F.fin z) midx midy).2.2.2.2.1.isFin = true) ∧
    (local_wall 50 50 0 1 = (-10, -20, 10, -20) ∧
      (project (F.fin (-10)) (F.fin (-20)) (F.fin 10) (F.fin (-20)) 50 50).1 = F.fin 25 ∧
      (project (F.fin (-10)) (F.fin (-20)) (F.fin 10) (F.fin (-20)) 50 50).2.1 = F.fin 75) := by
  have hz0 : (F.fin z).val ≠ 0 := by rw [F.val_fin]; exact ne_of_lt hz
  have hz1 : z ≠ 0 := ne_of_lt hz
  obtain ⟨a1, a2⟩ := proj_x_of_isFin (F.fin x) (F.fin z) (F.isFin_fin _) (F.isFin_fin _) hz0 midx
  obtain ⟨b1, b2⟩ := proj_x_of_isFin (F.fin (-x)) (F.fin z) (F.isFin_fin _) (F.isFin_fin _)
    hz0 midx
  obtain ⟨c1, -⟩ := proj_y_of_isFin (-50) (F.fin z) (F.isFin_fin _) hz0 midy
  obtain ⟨d1, -⟩ := proj_y_of_isFin 50 (F.fin z) (F.isFin_fin _) hz0 midy
  simp only [F.val_fin] at a2 b2
  refine ⟨⟨a1, b1, ?_, ?_, rfl, rfl, c1, d1⟩, ?_, ?_, ?_⟩
  · show (F.add _ _).val ≠ (F.add _ _).val
    rw [a2, b2]
    intro h
    have h2 : -x * 50 / z = - -x * 50 / z := by linarith
    rw [div_left_inj' hz1] at h2
    apply hx
    linarith
  · show (F.add _ _).val + (F.add _ _).val = _
    rw [a2, b2]
    field_simp
    ring
  · norm_num [local_wall, wx0, wz0, wx1, wz1]
  · norm_num [project, F.neg, F.mul, F.div, F.add, F.isNaN, F.isInf, F.isZero, F.isFin, F.val,
      F.sgn, F.mk, F.zero, F.ofInt]
  · norm_num [project, F.neg, F.mul, F.div, F.add, F.isNaN, F.isInf, F.isZero, F.isFin, F.val,
      F.sgn, F.mk, F.zero, F.ofInt]

/-! ## The frustum clip of the first-person view -/

/-- A float for which `x >= 0` is false is strictly negative or NaN, and is not
    zero. -/
theorem F.of_not_ge_zero (x : F) (h : x.ge (F.fin 0) = false) :
    (x.lt (F.fin 0) = true ∨ x = F.nan) ∧ x.isZero = false := by
  cases x with
  | fin q =>
    simp only [F.ge, F.le, F.lt, F.beq, F.isNaN, F.isInf, F.val, Bool.or_self,
      Bool.false_eq_true, if_false, Bool.or_eq_false_iff, decide_eq_false_iff_not, not_lt] at h
    have hq : q < 0 := lt_of_le_of_ne h.1 (fun e => h.2 e.symm)
    simp [F.lt, F.isNaN, F.isInf, F.val, F.isZero, F.isFin, hq, ne_of_lt hq]
  | nzero => simp [F.ge, F.le, F.lt, F.beq, F.isNaN, F.isInf, F.val] at h
  | pinf => simp [F.ge, F.le, F.lt, F.beq, F.isNaN, F.isInf, F.val, F.sgn] at h
  | ninf => simp [F.lt, F.isNaN, F.isInf, F.sgn, F.isZero, F.isFin]
  | nan => simp [F.isZero, F.isFin, F.isNaN]

/-- C13, amended: whenever the first-person view reaches the perspective divide,
    for all player-local endpoints and all intersection results, each of the depths
    `tz0`, `tz1` is strictly negative or NaN and is not zero, so none of the six
    divisions divides by zero; when none of `tz0`, `tz1`, `iz0`, `iz1` is NaN, both
    depths are strictly negative. -/
theorem frustum_pick_visible (tx0 tz0 tx1 tz1 ix0 iz0 ix1 iz1 a b c d : F)
    (h : frustum_pick tx0 tz0 tx1 tz1 ix0 iz0 ix1 iz1 = Clip3D.visible a b c d) :
    (b.lt (F.fin 0) = true ∨ b = F.nan) ∧ (d.lt (F.fin 0) = true ∨ d = F.nan) ∧
    b.isZero = false ∧ d.isZero = false ∧
    (tz0 ≠ F.nan → tz1 ≠ F.nan → iz0 ≠ F.nan → iz1 ≠ F.nan →
      b.lt (F.fin 0) = true ∧ d.lt (F.fin 0) = true) := by
  obtain ⟨p0, hp0⟩ : ∃ p0 : F × F, p0 = (if tz0.gt (F.fin 0) then
      (if iz0.le (F.fin 0) then (ix0, iz0) else (ix1, iz1)) else (tx0, tz0)) := ⟨_, rfl⟩
  obtain ⟨p1, hp1⟩ : ∃ p1 : F × F, p1 = (if tz1.gt (F.fin 0) then
      (if iz0.le (F.fin 0) then (ix0, iz0) else (ix1, iz1)) else (tx1, tz1)) := ⟨_, rfl⟩
  have key : frustum_pick tx0 tz0 tx1 tz1 ix0 iz0 ix1 iz1 =
      if p0.2.ge (F.fin 0) || p1.2.ge (F.fin 0) then Clip3D.degenerate
      else Clip3D.visible p0.1 p0.2 p1.1 p1.2 := by
    rw [hp0, hp1]; rfl
  have q0 : p0.2 = tz0 ∨ p0.2 = iz0 ∨ p0.2 = iz1 := by
    rw [hp0]; split_ifs <;> simp
  have q1 : p1.2 = tz1 ∨ p1.2 = iz0 ∨ p1.2 = iz1 := by
    rw [hp1]; split_ifs <;> simp
  rw [key] at h
  by_cases g : (p0.2.ge (F.fin 0) || p1.2.ge (F.fin 0)) = true
  · rw [if_pos g] at h; exact absurd h (by simp)
  · rw [if_neg g] at h
    simp only [Clip3D.visible.injEq] at h
    obtain ⟨-, hb, -, hd⟩ := h
    simp only [Bool.or_eq_true, not_or, Bool.not_eq_true] at g
    rw [hb] at g q0
    rw [hd] at g q1
    obtain ⟨m1, m2⟩ := F.of_not_ge_zero b g.1
    obtain ⟨n1, n2⟩ := F.of_not_ge_zero d g.2
    refine ⟨m1, n1, m2, n2, fun h1 h2 h3 h4 => ⟨m1.resolve_right ?_, n1.resolve_right ?_⟩⟩
    · rcases q0 with e | e | e <;> rw [e] <;> assumption
    · rcases q1 with e | e | e <;> rw [e] <;> assumption

/-- C13, amended, at the scenario of the specification: the endpoints
    `(-10,-20)`, `(10,-20)` reach the perspective divide unchanged. -/
theorem frustum_pick_visible_witness :
    frustum_pick (F.fin (-10)) (F.fin (-20)) (F.fin 10) (F.fin (-20))
        (F.fin 0) (F.fin 0) (F.fin 0) (F.fin 0) =
      Clip3D.visible (F.fin (-10)) (F.fin (-20)) (F.fin 10) (F.fin (-20)) ∧
    ((F.fin (-20)).lt (F.fin 0) = true ∨ F.fin (-20) = F.nan) ∧
    ((F.fin (-20)).lt (F.fin 0) = true ∨ F.fin (-20) = F.nan) ∧
    (F.fin (-20)).isZero = false ∧ (F.fin (-20)).isZero = false ∧
    (F.fin (-20) ≠ F.nan → F.fin (-20) ≠ F.nan → F.fin 0 ≠ F.nan → F.fin 0 ≠ F.nan →
      (F.fin (-20)).lt (F.fin 0) = true ∧ (F.fin (-20)).lt (F.fin 0) = true) :=
  have e : frustum_pick (F.fin (-10)) (F.fin (-20)) (F.fin 10) (F.fin (-20))
        (F.fin 0) (F.fin 0) (F.fin 0) (F.fin 0) =
      Clip3D.visible (F.fin (-10)) (F.fin (-20)) (F.fin 10) (F.fin (-20)) := by
    norm_num [frustum_pick, F.lt, F.gt, F.le, F.ge, F.beq, F.isNaN, F.isInf, F.val, F.sgn]
  ⟨e, frustum_pick_visible _ _ _ _ _ _ _ _ _ _ _ _ e⟩

/-! ## Termination of the drawing operations -/

theorem Terminates.seq (f g : ℕ → Canvas → Option Canvas) (hf : Terminates f)
    (hg : Terminates g) : Terminates (fun fuel c => (f fuel c).bind (g fuel)) := by
  obtain ⟨N1, h1⟩ := hf
  obtain ⟨N2, h2⟩ := hg
  refine ⟨max N1 N2, fun fuel hfuel c => ?_⟩
  obtain ⟨c1, e1⟩ := h1 fuel (le_trans (le_max_left _ _) hfuel) c
  obtain ⟨c2, e2⟩ := h2 fuel (le_trans (le_max_right _ _) hfuel) c1
  exact ⟨c2, by simp only [e1, Option.some_bind, e2]⟩

/-- For every clip rectangle and all finite endpoints `r_line` returns, for every
    sufficient fuel, the canvas painted at some list of positions. -/
theorem r_line_returns (area : Rect) (color : ℤ) (x0 y0 x1 y1 : ℚ) :
    ∃ N, ∀ fuel, N ≤ fuel → ∀ c, ∃ ws,
      r_line fuel area c color x0 y0 x1 y1 = some (c.paint color ws) := by
  by_cases hx : ctrunc x0 + area.l = ctrunc x1 + area.l
  · by_cases hin : ctrunc x0 + area.l < area.l ∨ ctrunc x0 + area.l ≥ area.r
    · refine ⟨0, fun fuel _ c => ⟨[], ?_⟩⟩
      rw [r_line_vertical _ _ _ _ _ _ _ _ hx, paint_nil]
      exact r_vline_outside _ _ _ _ _ _ _ hin
    · refine ⟨(m_clamp (ctrunc y1 + area.t) area.t (area.b - 1) -
        m_clamp (ctrunc y0 + area.t) area.t (area.b - 1)).natAbs + 1, fun fuel hf c => ?_⟩
      have hr := r_vline_run fuel area c color _ _ _ hin hf
      rw [← r_line_vertical _ _ _ _ _ _ _ _ hx] at hr
      exact ⟨_, hr⟩
  · by_cases hy : ctrunc y0 + area.t = ctrunc y1 + area.t
    · by_cases hin : ctrunc y0 + area.t < area.t ∨ ctrunc y0 + area.t ≥ area.b
      · refine ⟨0, fun fuel _ c => ⟨[], ?_⟩⟩
        rw [r_line_horizontal _ _ _ _ _ _ _ _ hx hy, paint_nil]
        exact r_hline_outside _ _ _ _ _ _ _ hin
      · refine ⟨(m_clamp (ctrunc x1 + area.l) area.l (area.r - 1) -
          m_clamp (ctrunc x0 + area.l) area.l (area.r - 1)).natAbs + 1, fun fuel hf c => ?_⟩
        have hr := r_hline_run fuel area c color _ _ _ hin hf
        rw [← r_line_horizontal _ _ _ _ _ _ _ _ hx hy] at hr
        exact ⟨_, hr⟩
    · cases hc : r_clip_line area (F.ofInt (ctrunc x0 + area.l)) (F.ofInt (ctrunc y0 + area.t))
        (F.ofInt (ctrunc x1 + area.l)) (F.ofInt (ctrunc y1 + area.t)) with
      | none =>
        refine ⟨0, fun fuel _ c => ⟨[], ?_⟩⟩
        rw [r_line_clipped _ _ _ _ _ _ _ _ hx hy hc, paint_nil]
      | some q =>
        obtain ⟨X0, Y0, X1, Y1⟩ := q
        refine ⟨((X1.add (F.fin (1 / 2))).toInt - (X0.add (F.fin (1 / 2))).toInt).natAbs +
          ((Y1.add (F.fin (1 / 2))).toInt - (Y0.add (F.fin (1 / 2))).toInt).natAbs + 2,
          fun fuel hf c => ?_⟩
        obtain ⟨ws, hws, -⟩ := r_line_walk_init fuel c color _ _ _ _ hf
        exact ⟨ws, by rw [r_line_walked _ _ _ _ _ _ _ _ _ _ _ _ hx hy hc]; exact hws⟩

theorem r_line_terminates (area : Rect) (color : ℤ) (x0 y0 x1 y1 : ℚ) :
    Terminates (fun fuel c => r_line fuel area c color x0 y0 x1 y1) := by
  obtain ⟨N, h⟩ := r_line_returns area color x0 y0 x1 y1
  refine ⟨N, fun fuel hf c => ?_⟩
  obtain ⟨ws, e⟩ := h fuel hf c
  exact ⟨_, e⟩

theorem r_rect_terminates (area : Rect) (color l t r b : ℤ) :
    Terminates (fun fuel c => r_rect fuel area c color l t r b) :=
  Terminates.seq _ _ (r_line_terminates area color l t r t)
    (Terminates.seq _ _ (r_line_terminates area color r t r b)
      (Terminates.seq _ _ (r_line_terminates area color l b r b)
        (r_line_terminates area color l t l b)))

theorem r_lineF_terminates (area : Rect) (color : ℤ) (x0 y0 x1 y1 : F) :
    Terminates (fun fuel c => r_lineF fuel area c color x0 y0 x1 y1) :=
  r_line_terminates area color x0.val y0.val x1.val y1.val

theorem view_static_terminates (area : Rect) (px pz psin pcos : ℚ) :
    Terminates (fun fuel c => view_static fuel area c px pz psin pcos) :=
  Terminates.seq _ _ (r_line_terminates area 0xFFFF00 wx0 wz0 wx1 wz0)
    (Terminates.seq _ _
      (r_line_terminates area 0x333333 px pz (px + 10 * psin) (pz - 10 * pcos))
      (Terminates.seq _ _ (r_line_terminates area 0xFFFFFF px pz px pz)
        (r_rect_terminates area 0xFF0000 0 0 (area_w area - 1) (area_h area - 1))))

theorem view_topdown_terminates (area : Rect) (tx0 tz0 tx1 tz1 : ℚ) :
    Terminates (fun fuel c => view_topdown fuel area c tx0 tz0 tx1 tz1) :=
  Terminates.seq _ _
    (r_line_terminates area 0xFFFF00 (tx0 + Int.tdiv (area_w area) 2)
      (tz0 + Int.tdiv (area_h area) 2) (tx1 + Int.tdiv (area_w area) 2)
      (tz1 + Int.tdiv (area_h area) 2))
    (Terminates.seq _ _
      (r_line_terminates area 0x333333 (Int.tdiv (area_w area) 2) (Int.tdiv (area_h area) 2)
        (Int.tdiv (area_w area) 2) (Int.tdiv (area_h area) 2 - 10 : ℤ))
      (Terminates.seq _ _
        (r_line_terminates area 0xFFFFFF (Int.tdiv (area_w area) 2) (Int.tdiv (area_h area) 2)
          (Int.tdiv (area_w area) 2) (Int.tdiv (area_h area) 2))
        (r_rect_terminates area 0x00FF00 0 0 (area_w area - 1) (area_h area - 1))))

theorem draw_wall_terminates (area : Rect) (q : F × F × F × F × F × F) :
    Terminates (fun fuel c => draw_wall fuel area c q) :=
  Terminates.seq _ _ (r_lineF_terminates area 0xFFFF00 q.1 q.2.2.1 q.2.1 q.2.2.2.1)
    (Terminates.seq _ _ (r_lineF_terminates area 0xFFFF00 q.2.1 q.2.2.2.1 q.2.1 q.2.2.2.2.2)
      (Terminates.seq _ _ (r_lineF_terminates area 0xFFFF00 q.1 q.2.2.2.2.1 q.2.1 q.2.2.2.2.2)
        (r_lineF_terminates area 0xFFFF00 q.1 q.2.2.1 q.1 q.2.2.2.2.1)))

/-- The first-person view when the frustum clip does not reach the divide. -/
theorem view_3d_border (fuel : ℕ) (area : Rect) (pix : Canvas) (tx0 tz0 tx1 tz1 : ℚ)
    (h : clip3d (F.fin tx0) (F.fin tz0) (F.fin tx1) (F.fin tz1) = Clip3D.behind ∨
      clip3d (F.fin tx0) (F.fin tz0) (F.fin tx1) (F.fin tz1) = Clip3D.degenerate) :
    view_3d fuel area pix tx0 tz0 tx1 tz1 =
      r_rect fuel area pix 0x0000FF 0 0 (area_w area - 1) (area_h area - 1) := by
  unfold view_3d
  rcases h with h | h <;> rw [h]

/-- The first-person view when the frustum clip reaches the divide. -/
theorem view_3d_visible (fuel : ℕ) (area : Rect) (pix : Canvas) (tx0 tz0 tx1 tz1 : ℚ)
    (a b c d : F)
    (h : clip3d (F.fin tx0) (F.fin tz0) (F.fin tx1) (F.fin tz1) = Clip3D.visible a b c d) :
    view_3d fuel area pix tx0 tz0 tx1 tz1 =
      (draw_wall fuel area pix
        (project a b c d (Int.tdiv (area_w area) 2) (Int.tdiv (area_h area) 2))).bind fun pix =>
      r_rect fuel area pix 0x0000FF 0 0 (area_w area - 1) (area_h area - 1) := by
  unfold view_3d
  rw [h]

theorem view_3d_terminates (area : Rect) (tx0 tz0 tx1 tz1 : ℚ) :
    Terminates (fun fuel c => view_3d fuel area c tx0 tz0 tx1 tz1) := by
  cases h : clip3d (F.fin tx0) (F.fin tz0) (F.fin tx1) (F.fin tz1) with
  | behind =>
    simp only [view_3d_border _ _ _ _ _ _ _ (Or.inl h)]
    exact r_rect_terminates _ _ _ _ _ _
  | degenerate =>
    simp only [view_3d_border _ _ _ _ _ _ _ (Or.inr h)]
    exact r_rect_terminates _ _ _ _ _ _
  | visible a b c d =>
    simp only [view_3d_visible _ _ _ _ _ _ _ _ _ _ _ h]
    exact Terminates.seq _ _ (draw_wall_terminates area _) (r_rect_terminates _ _ _ _ _ _)

/-! ## The first-person view with the wall behind the player -/

/-- C17: for player-local wall endpoints with `tz0 > 0` and `tz1 > 0` the frustum
    clip takes the first `goto wall_done`, and the first-person view of `update`
    issues no wall `r_line` call: all it draws is the border
    `r_rect(pix, 0x0000FF, 0, 0, area_w-1, area_h-1)`. -/
theorem view_3d_wall_behind (fuel : ℕ) (area : Rect) (pix : Canvas) (tx0 tz0 tx1 tz1 : ℚ)
    (h0 : 0 < tz0) (h1 : 0 < tz1) :
    clip3d (F.fin tx0) (F.fin tz0) (F.fin tx1) (F.fin tz1) = Clip3D.behind ∧
    view_3d fuel area pix tx0 tz0 tx1 tz1 =
      r_rect fuel area pix 0x0000FF 0 0 (area_w area - 1) (area_h area - 1) := by
  have h : clip3d (F.fin tx0) (F.fin tz0) (F.fin tx1) (F.fin tz1) = Clip3D.behind := by
    unfold clip3d
    rw [if_pos]
    simp only [F.gt, F.lt_of_isFin _ _ (F.isFin_fin _) (F.isFin_fin _), F.val_fin,
      Bool.and_eq_true, decide_eq_true_eq]
    exact ⟨h0, h1⟩
  exact ⟨h, view_3d_border _ _ _ _ _ _ _ (Or.inl h)⟩

/-- C17 at a concrete input: the wall `(-10,20)-(10,20)` behind the player, in
    the panel `(215, 50, 315, 150)`. -/
theorem view_3d_wall_behind_witness :
    clip3d (F.fin (-10)) (F.fin 20) (F.fin 10) (F.fin 20) = Clip3D.behind ∧
    view_3d 400 ⟨215, 50, 315, 150⟩ ⟨fun _ => 0, []⟩ (-10) 20 10 20 =
      r_rect 400 ⟨215, 50, 315, 150⟩ ⟨fun _ => 0, []⟩ 0x0000FF 0 0
        (area_w ⟨215, 50, 315, 150⟩ - 1) (area_h ⟨215, 50, 315, 150⟩ - 1) :=
  view_3d_wall_behind 400 ⟨215, 50, 315, 150⟩ ⟨fun _ => 0, []⟩ (-10) 20 10 20
    (by norm_num) (by norm_num)

/-! ## `update` restores the clip region -/

/-- In exact arithmetic, from every state with
    `area_stack_top < AREA_STACK_SIZE`, for every input, `update` returns (for every
    sufficient fuel) and leaves `area` and `area_stack_top` as they were before the
    call, whichever of the three ways through the first-person view is taken. -/
theorem update_returns_exact (sinf cosf : ℚ → ℚ) (g : Game) (pix : Canvas) (tdelta : ℚ)
    (h : g.areas.area_stack_top < AREA_STACK_SIZE) :
    ∃ N, ∀ fuel, N ≤ fuel → ∃ g1 pix1,
      update fuel sinf cosf g pix tdelta = some (g1, pix1) ∧
      g1.areas.area = g.areas.area ∧
      g1.areas.area_stack_top = g.areas.area_stack_top := by
  obtain ⟨N0, a, ha, -, -⟩ := heading_step_run g.pangle g.wishlook tdelta
  have hp : r_push_area g.areas = some { g.areas with
      area_stack := Function.update g.areas.area_stack ⟨g.areas.area_stack_top, h⟩ g.areas.area
      area_stack_top := g.areas.area_stack_top + 1 } := by
    simp [r_push_area, h]
  obtain ⟨N1, h1⟩ := view_static_terminates ⟨5, 50, 105, 150⟩
    (g.px + 20 * tdelta * (g.wishx * cosf a + g.wishz * sinf a))
    (g.pz - 20 * tdelta * (g.wishx * (-sinf a) + g.wishz * cosf a)) (sinf a) (cosf a)
  obtain ⟨N2, h2⟩ := view_topdown_terminates ⟨110, 50, 210, 150⟩
    (local_wall (g.px + 20 * tdelta * (g.wishx * cosf a + g.wishz * sinf a))
      (g.pz - 20 * tdelta * (g.wishx * (-sinf a) + g.wishz * cosf a)) (sinf a) (cosf a)).1
    (local_wall (g.px + 20 * tdelta * (g.wishx * cosf a + g.wishz * sinf a))
      (g.pz - 20 * tdelta * (g.wishx * (-sinf a) + g.wishz * cosf a)) (sinf a) (cosf a)).2.1
    (local_wall (g.px + 20 * tdelta * (g.wishx * cosf a + g.wishz * sinf a))
      (g.pz - 20 * tdelta * (g.wishx * (-sinf a) + g.wishz * cosf a)) (sinf a) (cosf a)).2.2.1
    (local_wall (g.px + 20 * tdelta * (g.wishx * cosf a + g.wishz * sinf a))
      (g.pz - 20 * tdelta * (g.wishx * (-sinf a) + g.wishz * cosf a)) (sinf a) (cosf a)).2.2.2
  obtain ⟨N3, h3⟩ := view_3d_terminates ⟨215, 50, 315, 150⟩
    (local_wall (g.px + 20 * tdelta * (g.wishx * cosf a + g.wishz * sinf a))
      (g.pz - 20 * tdelta * (g.wishx * (-sinf a) + g.wishz * cosf a)) (sinf a) (cosf a)).1
    (local_wall (g.px + 20 * tdelta * (g.wishx * cosf a + g.wishz * sinf a))
      (g.pz - 20 * tdelta * (g.wishx * (-sinf a) + g.wishz * cosf a)) (sinf a) (cosf a)).2.1
    (local_wall (g.px + 20 * tdelta * (g.wishx * cosf a + g.wishz * sinf a))
      (g.pz - 20 * tdelta * (g.wishx * (-sinf a) + g.wishz * cosf a)) (sinf a) (cosf a)).2.2.1
    (local_wall (g.px + 20 * tdelta * (g.wishx * cosf a + g.wishz * sinf a))
      (g.pz - 20 * tdelta * (g.wishx * (-sinf a) + g.wishz * cosf a)) (sinf a) (cosf a)).2.2.2
  refine ⟨max N0 (max N1 (max N2 N3)), fun fuel hf => ?_⟩
  have f0 : N0 ≤ fuel := le_trans (le_max_left _ _) hf
  have f1 : N1 ≤ fuel := le_trans (le_trans (le_max_left _ _) (le_max_right _ _)) hf
  have f2 : N2 ≤ fuel :=
    le_trans (le_trans (le_trans (le_max_left _ _) (le_max_right _ _)) (le_max_right _ _)) hf
  have f3 : N3 ≤ fuel :=
    le_trans (le_trans (le_trans (le_max_right _ _) (le_max_right _ _)) (le_max_right _ _)) hf
  obtain ⟨c1, e1⟩ := h1 fuel f1 (r_clear pix 0)
  obtain ⟨c2, e2⟩ := h2 fuel f2 c1
  obtain ⟨c3, e3⟩ := h3 fuel f3 c2
  obtain ⟨s2, p1, p2, p3, -⟩ := r_pop_area_of_top
    (r_area (r_area (r_area { g.areas with
      area_stack := Function.update g.areas.area_stack ⟨g.areas.area_stack_top, h⟩ g.areas.area
      area_stack_top := g.areas.area_stack_top + 1 } 5 50 105 150) 110 50 210 150)
      215 50 315 150) g.areas.area_stack_top h rfl
  refine ⟨Game.mk s2 g.wishx g.wishz g.wishlook
      (g.px + 20 * tdelta * (g.wishx * cosf a + g.wishz * sinf a))
      (g.pz - 20 * tdelta * (g.wishx * (-sinf a) + g.wishz * cosf a)) a, c3, ?_, ?_, p3⟩
  · unfold update
    simp only [ha fuel f0, Option.some_bind, hp]
    dsimp only [r_area] at e1 e2 e3 p1 ⊢
    rw [e1, Option.some_bind, e2, Option.some_bind, e3, Option.some_bind, p1]
    rfl
  · show s2.area = g.areas.area
    rw [p2]
    simp [r_area]

/-! ## Termination of `r_line` and the number of iterations -/

/-- The facts about the state in which `r_line` starts its walk, for rounded
    endpoints with different `x`. -/
theorem walk_start (x0 y0 x1 y1 : ℤ) (hdx : x1 - x0 ≠ 0) :
    (m_sign (y1 - y0) = 0 → m_abs (((y1 - y0 : ℤ) : ℚ) / ((x1 - x0 : ℤ) : ℚ)) = 0) ∧
    0 ≤ m_abs (((y1 - y0 : ℤ) : ℚ) / ((x1 - x0 : ℤ) : ℚ)) ∧
    m_abs (((y1 - y0 : ℤ) : ℚ) / ((x1 - x0 : ℤ) : ℚ)) * ((x1 - x0).natAbs : ℕ) =
      ((y1 - y0).natAbs : ℕ) ∧
    x0 + (((x1 - x0).natAbs + 1 : ℕ) : ℤ) * m_sign (x1 - x0) = x1 + m_sign (x1 - x0) ∧
    m_sign (x1 - x0) ≠ 0 ∧
    y0 + (((y1 - y0).natAbs + 1 : ℕ) : ℤ) * m_sign (y1 - y0) = y1 + m_sign (y1 - y0) := by
  have hA : ((x1 - x0 : ℤ) : ℚ) ≠ 0 := by exact_mod_cast hdx
  have hqA : (((x1 - x0).natAbs : ℕ) : ℚ) = |((x1 - x0 : ℤ) : ℚ)| := by
    rw [Nat.cast_natAbs, Int.cast_abs]
  have hqD : (((y1 - y0).natAbs : ℕ) : ℚ) = |((y1 - y0 : ℤ) : ℚ)| := by
    rw [Nat.cast_natAbs, Int.cast_abs]
  refine ⟨?_, ?_, ?_, ?_, ?_, ?_⟩
  · intro e
    have : y1 - y0 = 0 := by
      rcases m_sign_cases (y1 - y0) with h | h | h <;> omega
    rw [this]; simp [m_abs]
  · rw [m_abs_eq_abs]; exact abs_nonneg _
  · rw [m_abs_eq_abs, abs_div, hqA, hqD, div_mul_cancel₀ _ (abs_ne_zero.2 hA)]
  · rcases m_sign_cases (x1 - x0) with h | h | h <;> rw [h.2] <;>
      simp only [Nat.cast_add, Nat.cast_one] <;> omega
  · rcases m_sign_cases (x1 - x0) with h | h | h <;> rw [h.2] <;> omega
  · rcases m_sign_cases (y1 - y0) with h | h | h <;> rw [h.2] <;>
      simp only [Nat.cast_add, Nat.cast_one] <;> omega

theorem r_line_walk_same_x (ifuel fuel : ℕ) (c : Canvas) (color x y0 y1 ydir : ℤ)
    (errstep err : ℚ) :
    r_line_walk ifuel fuel c color x y0 x y1 (m_sign (x - x)) ydir errstep err = some c := by
  have e : m_sign (x - x) = 0 := by simp [m_sign]
  unfold r_line_walk
  rw [if_pos (by rw [e]; omega)]

/-- The walk of `r_line` returns when the outer loop is given `|x1 - x0| + 1`
    iterations and each run of the inner loop `|y1 - y0| + 1` iterations. -/
theorem r_line_walk_fuel (ifuel fuel : ℕ) (c : Canvas) (color x0 y0 x1 y1 : ℤ)
    (hi : (y1 - y0).natAbs + 1 ≤ ifuel) (hf : (x1 - x0).natAbs + 1 ≤ fuel) :
    ∃ ws, r_line_walk ifuel fuel c color x0 y0 x1 y1 (m_sign (x1 - x0)) (m_sign (y1 - y0))
        (m_abs (((y1 - y0 : ℤ) : ℚ) / ((x1 - x0 : ℤ) : ℚ))) 0 = some (c.paint color ws) := by
  by_cases hdx : x1 - x0 = 0
  · have e : x1 = x0 := by omega
    subst e
    exact ⟨[], by rw [r_line_walk_same_x, paint_nil]⟩
  · obtain ⟨w1, w2, w3, w4, w5, w6⟩ := walk_start x0 y0 x1 y1 hdx
    obtain ⟨ws, hws, -⟩ := r_line_walk_run ifuel color x1 y1 (m_sign (x1 - x0))
      (m_sign (y1 - y0)) (x1 - x0).natAbs (y1 - y0).natAbs
      (m_abs (((y1 - y0 : ℤ) : ℚ) / ((x1 - x0 : ℤ) : ℚ))) w1 w2 w3 hi
      ((x1 - x0).natAbs + 1) fuel c x0 y0 0 ((y1 - y0).natAbs + 1)
      w4 (le_refl _) w5 w6 (le_refl _) (by norm_num) (by norm_num) (by push_cast; ring) hf
    exact ⟨ws, hws⟩

/-- C20: for every clip rectangle and every pair of finite endpoints `r_line`
    terminates (exact arithmetic).  For the rounded clipped endpoints the walk
    returns when the outer loop is allowed `|x1 - x0| + 1` iterations and each run
    of the inner loop `|y1 - y0| + 1` iterations (the fuel of `r_line_walk` is the
    number of outer iterations it may start, `ifuel` the number of inner iterations
    per run), and when the two endpoints share the same `x` it returns the canvas
    unchanged with no iteration allowed at all. -/
theorem r_line_terminates_in_steps :
    (∀ (area : Rect) (color : ℤ) (x0 y0 x1 y1 : ℚ),
      ∃ N, ∀ fuel, N ≤ fuel → ∀ c, ∃ ws,
        r_line fuel area c color x0 y0 x1 y1 = some (c.paint color ws)) ∧
    (∀ (c : Canvas) (color x0 y0 x1 y1 : ℤ) (ifuel fuel : ℕ),
      (y1 - y0).natAbs + 1 ≤ ifuel → (x1 - x0).natAbs + 1 ≤ fuel →
      ∃ ws, r_line_walk ifuel fuel c color x0 y0 x1 y1 (m_sign (x1 - x0)) (m_sign (y1 - y0))
        (m_abs (((y1 - y0 : ℤ) : ℚ) / ((x1 - x0 : ℤ) : ℚ))) 0 = some (c.paint color ws)) ∧
    (∀ (c : Canvas) (color x y0 y1 : ℤ) (ifuel : ℕ),
      r_line_walk ifuel 0 c color x y0 x y1 (m_sign (x - x)) (m_sign (y1 - y0))
        (m_abs (((y1 - y0 : ℤ) : ℚ) / ((x - x : ℤ) : ℚ))) 0 = some c) := by
  refine ⟨r_line_returns, ?_, ?_⟩
  · intro c color x0 y0 x1 y1 ifuel fuel hi hf
    exact r_line_walk_fuel ifuel fuel c color x0 y0 x1 y1 hi hf
  · intro c color x y0 y1 ifuel
    exact r_line_walk_same_x ifuel 0 c color x y0 y1 _ _ _

/-! ## The walk writes a connected sequence -/

/-- Whatever the inner loop returns, it has stored the first `k` positions of the
    column run from `y0` and left `y0` advanced by `k` steps. -/
theorem r_line_inner_trace (color x0 y1 ydir : ℤ) :
    ∀ (fuel : ℕ) (c : Canvas) (y0 : ℤ) (err : ℚ) (r : Canvas × ℤ × ℚ × Bool),
      r_line_inner fuel c color x0 y0 y1 ydir err = some r →
      ∃ k : ℕ, r.1 = c.paint color (vrun x0 y0 ydir k) ∧ r.2.1 = y0 + k * ydir ∧
        (r.2.2.2 = true → 1 / 2 ≤ r.2.2.1) := by
  intro fuel
  induction fuel with
  | zero =>
    intro c y0 err r h
    unfold r_line_inner at h
    split_ifs at h with h1 h2
    · simp only [Option.some.injEq] at h
      subst h
      exact ⟨0, by simp [vrun, paint_nil], by simp, fun _ => h1⟩
    · simp only [Option.some.injEq] at h
      subst h
      exact ⟨0, by simp [vrun, paint_nil], by simp, fun hh => by simp at hh⟩
  | succ n ih =>
    intro c y0 err r h
    unfold r_line_inner at h
    split_ifs at h with h1 h2
    · simp only [Option.some.injEq] at h
      subst h
      exact ⟨0, by simp [vrun, paint_nil], by simp, fun _ => h1⟩
    · obtain ⟨k, e1, e2, e3⟩ := ih (c.store x0 y0 color) (y0 + ydir) (err - 1) r h
      refine ⟨k + 1, ?_, ?_, e3⟩
      · rw [e1, vrun_succ, paint_cons]
      · rw [e2]; push_cast; ring
    · simp only [Option.some.injEq] at h
      subst h
      exact ⟨0, by simp [vrun, paint_nil], by simp, fun hh => by simp at hh⟩

/-- A column run followed by a list that is connected from wherever the run
    ends is connected from a position next to the start of the run. -/
theorem chain_vrun_append (x0 dir : ℤ) (hd : |dir| ≤ 1) (k : ℕ) :
    ∀ (y0 : ℤ) (q : ℤ × ℤ) (ws : List (ℤ × ℤ)), q.1 = x0 → |y0 - q.2| ≤ 1 →
      (∀ q1 : ℤ × ℤ, q1.1 = x0 → |y0 + k * dir - q1.2| ≤ 1 → List.Chain adjacent q1 ws) →
      List.Chain adjacent q (vrun x0 y0 dir k ++ ws) := by
  induction k with
  | zero =>
    intro y0 q ws h1 h2 hk
    simpa [vrun] using hk q h1 (by simpa using h2)
  | succ k ih =>
    intro y0 q ws h1 h2 hk
    rw [vrun_succ, List.cons_append]
    refine List.Chain.cons ⟨?_, ?_⟩ ?_
    · simp only [h1, sub_self, abs_zero]; norm_num
    · exact h2
    · apply ih (y0 + dir) (x0, y0) ws rfl
      · simpa using hd
      · intro q1 g1 g2
        apply hk q1 g1
        have e : y0 + ((k + 1 : ℕ) : ℤ) * dir = y0 + dir + k * dir := by push_cast; ring
        rw [e]; exact g2

/-- Whatever the walk returns, the positions it stored form a sequence in which
    each position is the same as, or a neighbour of, the one before it. -/
theorem r_line_walk_chain (ifuel : ℕ) (color x1 y1 xdir ydir : ℤ) (errstep : ℚ)
    (hx : |xdir| ≤ 1) (hy : |ydir| ≤ 1) :
    ∀ (fuel : ℕ) (c : Canvas) (x0 y0 : ℤ) (err : ℚ) (c1 : Canvas),
      r_line_walk ifuel fuel c color x0 y0 x1 y1 xdir ydir errstep err = some c1 →
      ∃ ws, c1 = c.paint color ws ∧
        ∀ prev, adjacent prev (x0, y0) → List.Chain adjacent prev ws := by
  intro fuel
  induction fuel with
  | zero =>
    intro c x0 y0 err c1 h
    unfold r_line_walk at h
    split_ifs at h with h1
    simp only [Option.some.injEq] at h
    subst h
    exact ⟨[], rfl, fun _ _ => List.Chain.nil⟩
  | succ n ih =>
    intro c x0 y0 err c1 h
    by_cases h1 : x0 = x1 + xdir
    · unfold r_line_walk at h
      rw [if_pos h1] at h
      simp only [Option.some.injEq] at h
      subst h
      exact ⟨[], rfl, fun _ _ => List.Chain.nil⟩
    · rw [r_line_walk_succ _ _ _ _ _ _ _ _ _ _ _ _ h1] at h
      cases hin : r_line_inner ifuel (c.store x0 y0 color) color x0 y0 y1 ydir (err + errstep) with
      | none => rw [hin] at h; exact absurd h (by simp)
      | some r =>
        obtain ⟨k, e1, e2, -⟩ := r_line_inner_trace color x0 y1 ydir ifuel _ _ _ r hin
        obtain ⟨ci, yi, erri, ret⟩ := r
        simp only at e1 e2
        subst e1 e2
        rw [hin] at h
        cases ret with
        | true =>
          simp only [Option.some.injEq] at h
          subst h
          refine ⟨(x0, y0) :: (vrun x0 y0 ydir k ++ []), ?_, ?_⟩
          · rw [List.append_nil, paint_cons]
          · intro prev hp
            refine List.Chain.cons hp ?_
            exact chain_vrun_append x0 ydir hy k y0 (x0, y0) [] rfl (by simp)
              (fun _ _ _ => List.Chain.nil)
        | false =>
          obtain ⟨ws, e3, hch⟩ := ih _ _ _ _ c1 h
          refine ⟨(x0, y0) :: (vrun x0 y0 ydir k ++ ws), ?_, ?_⟩
          · rw [e3, paint_cons, paint_append]
          · intro prev hp
            refine List.Chain.cons hp ?_
            apply chain_vrun_append x0 ydir hy k y0 (x0, y0) ws rfl (by simp)
            intro q1 g1 g2
            apply hch q1
            refine ⟨?_, g2⟩
            simp only [g1, add_sub_cancel_left]
            exact hx

theorem m_sign_abs_le (d : ℤ) : |m_sign d| ≤ 1 := by
  rcases m_sign_cases d with h | h | h <;> rw [h.2] <;> simp

/-- C18: for every clip rectangle and every segment whose truncated endpoints
    differ in both `x` and `y` and which `r_clip_line` accepts, `r_line` terminates
    and the sequence of positions written by its walk is 8-connected: each
    written position is the same as, or differs by at most 1 in `x` and at most 1
    in `y` from, the one written just before it (exact arithmetic for the error
    accumulator). -/
theorem r_line_walk_connected (area : Rect) (c : Canvas) (color : ℤ) (x0 y0 x1 y1 : ℚ)
    (X0 Y0 X1 Y1 : F)
    (hx : ctrunc x0 + area.l ≠ ctrunc x1 + area.l)
    (hy : ctrunc y0 + area.t ≠ ctrunc y1 + area.t)
    (hc : r_clip_line area (F.ofInt (ctrunc x0 + area.l)) (F.ofInt (ctrunc y0 + area.t))
      (F.ofInt (ctrunc x1 + area.l)) (F.ofInt (ctrunc y1 + area.t)) = some (X0, Y0, X1, Y1)) :
    ∃ N, ∀ fuel, N ≤ fuel → ∃ ws,
      r_line fuel area c color x0 y0 x1 y1 = some (c.paint color ws) ∧
      List.Chain' adjacent ws := by
  obtain ⟨N, hN⟩ := r_line_returns area color x0 y0 x1 y1
  refine ⟨N, fun fuel hf => ?_⟩
  obtain ⟨ws0, e0⟩ := hN fuel hf c
  have e1 := e0
  rw [r_line_walked _ _ _ _ _ _ _ _ _ _ _ _ hx hy hc] at e1
  obtain ⟨ws, e2, hch⟩ := r_line_walk_chain fuel color _ _ _ _ _ (m_sign_abs_le _)
    (m_sign_abs_le _) fuel c _ _ _ _ e1
  refine ⟨ws, by rw [e0, e2], ?_⟩
  have h3 := hch ((X0.add (F.fin (1 / 2))).toInt, (Y0.add (F.fin (1 / 2))).toInt)
    ⟨by simp, by simp⟩
  exact (show List.Chain' adjacent (_ :: ws) from h3).tail

/-- C18 at a concrete input: the line `(-5,3)-(30,12)` in the rectangle
    `(0,0)-(20,20)`, clipped to `(0, 30/7)-(19, 321/35)`. -/
theorem r_line_walk_connected_witness :
    ∃ N, ∀ fuel, N ≤ fuel → ∃ ws,
      r_line fuel ⟨0, 0, 20, 20⟩ ⟨fun _ => 0, []⟩ 7
          ((-5 : ℤ) : ℚ) ((3 : ℤ) : ℚ) ((30 : ℤ) : ℚ) ((12 : ℤ) : ℚ) =
        some (Canvas.paint ⟨fun _ => 0, []⟩ 7 ws) ∧
      List.Chain' adjacent ws :=
  r_line_walk_connected ⟨0, 0, 20, 20⟩ ⟨fun _ => 0, []⟩ 7 ((-5 : ℤ) : ℚ) ((3 : ℤ) : ℚ)
    ((30 : ℤ) : ℚ) ((12 : ℤ) : ℚ) (F.fin 0) (F.fin (30 / 7)) (F.fin 19) (F.fin (321 / 35))
    (by simp only [ctrunc_intCast]; decide) (by simp only [ctrunc_intCast]; decide)
    (by
      simp only [ctrunc_intCast]
      norm_num [r_clip_line, edge, F.sub, F.add, F.neg, F.div, F.mul, F.lt, F.gt, F.isZero,
        F.isFin, F.isNaN, F.isInf, F.val, F.sgn, F.mk, F.zero, F.ofInt, F.inf])

/-! ## The walk reaches both endpoints -/

theorem paint_inj (c : Canvas) (color : ℤ) (ws vs : List (ℤ × ℤ))
    (h : c.paint color ws = c.paint color vs) : ws = vs := by
  have h2 := congrArg Canvas.log h
  rw [paint_log, paint_log] at h2
  exact List.append_cancel_left h2

/-- The walk of `r_line` from a state that is `n >= 1` columns away from the end
    stores the position it starts at and the far endpoint `(x1, y1)`
    (hypotheses as in `r_line_walk_run`). -/
theorem r_line_walk_ends (ifuel : ℕ) (color x1 y1 xdir ydir : ℤ) (A D : ℕ) (errstep : ℚ)
    (hyd : ydir = 0 → errstep = 0) (he0 : 0 ≤ errstep)
    (heA : errstep * A = D) (hif : D + 1 ≤ ifuel) (n : ℕ) :
    ∀ (fuel : ℕ) (c : Canvas) (x0 y0 : ℤ) (err : ℚ) (m : ℕ),
      x0 + n * xdir = x1 + xdir → n ≤ A + 1 → xdir ≠ 0 → y0 + m * ydir = y1 + ydir → m ≤ D + 1 →
      -(1 / 2) ≤ err → err < 1 / 2 →
      err = ((A : ℚ) + 1 - n) * errstep - ((D : ℚ) + 1 - m) → n ≤ fuel →
      ∃ ws, r_line_walk ifuel fuel c color x0 y0 x1 y1 xdir ydir errstep err =
          some (c.paint color ws) ∧
        (1 ≤ n → (x0, y0) ∈ ws ∧ (x1, y1) ∈ ws) := by
  induction n with
  | zero =>
    intro fuel c x0 y0 err m hx _ _ _ _ _ _ _ _
    have h2 : x0 = x1 + xdir := by simpa using hx
    refine ⟨[], ?_, fun h => absurd h (by omega)⟩
    unfold r_line_walk
    rw [if_pos h2, paint_nil]
  | succ n ih =>
    intro fuel c x0 y0 err m hx hn hxd hy hm hlo hhi herr hf
    have h2 : x0 ≠ x1 + xdir := by
      intro e
      rw [e] at hx
      have : ((n : ℤ) + 1) * xdir = 0 := by push_cast at hx; linarith
      rcases mul_eq_zero.1 this with h3 | h3
      · omega
      · exact hxd h3
    have h3 : 0 ≤ (n : ℚ) * errstep := mul_nonneg (Nat.cast_nonneg n) he0
    push_cast at herr
    have hm1 : 1 ≤ m := by
      have h4 : (1 : ℚ) / 2 ≤ m := by nlinarith
      have h5 : (0 : ℚ) < m := by linarith
      exact_mod_cast h5
    have hlast : n = 0 → (x1, y1) = (x0, y0) := by
      intro hn0
      subst hn0
      simp only [Nat.cast_zero, zero_mul, zero_add, Nat.cast_one, one_mul] at hx herr h3
      have h6 : (m : ℚ) < 2 := by nlinarith
      have h7 : m < 2 := by exact_mod_cast h6
      have h8 : m = 1 := by omega
      subst h8
      simp only [Nat.cast_one, one_mul] at hy
      rw [Prod.mk.injEq]
      constructor <;> omega
    obtain ⟨f, rfl⟩ : ∃ f, fuel = f + 1 := ⟨fuel - 1, by omega⟩
    obtain ⟨k, ret, hk, hrun, hfalse, htrue⟩ :=
      r_line_inner_run color x0 y1 ydir m ifuel (c.store x0 y0 color) y0 (err + errstep)
        (fun e => by rw [hyd e]; linarith) hy (by omega)
    obtain ⟨-, -, -, hret⟩ := r_line_inner_trace color x0 y1 ydir ifuel _ _ _ _ hrun
    simp only at hret
    rw [r_line_walk_succ _ _ _ _ _ _ _ _ _ _ _ _ h2, hrun]
    cases ret with
    | true =>
      have hkm := htrue rfl
      have hge := hret rfl
      have hn0 : n = 0 := by
        by_contra hne
        have h9 : (1 : ℚ) ≤ n := by
          have : 1 ≤ n := by omega
          exact_mod_cast this
        rw [hkm] at hge
        nlinarith
      refine ⟨(x0, y0) :: vrun x0 y0 ydir k, by rw [paint_cons], fun _ => ?_⟩
      rw [hlast hn0]
      exact ⟨List.mem_cons_self _ _, List.mem_cons_self _ _⟩
    | false =>
      obtain ⟨e1, e2⟩ := hfalse rfl
      obtain ⟨m2, hm2⟩ : ∃ m2, m2 + k = m := ⟨m - k, by omega⟩
      have hm3 : (m : ℤ) = m2 + k := by exact_mod_cast hm2.symm
      have hm4 : (m : ℚ) = m2 + k := by exact_mod_cast hm2.symm
      obtain ⟨ws, hws, hpos⟩ := ih f ((c.store x0 y0 color).paint color (vrun x0 y0 ydir k))
        (x0 + xdir) (y0 + k * ydir) (err + errstep - k) m2
        (by push_cast at hx; linarith) (by omega) hxd (by rw [hm3] at hy; linarith) (by omega)
        (by
          rcases e2 with e2 | e2
          · subst e2; norm_num; linarith
          · exact e2)
        e1 (by rw [herr, hm4]; ring) (by omega)
      refine ⟨(x0, y0) :: (vrun x0 y0 ydir k ++ ws), ?_, fun _ => ⟨List.mem_cons_self _ _, ?_⟩⟩
      · show r_line_walk ifuel f _ color (x0 + xdir) (y0 + k * ydir) x1 y1 xdir ydir errstep
          (err + errstep - k) = _
        rw [hws, paint_cons, paint_append]
      · by_cases hn0 : n = 0
        · rw [hlast hn0]; exact List.mem_cons_self _ _
        · exact List.mem_cons_of_mem _ (List.mem_append_right _ (hpos (by omega)).2)

theorem round_int (X : ℤ) (h : 0 ≤ X) :
    ((F.fin (X : ℚ)).add (F.fin (1 / 2))).toInt = X := by
  rw [F.add_fin_left _ _ (F.isFin_fin _)]
  have hX : (0 : ℚ) ≤ X := by exact_mod_cast h
  have hv : (0 : ℚ) ≤ (X : ℚ) + 1 / 2 := by linarith
  simp only [F.toInt, F.val_fin, ctrunc, if_pos hv]
  rw [Int.floor_eq_iff]
  constructor <;> linarith

theorem r_line_walk_init_ends (fuel : ℕ) (c : Canvas) (color x0 y0 x1 y1 : ℤ)
    (hdx : x1 - x0 ≠ 0) (hf : (x1 - x0).natAbs + (y1 - y0).natAbs + 2 ≤ fuel) :
    ∃ ws, r_line_walk fuel fuel c color x0 y0 x1 y1 (m_sign (x1 - x0)) (m_sign (y1 - y0))
        (m_abs (((y1 - y0 : ℤ) : ℚ) / ((x1 - x0 : ℤ) : ℚ))) 0 = some (c.paint color ws) ∧
      (x0, y0) ∈ ws ∧ (x1, y1) ∈ ws ∧
      ∀ p ∈ ws, min x0 x1 ≤ p.1 ∧ p.1 ≤ max x0 x1 ∧ min y0 y1 ≤ p.2 ∧ p.2 ≤ max y0 y1 := by
  obtain ⟨w1, w2, w3, w4, w5, w6⟩ := walk_start x0 y0 x1 y1 hdx
  obtain ⟨ws, hws, hends⟩ := r_line_walk_ends fuel color x1 y1 (m_sign (x1 - x0))
    (m_sign (y1 - y0)) (x1 - x0).natAbs (y1 - y0).natAbs
    (m_abs (((y1 - y0 : ℤ) : ℚ) / ((x1 - x0 : ℤ) : ℚ))) w1 w2 w3 (by omega)
    ((x1 - x0).natAbs + 1) fuel c x0 y0 0 ((y1 - y0).natAbs + 1)
    w4 (le_refl _) w5 w6 (le_refl _) (by norm_num) (by norm_num) (by push_cast; ring) (by omega)
  obtain ⟨vs, hvs, hb⟩ := r_line_walk_init fuel c color x0 y0 x1 y1 hf
  have e : vs = ws := paint_inj c color vs ws (by
    have := hvs.symm.trans hws
    exact Option.some.inj this)
  subst e
  exact ⟨vs, hws, (hends (by omega)).1, (hends (by omega)).2, hb⟩

/-- C19: for a clip rectangle with `0 <= l < r <= W` and `0 <= t < b <= H` and a
    segment with integer area-local endpoints `(x0, y0)`, `(x1, y1)` that both lie
    inside the rectangle and differ in both `x` and `y`, `r_line` terminates, writes
    both endpoint positions `(x0 + l, y0 + t)` and `(x1 + l, y1 + t)`, whose
    indices then hold the colour, and writes no position outside the box spanned
    by the two endpoints (exact arithmetic for the error accumulator). -/
theorem r_line_hits_endpoints (area : Rect) (c : Canvas) (color x0 y0 x1 y1 : ℤ)
    (hl : 0 ≤ area.l) (_hlr : area.l < area.r) (_hrW : area.r ≤ W)
    (ht : 0 ≤ area.t) (_htb : area.t < area.b) (_hbH : area.b ≤ H)
    (hx0 : 0 ≤ x0 ∧ x0 + area.l < area.r) (hy0 : 0 ≤ y0 ∧ y0 + area.t < area.b)
    (hx1 : 0 ≤ x1 ∧ x1 + area.l < area.r) (hy1 : 0 ≤ y1 ∧ y1 + area.t < area.b)
    (hx : x0 ≠ x1) (hy : y0 ≠ y1) :
    ∃ N, ∀ fuel, N ≤ fuel → ∃ ws,
      r_line fuel area c color x0 y0 x1 y1 = some (c.paint color ws) ∧
      (x0 + area.l, y0 + area.t) ∈ ws ∧ (x1 + area.l, y1 + area.t) ∈ ws ∧
      (c.paint color ws).pix ((y0 + area.t) * W + (x0 + area.l)) = color ∧
      (c.paint color ws).pix ((y1 + area.t) * W + (x1 + area.l)) = color ∧
      ∀ p ∈ ws, min (x0 + area.l) (x1 + area.l) ≤ p.1 ∧ p.1 ≤ max (x0 + area.l) (x1 + area.l) ∧
        min (y0 + area.t) (y1 + area.t) ≤ p.2 ∧ p.2 ≤ max (y0 + area.t) (y1 + area.t) := by
  have hxa : ctrunc (x0 : ℚ) + area.l ≠ ctrunc (x1 : ℚ) + area.l := by
    rw [ctrunc_intCast, ctrunc_intCast]; omega
  have hya : ctrunc (y0 : ℚ) + area.t ≠ ctrunc (y1 : ℚ) + area.t := by
    rw [ctrunc_intCast, ctrunc_intCast]; omega
  have hc : r_clip_line area (F.ofInt (ctrunc (x0 : ℚ) + area.l))
      (F.ofInt (ctrunc (y0 : ℚ) + area.t)) (F.ofInt (ctrunc (x1 : ℚ) + area.l))
      (F.ofInt (ctrunc (y1 : ℚ) + area.t)) =
      some (F.fin ((x0 + area.l : ℤ) : ℚ), F.fin ((y0 + area.t : ℤ) : ℚ),
        F.fin ((x1 + area.l : ℤ) : ℚ), F.fin ((y1 + area.t : ℤ) : ℚ)) := by
    simp only [ctrunc_intCast, F.ofInt]
    apply r_clip_line_inside
    · exact fun e => hx (by have : x0 + area.l = x1 + area.l := by exact_mod_cast e
                            omega)
    · exact fun e => hy (by have : y0 + area.t = y1 + area.t := by exact_mod_cast e
                            omega)
    · exact ⟨Int.cast_le.2 (by omega), Int.cast_le.2 (by omega)⟩
    · exact ⟨Int.cast_le.2 (by omega), Int.cast_le.2 (by omega)⟩
    · exact ⟨Int.cast_le.2 (by omega), Int.cast_le.2 (by omega)⟩
    · exact ⟨Int.cast_le.2 (by omega), Int.cast_le.2 (by omega)⟩
  refine ⟨((x1 + area.l) - (x0 + area.l)).natAbs + ((y1 + area.t) - (y0 + area.t)).natAbs + 2,
    fun fuel hf => ?_⟩
  obtain ⟨ws, hws, m0, m1, hb⟩ := r_line_walk_init_ends fuel c color (x0 + area.l)
    (y0 + area.t) (x1 + area.l) (y1 + area.t) (by omega) hf
  refine ⟨ws, ?_, m0, m1, ?_, ?_, hb⟩
  · rw [r_line_walked _ _ _ _ _ _ _ _ _ _ _ _ hxa hya hc, round_int _ (by omega),
      round_int _ (by omega), round_int _ (by omega), round_int _ (by omega)]
    exact hws
  · rw [paint_pix, if_pos ⟨_, m0, rfl⟩]
  · rw [paint_pix, if_pos ⟨_, m1, rfl⟩]

/-- C19 at a concrete input: the segment `(2,1)-(5,18)` in the rectangle
    `(3,4)-(20,30)`. -/
theorem r_line_hits_endpoints_witness :
    ∃ N, ∀ fuel, N ≤ fuel → ∃ ws,
      r_line fuel ⟨3, 4, 20, 30⟩ ⟨fun _ => 0, []⟩ 7
          ((2 : ℤ) : ℚ) ((1 : ℤ) : ℚ) ((5 : ℤ) : ℚ) ((18 : ℤ) : ℚ) =
        some (Canvas.paint ⟨fun _ => 0, []⟩ 7 ws) ∧
      (2 + 3, 1 + 4) ∈ ws ∧ (5 + 3, 18 + 4) ∈ ws ∧
      (Canvas.paint ⟨fun _ => 0, []⟩ 7 ws).pix ((1 + 4) * W + (2 + 3)) = 7 ∧
      (Canvas.paint ⟨fun _ => 0, []⟩ 7 ws).pix ((18 + 4) * W + (5 + 3)) = 7 ∧
      ∀ p ∈ ws, min (2 + 3) (5 + 3) ≤ p.1 ∧ p.1 ≤ max (2 + 3) (5 + 3) ∧
        min (1 + 4) (18 + 4) ≤ p.2 ∧ p.2 ≤ max (1 + 4) (18 + 4) :=
  r_line_hits_endpoints ⟨3, 4, 20, 30⟩ ⟨fun _ => 0, []⟩ 7 2 1 5 18
    (by decide) (by decide) (by decide) (by decide) (by decide) (by decide)
    (by decide) (by decide) (by decide) (by decide) (by decide) (by decide)

/-! ## Rounding to a binary format -/

theorem rne_intCast (n : ℤ) : rne (n : ℚ) = n := by
  simp [rne]

theorem rne_eq (q : ℚ) (m : ℤ)
    (h : (-(1 / 2) < q - m ∧ q - m < 1 / 2) ∨
      ((q - m = 1 / 2 ∨ m - q = 1 / 2) ∧ m % 2 = 0)) : rne q = m := by
  have hf1 : ((⌊q⌋ : ℤ) : ℚ) ≤ q := Int.floor_le q
  have hf2 : q < (⌊q⌋ : ℤ) + 1 := Int.lt_floor_add_one q
  have hd : Int.fract q = q - (⌊q⌋ : ℤ) := rfl
  unfold rne
  rw [hd]
  rcases h with h1 | ⟨e | e, hev⟩
  · split_ifs with a b c
    · have u1 : ⌊q⌋ < m + 1 := by exact_mod_cast (show ((⌊q⌋ : ℤ) : ℚ) < m + 1 by linarith)
      have u2 : m < ⌊q⌋ + 1 := by
        exact_mod_cast (show (m : ℚ) < (⌊q⌋ : ℤ) + 1 by linarith [h1.1])
      omega
    · have u1 : ⌊q⌋ < m := by exact_mod_cast (show ((⌊q⌋ : ℤ) : ℚ) < m by linarith [h1.2])
      have u2 : m < ⌊q⌋ + 2 := by
        exact_mod_cast (show (m : ℚ) < (⌊q⌋ : ℤ) + 2 by linarith [h1.1])
      omega
    · exfalso
      have e : q = (⌊q⌋ : ℤ) + 1 / 2 := by linarith [not_lt.1 a, not_lt.1 b]
      have u1 : ⌊q⌋ < m := by
        exact_mod_cast (show ((⌊q⌋ : ℤ) : ℚ) < m by linarith [h1.2])
      have u2 : m < ⌊q⌋ + 1 := by
        exact_mod_cast (show (m : ℚ) < (⌊q⌋ : ℤ) + 1 by linarith [h1.1])
      omega
    · exfalso
      have e : q = (⌊q⌋ : ℤ) + 1 / 2 := by linarith [not_lt.1 a, not_lt.1 b]
      have u1 : ⌊q⌋ < m := by
        exact_mod_cast (show ((⌊q⌋ : ℤ) : ℚ) < m by linarith [h1.2])
      have u2 : m < ⌊q⌋ + 1 := by
        exact_mod_cast (show (m : ℚ) < (⌊q⌋ : ℤ) + 1 by linarith [h1.1])
      omega
  · have u : ⌊q⌋ = m := by
      have u1 : ⌊q⌋ < m + 1 := by
        exact_mod_cast (show ((⌊q⌋ : ℤ) : ℚ) < m + 1 by linarith)
      have u2 : m < ⌊q⌋ + 1 := by
        exact_mod_cast (show (m : ℚ) < (⌊q⌋ : ℤ) + 1 by linarith)
      omega
    rw [u, e]
    norm_num [hev]
  · have u : ⌊q⌋ = m - 1 := by
      have u1 : ⌊q⌋ < m := by
        exact_mod_cast (show ((⌊q⌋ : ℤ) : ℚ) < m by linarith)
      have u2 : m < ⌊q⌋ + 2 := by
        exact_mod_cast (show (m : ℚ) < (⌊q⌋ : ℤ) + 2 by linarith)
      omega
    rw [u]
    have e2 : q - ((m - 1 : ℤ) : ℚ) = 1 / 2 := by push_cast; linarith
    rw [e2]
    have hodd : (m - 1) % 2 ≠ 0 := by omega
    norm_num [hodd]

theorem log_le_of_lt_zpow (q : ℚ) (hq : q ≠ 0) (x : ℤ) (h : |q| < (2 : ℚ) ^ x) :
    Int.log 2 |q| < x := by
  have := (Int.lt_zpow_iff_log_lt (R := ℚ) (b := 2) (by norm_num) (abs_pos.2 hq) (x := x)).1
  exact this (by simpa using h)

theorem le_log_of_zpow_le (q : ℚ) (hq : q ≠ 0) (x : ℤ) (h : (2 : ℚ) ^ x ≤ |q|) :
    x ≤ Int.log 2 |q| := by
  have := (Int.zpow_le_iff_le_log (R := ℚ) (b := 2) (by norm_num) (abs_pos.2 hq) (x := x)).1
  exact this (by simpa using h)

/-- Rounding, from the exponent `e` of the last place and the significand `m`. -/
theorem Fmt.round_eq (f : Fmt) (q : ℚ) (m e : ℤ) (he : f.emin ≤ e)
    (hlo : e = f.emin ∨ (2 : ℚ) ^ (f.prec - 1 + e) ≤ |q|)
    (hhi : |q| < (2 : ℚ) ^ (f.prec + e))
    (hm : rne (q / 2 ^ e) = m) (hm0 : m ≠ 0)
    (hov : |(m : ℚ) * 2 ^ e| < (2 : ℚ) ^ f.emax) :
    f.round q = F.fin (m * 2 ^ e) := by
  have hq : q ≠ 0 := by
    rintro rfl
    apply hm0
    rw [← hm]
    simp [rne]
  have h1 : Int.log 2 |q| < f.prec + e := log_le_of_lt_zpow q hq _ hhi
  have he2 : max (Int.log 2 |q| - (f.prec - 1)) f.emin = e := by
    rcases hlo with h | h
    · rw [h]
      apply max_eq_right
      omega
    · have h2 := le_log_of_zpow_le q hq _ h
      rw [max_eq_left (by omega)]
      omega
  have hp : (2 : ℚ) ^ e ≠ 0 := zpow_ne_zero _ (by norm_num)
  have hr : (m : ℚ) * 2 ^ e ≠ 0 := mul_ne_zero (by exact_mod_cast hm0) hp
  simp only [Fmt.round, if_neg hq, he2, hm, if_neg hr, if_neg (not_le.2 hov)]

/-- A value of the format rounds to itself. -/
theorem Fmt.round_exact (f : Fmt) (q : ℚ) (m e : ℤ) (hq : q = m * 2 ^ e)
    (hm : |(m : ℚ)| < (2 : ℚ) ^ f.prec) (he : f.emin ≤ e)
    (hov : |q| < (2 : ℚ) ^ f.emax) : f.round q = F.fin q := by
  by_cases hq0 : q = 0
  · simp [Fmt.round, hq0]
  have hp : (2 : ℚ) ^ e ≠ 0 := zpow_ne_zero _ (by norm_num)
  have h2 : (0 : ℚ) < 2 ^ e := zpow_pos (by norm_num) _
  have hhi : |q| < (2 : ℚ) ^ (f.prec + e) := by
    rw [hq, abs_mul, abs_of_pos h2, zpow_add₀ (by norm_num)]
    exact mul_lt_mul_of_pos_right hm h2
  have h1 : Int.log 2 |q| < f.prec + e := log_le_of_lt_zpow q hq0 _ hhi
  have hle : max (Int.log 2 |q| - (f.prec - 1)) f.emin ≤ e := max_le (by omega) he
  simp only [Fmt.round, if_neg hq0]
  generalize max (Int.log 2 |q| - (f.prec - 1)) f.emin = E at hle
  obtain ⟨k, hk⟩ : ∃ k : ℕ, e = E + k := ⟨(e - E).toNat, by omega⟩
  have hp2 : (2 : ℚ) ^ E ≠ 0 := zpow_ne_zero _ (by norm_num)
  have hdiv : q / 2 ^ E = ((m * 2 ^ k : ℤ) : ℚ) := by
    rw [div_eq_iff hp2, hq, hk, zpow_add₀ (by norm_num), zpow_natCast]
    push_cast
    ring
  have hr : ((m * 2 ^ k : ℤ) : ℚ) * 2 ^ E = q := by
    rw [← hdiv]
    exact div_mul_cancel₀ _ hp2
  simp only [hdiv, rne_intCast, hr, if_neg hq0, if_neg (not_le.2 hov)]

/-- An integer below `2 ^ 24` in magnitude is a `float`. -/
theorem round32_int (n : ℤ) (h : |n| < 2 ^ 24) : binary32.round n = F.fin n := by
  have h1 : |(n : ℚ)| < ((2 ^ 24 : ℤ) : ℚ) := by exact_mod_cast h
  refine Fmt.round_exact binary32 n n 0 (by simp) ?_ (by simp [binary32]) ?_
  · have e : (2 : ℚ) ^ binary32.prec = ((2 ^ 24 : ℤ) : ℚ) := by norm_num [binary32]
    rw [e]
    exact h1
  · have e : ((2 ^ 24 : ℤ) : ℚ) < (2 : ℚ) ^ binary32.emax := by norm_num [binary32]
    exact h1.trans e

/-- Rounding to `float`, from the exponent `e` of the last place and the
    significand `m` of the result `r`. -/
theorem round32_eq (q r : ℚ) (m e : ℤ) (hr : r = m * 2 ^ e) (he : -149 ≤ e)
    (hlo : e = -149 ∨ (2 : ℚ) ^ (23 + e) ≤ |q|) (hhi : |q| < (2 : ℚ) ^ (24 + e))
    (hm : (-(1 / 2) < q / 2 ^ e - m ∧ q / 2 ^ e - m < 1 / 2) ∨
      ((q / 2 ^ e - m = 1 / 2 ∨ m - q / 2 ^ e = 1 / 2) ∧ m % 2 = 0))
    (hm0 : m ≠ 0) (hov : |r| < (2 : ℚ) ^ (128 : ℤ)) :
    binary32.round q = F.fin r := by
  rw [hr]
  exact Fmt.round_eq binary32 q m e he hlo hhi (rne_eq _ _ hm) hm0 (by rw [← hr]; exact hov)

/-- Rounding to `double`, from the exponent `e` of the last place and the
    significand `m` of the result `r`. -/
theorem round64_eq (q r : ℚ) (m e : ℤ) (hr : r = m * 2 ^ e) (he : -1074 ≤ e)
    (hlo : e = -1074 ∨ (2 : ℚ) ^ (52 + e) ≤ |q|) (hhi : |q| < (2 : ℚ) ^ (53 + e))
    (hm : (-(1 / 2) < q / 2 ^ e - m ∧ q / 2 ^ e - m < 1 / 2) ∨
      ((q / 2 ^ e - m = 1 / 2 ∨ m - q / 2 ^ e = 1 / 2) ∧ m % 2 = 0))
    (hm0 : m ≠ 0) (hov : |r| < (2 : ℚ) ^ (1024 : ℤ)) :
    binary64.round q = F.fin r := by
  rw [hr]
  exact Fmt.round_eq binary64 q m e he hlo hhi (rne_eq _ _ hm) hm0 (by rw [← hr]; exact hov)

/-- A multiple `m * 2 ^ e` of a power of two with `|m| < 2 ^ 24` is a `float`. -/
theorem round32_exact (q : ℚ) (m e : ℤ) (hq : q = m * 2 ^ e) (hm : |m| < 2 ^ 24)
    (he : -149 ≤ e) (hov : |q| < (2 : ℚ) ^ (128 : ℤ)) : binary32.round q = F.fin q := by
  refine Fmt.round_exact binary32 q m e hq ?_ he hov
  have h1 : |(m : ℚ)| < ((2 ^ 24 : ℤ) : ℚ) := by exact_mod_cast hm
  have e : (2 : ℚ) ^ binary32.prec = ((2 ^ 24 : ℤ) : ℚ) := by norm_num [binary32]
  rw [e]
  exact h1

/-- A multiple `m * 2 ^ e` of a power of two with `|m| < 2 ^ 53` is a `double`. -/
theorem round64_exact (q : ℚ) (m e : ℤ) (hq : q = m * 2 ^ e) (hm : |m| < 2 ^ 53)
    (he : -1074 ≤ e) (hov : |q| < (2 : ℚ) ^ (1024 : ℤ)) : binary64.round q = F.fin q := by
  refine Fmt.round_exact binary64 q m e hq ?_ he hov
  have h1 : |(m : ℚ)| < ((2 ^ 53 : ℤ) : ℚ) := by exact_mod_cast hm
  have e : (2 : ℚ) ^ binary64.prec = ((2 ^ 53 : ℤ) : ℚ) := by norm_num [binary64]
  rw [e]
  exact h1

/-- Overflow: a value whose rounded magnitude reaches `2 ^ emax` is an infinity. -/
theorem Fmt.round_overflow (f : Fmt) (q : ℚ) (m e : ℤ) (he : f.emin ≤ e)
    (hlo : e = f.emin ∨ (2 : ℚ) ^ (f.prec - 1 + e) ≤ |q|)
    (hhi : |q| < (2 : ℚ) ^ (f.prec + e))
    (hm : rne (q / 2 ^ e) = m) (hm0 : m ≠ 0)
    (hov : (2 : ℚ) ^ f.emax ≤ |(m : ℚ) * 2 ^ e|) :
    f.round q = F.inf (decide (q < 0)) := by
  have hq : q ≠ 0 := by
    rintro rfl
    apply hm0
    rw [← hm]
    simp [rne]
  have h1 : Int.log 2 |q| < f.prec + e := log_le_of_lt_zpow q hq _ hhi
  have he2 : max (Int.log 2 |q| - (f.prec - 1)) f.emin = e := by
    rcases hlo with h | h
    · rw [h]
      apply max_eq_right
      omega
    · have h2 := le_log_of_zpow_le q hq _ h
      rw [max_eq_left (by omega)]
      omega
  have hp : (2 : ℚ) ^ e ≠ 0 := zpow_ne_zero _ (by norm_num)
  have hr : (m : ℚ) * 2 ^ e ≠ 0 := mul_ne_zero (by exact_mod_cast hm0) hp
  simp only [Fmt.round, if_neg hq, he2, hm, if_neg hr, if_pos hov]

theorem round_zero (f : Fmt) : f.round 0 = F.fin 0 := by simp [Fmt.round]

/-! ## The operations of binary32 on finite values -/

theorem B32.fsub_fin (a b : ℚ) : B32.fsub (F.fin a) (F.fin b) = binary32.round (a - b) := by
  rw [B32.fsub, F.sub_fin_fin]; rfl

theorem B32.fadd_fin (a b : ℚ) : B32.fadd (F.fin a) (F.fin b) = binary32.round (a + b) := by
  rw [B32.fadd, F.add_fin_left _ _ (F.isFin_fin _)]; rfl

theorem B32.fadd_fin_nzero (a : ℚ) : B32.fadd (F.fin a) F.nzero = binary32.round a := by
  rw [B32.fadd, F.add_fin_left a F.nzero rfl]; simp [F.val, F.rnd]

theorem B32.fmul_fin (a b : ℚ) :
    B32.fmul (F.fin a) (F.fin b) =
      if a * b = 0 then F.zero (decide (a < 0) != decide (b < 0))
      else binary32.round (a * b) := by
  by_cases h : a * b = 0
  · rw [if_pos h]
    simp only [B32.fmul, F.mul, F.isNaN, F.isInf, F.mk, F.val, F.sgn, h]
    simp only [Bool.or_self, Bool.false_eq_true, if_false, if_true]
    cases decide (a < 0) != decide (b < 0) <;> simp [F.zero, F.rnd, Fmt.round]
  · rw [if_neg h]
    simp [B32.fmul, F.mul, F.isNaN, F.isInf, F.mk, F.val, h, F.rnd]

theorem B32.fdiv_fin (a b : ℚ) (hb : b ≠ 0) :
    B32.fdiv (F.fin a) (F.fin b) =
      if a = 0 then F.zero (decide (b < 0)) else binary32.round (a / b) := by
  by_cases h : a = 0
  · rw [if_pos h]
    subst h
    simp only [B32.fdiv, F.div, F.isNaN, F.isInf, F.isZero, F.isFin, F.mk, F.val, F.sgn, hb]
    simp only [Bool.or_self, Bool.false_eq_true, if_false, zero_div, if_true, lt_self_iff_false,
      decide_False, Bool.not_false, Bool.and_self, Bool.true_and, decide_eq_true_eq, hb]
    cases decide (b < 0) <;> simp [F.zero, F.rnd, Fmt.round]
  · rw [if_neg h]
    simp [B32.fdiv, F.div, F.isNaN, F.isInf, F.isZero, F.isFin, F.mk, F.val, h, hb, F.rnd]

theorem B32.ofInt_eq (n : ℤ) : B32.ofInt n = binary32.round n := rfl

theorem F.lt_fin (a b : ℚ) : (F.fin a).lt (F.fin b) = decide (a < b) := rfl

theorem F.gt_fin (a b : ℚ) : (F.fin a).gt (F.fin b) = decide (b < a) := rfl

theorem F.beq_fin (a b : ℚ) : (F.fin a).beq (F.fin b) = decide (a = b) := rfl

theorem F.ge_fin (a b : ℚ) : (F.fin a).ge (F.fin b) = decide (b ≤ a) := by
  simp only [F.ge, F.le, F.lt_fin, F.beq_fin]
  by_cases h : b ≤ a
  · rcases h.lt_or_eq with h1 | h1 <;> simp [h1, h]
  · simp [h, not_le.1 h |>.not_lt, (not_le.1 h).ne']

theorem F.isZero_fin (a : ℚ) : (F.fin a).isZero = decide (a = 0) := rfl

theorem B32.fsub_nan (y : F) : B32.fsub F.nan y = F.nan := by
  simp [B32.fsub, F.sub, F.add, F.isNaN, F.rnd]

theorem B32.fmul_nan (y : F) : B32.fmul F.nan y = F.nan := by
  simp [B32.fmul, F.mul, F.isNaN, F.rnd]

theorem B32.fdiv_nan (y : F) : B32.fdiv F.nan y = F.nan := by
  simp [B32.fdiv, F.div, F.isNaN, F.rnd]

/-- When the cross product of the first segment's endpoints is NaN, `intersect`
    returns `(NaN, NaN)`. -/
theorem B32.intersect_nan (rx0 ry0 rx1 ry1 sx0 sy0 sx1 sy1 : F)
    (h : B32.cross rx0 ry0 rx1 ry1 = F.nan) :
    B32.intersect rx0 ry0 rx1 ry1 sx0 sy0 sx1 sy1 = (F.nan, F.nan) := by
  simp only [B32.intersect, h]
  simp only [B32.cross, B32.fmul_nan, B32.fsub_nan, B32.fdiv_nan]

theorem B32.ofInt_small (n : ℤ) (h : |n| < 2 ^ 24) : B32.ofInt n = F.fin n := round32_int n h

theorem B32.dadd_fin (a b : ℚ) : B32.dadd (F.fin a) (F.fin b) = binary64.round (a + b) := by
  rw [B32.dadd, F.add_fin_left _ _ (F.isFin_fin _)]; rfl

theorem B32.dsub_fin (a b : ℚ) : B32.dsub (F.fin a) (F.fin b) = binary64.round (a - b) := by
  rw [B32.dsub, F.sub_fin_fin]; rfl

theorem B32.dmul_fin (a b : ℚ) (h : a * b ≠ 0) :
    B32.dmul (F.fin a) (F.fin b) = binary64.round (a * b) := by
  simp [B32.dmul, F.mul, F.isNaN, F.isInf, F.mk, F.val, h, F.rnd]

/-! ## Line clipping in binary32 -/

/-- C2 as stated fails in binary32: the segment `(-60,-30)-(9,11)` against the
    rectangle `(0,0)-(20,20)` is accepted and its first endpoint is rewritten to
    `x0 = -2^-18`, left of `l = 0`: `t0` is `20/23` rounded, `t0 * dx` is
    `59.999996...` and `-60 + t0 * dx` is negative. -/
theorem r_clip_line_rounding_left :
    B32.r_clip_line ⟨0, 0, 20, 20⟩ (F.fin (-60)) (F.fin (-30)) (F.fin 9) (F.fin 11) =
      some (F.fin (-(1 / 262144)), F.fin (1481683 / 262144), F.fin 9, F.fin 11) ∧
    (-(1 / 262144) : ℚ) < (((⟨0, 0, 20, 20⟩ : Rect).l : ℤ) : ℚ) := by
  have i1 : ∀ n : ℤ, |n| < 2 ^ 24 → binary32.round (n : ℚ) = F.fin n := round32_int
  have h1 : binary32.round (69 : ℚ) = F.fin 69 := by simpa using i1 69 (by norm_num)
  have h2 : binary32.round (41 : ℚ) = F.fin 41 := by simpa using i1 41 (by norm_num)
  have h3 : binary32.round (-60 : ℚ) = F.fin (-60) := by simpa using i1 (-60) (by norm_num)
  have h4 : binary32.round (-30 : ℚ) = F.fin (-30) := by simpa using i1 (-30) (by norm_num)
  have h5 : binary32.round (19 : ℚ) = F.fin 19 := by simpa using i1 19 (by norm_num)
  have h6 : binary32.round (79 : ℚ) = F.fin 79 := by simpa using i1 79 (by norm_num)
  have h7 : binary32.round (49 : ℚ) = F.fin 49 := by simpa using i1 49 (by norm_num)
  have h8 : binary32.round (9 : ℚ) = F.fin 9 := by simpa using i1 9 (by norm_num)
  have h9 : binary32.round (11 : ℚ) = F.fin 11 := by simpa using i1 11 (by norm_num)
  have r1 : binary32.round (20 / 23 : ℚ) = F.fin (14588883 / 16777216) :=
    round32_eq _ _ 14588883 (-24) (by norm_num) (by norm_num)
      (by right; norm_num [le_abs]) (by norm_num [abs_lt]) (by left; norm_num)
      (by norm_num) (by norm_num [abs_lt])
  have r2 : binary32.round (79 / 69 : ℚ) = F.fin (2401087 / 2097152) :=
    round32_eq _ _ 9604348 (-23) (by norm_num) (by norm_num)
      (by right; norm_num [le_abs]) (by norm_num [abs_lt]) (by left; norm_num)
      (by norm_num) (by norm_num [abs_lt])
  have r3 : binary32.round (30 / 41 : ℚ) = F.fin (3069003 / 4194304) :=
    round32_eq _ _ 12276012 (-24) (by norm_num) (by norm_num)
      (by right; norm_num [le_abs]) (by norm_num [abs_lt]) (by left; norm_num)
      (by norm_num) (by norm_num [abs_lt])
  have r4 : binary32.round (49 / 41 : ℚ) = F.fin (5012705 / 4194304) :=
    round32_eq _ _ 10025410 (-23) (by norm_num) (by norm_num)
      (by right; norm_num [le_abs]) (by norm_num [abs_lt]) (by left; norm_num)
      (by norm_num) (by norm_num [abs_lt])
  have r5 : binary32.round (1006632927 / 16777216 : ℚ) = F.fin (15728639 / 262144) :=
    round32_eq _ _ 15728639 (-18) (by norm_num) (by norm_num)
      (by right; norm_num [le_abs]) (by norm_num [abs_lt]) (by left; norm_num)
      (by norm_num) (by norm_num [abs_lt])
  have r6 : binary32.round (598144203 / 16777216 : ℚ) = F.fin (9346003 / 262144) :=
    round32_eq _ _ 9346003 (-18) (by norm_num) (by norm_num)
      (by right; norm_num [le_abs]) (by norm_num [abs_lt]) (by left; norm_num)
      (by norm_num) (by norm_num [abs_lt])
  have x1 : binary32.round (-(1 / 262144) : ℚ) = F.fin (-(1 / 262144)) :=
    round32_exact _ (-1) (-18) (by norm_num) (by norm_num) (by norm_num) (by norm_num [abs_lt])
  have x2 : binary32.round (1481683 / 262144 : ℚ) = F.fin (1481683 / 262144) :=
    round32_exact _ 1481683 (-18) (by norm_num) (by norm_num) (by norm_num)
      (by norm_num [abs_lt])
  have dx : B32.fsub (F.fin 9) (F.fin (-60)) = F.fin 69 := by
    norm_num [B32.fsub_fin, h1]
  have dy : B32.fsub (F.fin 11) (F.fin (-30)) = F.fin 41 := by
    norm_num [B32.fsub_fin, h2]
  have q1 : B32.fsub (F.fin (-60)) (B32.ofInt 0) = F.fin (-60) := by
    norm_num [B32.fsub_fin, B32.ofInt_eq, round_zero, h3]
  have q2 : B32.fsub (B32.ofInt (20 - 1)) (F.fin (-60)) = F.fin 79 := by
    norm_num [B32.fsub_fin, B32.ofInt_eq, h5, h6]
  have q3 : B32.fsub (F.fin (-30)) (B32.ofInt 0) = F.fin (-30) := by
    norm_num [B32.fsub_fin, B32.ofInt_eq, round_zero, h4]
  have q4 : B32.fsub (B32.ofInt (20 - 1)) (F.fin (-30)) = F.fin 49 := by
    norm_num [B32.fsub_fin, B32.ofInt_eq, h5, h7]
  have e1 : B32.edge (F.fin 69).neg (F.fin (-60)) (F.fin 0, F.fin 1) =
      some (F.fin (14588883 / 16777216), F.fin 1) := by
    norm_num [B32.edge, B32.fdiv_fin, F.neg, F.lt_fin, F.gt_fin, F.isZero_fin, r1]
  have e2 : B32.edge (F.fin 69) (F.fin 79) (F.fin (14588883 / 16777216), F.fin 1) =
      some (F.fin (14588883 / 16777216), F.fin 1) := by
    norm_num [B32.edge, B32.fdiv_fin, F.neg, F.lt_fin, F.gt_fin, F.isZero_fin, r2]
  have e3 : B32.edge (F.fin 41).neg (F.fin (-30)) (F.fin (14588883 / 16777216), F.fin 1) =
      some (F.fin (14588883 / 16777216), F.fin 1) := by
    norm_num [B32.edge, B32.fdiv_fin, F.neg, F.lt_fin, F.gt_fin, F.isZero_fin, r3]
  have e4 : B32.edge (F.fin 41) (F.fin 49) (F.fin (14588883 / 16777216), F.fin 1) =
      some (F.fin (14588883 / 16777216), F.fin 1) := by
    norm_num [B32.edge, B32.fdiv_fin, F.neg, F.lt_fin, F.gt_fin, F.isZero_fin, r4]
  refine ⟨?_, by norm_num⟩
  simp only [B32.r_clip_line, dx, dy, q1, q2, q3, q4, e1, e2, e3, e4, Option.some_bind]
  norm_num [B32.fadd_fin, B32.fmul_fin, h1, h2, h8, h9, r5, r6, x1, x2]

/-- C3 as stated fails in binary32: every point of the segment
    `(-16777220, 3)-(-1, 4)` has `x <= -1`, left of the rectangle `(0,0)-(20,20)`,
    yet `r_clip_line` returns 1, with both endpoints rewritten to `(0, 4)`: the
    difference `dx = -1 - (-16777220) = 16777219` is not a `float` and rounds to
    `16777220`, so that `t0 = 1` and `x0 + t0 * dx = 0`. -/
theorem r_clip_line_rounding_accepts_outside :
    B32.r_clip_line ⟨0, 0, 20, 20⟩ (F.fin (-16777220)) (F.fin 3) (F.fin (-1)) (F.fin 4) =
      some (F.fin 0, F.fin 4, F.fin 0, F.fin 4) ∧
    ∀ s : ℚ, 0 ≤ s → s ≤ 1 →
      ¬ ((((⟨0, 0, 20, 20⟩ : Rect).l : ℤ) : ℚ) ≤ -16777220 + s * (-1 - -16777220) ∧
        -16777220 + s * (-1 - -16777220) ≤ (((⟨0, 0, 20, 20⟩ : Rect).r - 1 : ℤ) : ℚ) ∧
        (((⟨0, 0, 20, 20⟩ : Rect).t : ℤ) : ℚ) ≤ 3 + s * (4 - 3) ∧
        3 + s * (4 - 3) ≤ (((⟨0, 0, 20, 20⟩ : Rect).b - 1 : ℤ) : ℚ)) := by
  have i1 : ∀ n : ℤ, |n| < 2 ^ 24 → binary32.round (n : ℚ) = F.fin n := round32_int
  have h1 : binary32.round (1 : ℚ) = F.fin 1 := by simpa using i1 1 (by norm_num)
  have h2 : binary32.round (3 : ℚ) = F.fin 3 := by simpa using i1 3 (by norm_num)
  have h3 : binary32.round (-3 : ℚ) = F.fin (-3) := by simpa using i1 (-3) (by norm_num)
  have h4 : binary32.round (4 : ℚ) = F.fin 4 := by simpa using i1 4 (by norm_num)
  have h5 : binary32.round (16 : ℚ) = F.fin 16 := by simpa using i1 16 (by norm_num)
  have h6 : binary32.round (19 : ℚ) = F.fin 19 := by simpa using i1 19 (by norm_num)
  have x1 : binary32.round (-16777220 : ℚ) = F.fin (-16777220) :=
    round32_exact _ (-4194305) 2 (by norm_num) (by norm_num) (by norm_num)
      (by norm_num [abs_lt])
  have x2 : binary32.round (16777220 : ℚ) = F.fin 16777220 :=
    round32_exact _ 4194305 2 (by norm_num) (by norm_num) (by norm_num) (by norm_num [abs_lt])
  have r1 : binary32.round (16777219 : ℚ) = F.fin 16777220 :=
    round32_eq _ _ 8388610 1 (by norm_num) (by norm_num)
      (by right; norm_num [le_abs]) (by norm_num [abs_lt]) (by right; norm_num)
      (by norm_num) (by norm_num [abs_lt])
  have r2 : binary32.round (16777239 : ℚ) = F.fin 16777240 :=
    round32_eq _ _ 8388620 1 (by norm_num) (by norm_num)
      (by right; norm_num [le_abs]) (by norm_num [abs_lt]) (by right; norm_num)
      (by norm_num) (by norm_num [abs_lt])
  have r3 : binary32.round (838862 / 838861 : ℚ) = F.fin (4194309 / 4194304) :=
    round32_eq _ _ 8388618 (-23) (by norm_num) (by norm_num)
      (by right; norm_num [le_abs]) (by norm_num [abs_lt]) (by left; norm_num)
      (by norm_num) (by norm_num [abs_lt])
  have dx : B32.fsub (F.fin (-1)) (F.fin (-16777220)) = F.fin 16777220 := by
    norm_num [B32.fsub_fin, r1]
  have dy : B32.fsub (F.fin 4) (F.fin 3) = F.fin 1 := by
    norm_num [B32.fsub_fin, h1]
  have q1 : B32.fsub (F.fin (-16777220)) (B32.ofInt 0) = F.fin (-16777220) := by
    norm_num [B32.fsub_fin, B32.ofInt_eq, round_zero, x1]
  have q2 : B32.fsub (B32.ofInt (20 - 1)) (F.fin (-16777220)) = F.fin 16777240 := by
    norm_num [B32.fsub_fin, B32.ofInt_eq, h6, r2]
  have q3 : B32.fsub (F.fin 3) (B32.ofInt 0) = F.fin 3 := by
    norm_num [B32.fsub_fin, B32.ofInt_eq, round_zero, h2]
  have q4 : B32.fsub (B32.ofInt (20 - 1)) (F.fin 3) = F.fin 16 := by
    norm_num [B32.fsub_fin, B32.ofInt_eq, h6, h5]
  have e1 : B32.edge (F.fin 16777220).neg (F.fin (-16777220)) (F.fin 0, F.fin 1) =
      some (F.fin 1, F.fin 1) := by
    norm_num [B32.edge, B32.fdiv_fin, F.neg, F.lt_fin, F.gt_fin, F.isZero_fin, h1]
  have e2 : B32.edge (F.fin 16777220) (F.fin 16777240) (F.fin 1, F.fin 1) =
      some (F.fin 1, F.fin 1) := by
    norm_num [B32.edge, B32.fdiv_fin, F.neg, F.lt_fin, F.gt_fin, F.isZero_fin, r3]
  have e3 : B32.edge (F.fin 1).neg (F.fin 3) (F.fin 1, F.fin 1) = some (F.fin 1, F.fin 1) := by
    norm_num [B32.edge, B32.fdiv_fin, F.neg, F.lt_fin, F.gt_fin, F.isZero_fin, h3]
  have e4 : B32.edge (F.fin 1) (F.fin 16) (F.fin 1, F.fin 1) = some (F.fin 1, F.fin 1) := by
    norm_num [B32.edge, B32.fdiv_fin, F.neg, F.lt_fin, F.gt_fin, F.isZero_fin, h5]
  constructor
  · simp only [B32.r_clip_line, dx, dy, q1, q2, q3, q4, e1, e2, e3, e4, Option.some_bind]
    norm_num [B32.fadd_fin, B32.fmul_fin, round_zero, h1, h4, x2]
  · rintro s h0 h1 ⟨h2, -⟩
    norm_num at h2
    linarith

/-- The `double` constant `M_PI` is `884279719003555 / 2^48`. -/
theorem B32.M_PI_eq : B32.M_PI = F.fin (884279719003555 / 281474976710656) := by
  unfold B32.M_PI
  exact round64_eq _ _ 7074237752028440 (-51) (by norm_num) (by norm_num)
    (by right; norm_num [le_abs]) (by norm_num [abs_lt]) (by left; norm_num)
    (by norm_num) (by norm_num [abs_lt])

/-- The `double` expression `2*M_PI` is `884279719003555 / 2^47`. -/
theorem B32.two_pi_eq : B32.two_pi = F.fin (884279719003555 / 140737488355328) := by
  have h2 : binary64.round (2 : ℚ) = F.fin 2 :=
    round64_exact _ 1 1 (by norm_num) (by norm_num) (by norm_num) (by norm_num [abs_lt])
  have h3 : binary64.round (884279719003555 / 140737488355328 : ℚ) =
      F.fin (884279719003555 / 140737488355328) :=
    round64_exact _ 884279719003555 (-47) (by norm_num) (by norm_num) (by norm_num)
      (by norm_num [abs_lt])
  rw [B32.two_pi, B32.M_PI_eq, B32.dofInt]
  show B32.dmul (binary64.round ((2 : ℤ) : ℚ)) _ = _
  norm_num [h2, B32.dmul_fin, h3]

/-- One pass of `pangle -= 2*M_PI` at the `float` `134217760`: the `double`
    difference `134217753.7...` converts back to the `float` `134217760`, whose
    neighbours are 16 apart. -/
theorem B32.hi_step_absorbed :
    (B32.dsub (F.fin 134217760) B32.two_pi).rnd binary32 = F.fin 134217760 := by
  have d1 : binary64.round (18889469550798489221725 / 140737488355328 : ℚ) =
      F.fin (2251800245141803 / 16777216) :=
    round64_eq _ _ 4503600490283606 (-25) (by norm_num) (by norm_num)
      (by right; norm_num [le_abs]) (by norm_num [abs_lt]) (by left; norm_num)
      (by norm_num) (by norm_num [abs_lt])
  have c1 : binary32.round (2251800245141803 / 16777216 : ℚ) = F.fin 134217760 :=
    round32_eq _ _ 8388610 4 (by norm_num) (by norm_num)
      (by right; norm_num [le_abs]) (by norm_num [abs_lt]) (by left; norm_num)
      (by norm_num) (by norm_num [abs_lt])
  have e : (134217760 - 884279719003555 / 140737488355328 : ℚ) =
      18889469550798489221725 / 140737488355328 := by norm_num
  rw [B32.two_pi_eq, B32.dsub_fin, e, d1, F.rnd, c1]

/-- At the `float` `134217760` the loop `while (pangle >= 2*M_PI) pangle -= 2*M_PI;`
    never exits. -/
theorem B32.norm_hi_stuck (fuel : ℕ) : B32.norm_hi fuel (F.fin 134217760) = none := by
  have hge : (F.fin 134217760).ge B32.two_pi = true := by
    rw [B32.two_pi_eq, F.ge_fin]
    norm_num
  induction fuel with
  | zero => simp [B32.norm_hi, hge]
  | succ n ih =>
    rw [B32.norm_hi, if_pos hge]
    show B32.norm_hi n ((B32.dsub (F.fin 134217760) B32.two_pi).rnd binary32) = none
    rw [B32.hi_step_absorbed, ih]

/-- The assignment `pangle += M_PI * wishlook * tdelta` from `pangle = 0` with
    `wishlook = 42722840` and `tdelta = 1` gives the `float` `134217760`. -/
theorem B32.heading_first :
    (B32.dadd (F.fin 0) (B32.dmul (B32.dmul B32.M_PI (B32.dofInt 42722840)) (F.fin 1))).rnd
      binary32 = F.fin 134217760 := by
  have h1 : B32.dofInt 42722840 = F.fin 42722840 := by
    show binary64.round ((42722840 : ℤ) : ℚ) = _
    have e : ((42722840 : ℤ) : ℚ) = 42722840 := by norm_num
    rw [e]
    exact round64_exact _ 42722840 0 (by norm_num) (by norm_num) (by norm_num)
      (by norm_num [abs_lt])
  have d1 : binary64.round (4722367618779229962025 / 35184372088832 : ℚ) =
      F.fin (4503600710658293 / 33554432) :=
    round64_eq _ _ 4503600710658293 (-25) (by norm_num) (by norm_num)
      (by right; norm_num [le_abs]) (by norm_num [abs_lt]) (by left; norm_num)
      (by norm_num) (by norm_num [abs_lt])
  have d2 : binary64.round (4503600710658293 / 33554432 : ℚ) =
      F.fin (4503600710658293 / 33554432) :=
    round64_exact _ 4503600710658293 (-25) (by norm_num) (by norm_num) (by norm_num)
      (by norm_num [abs_lt])
  have c1 : binary32.round (4503600710658293 / 33554432 : ℚ) = F.fin 134217760 :=
    round32_eq _ _ 8388610 4 (by norm_num) (by norm_num)
      (by right; norm_num [le_abs]) (by norm_num [abs_lt]) (by left; norm_num)
      (by norm_num) (by norm_num [abs_lt])
  have e1 : (884279719003555 / 281474976710656 * 42722840 : ℚ) =
      4722367618779229962025 / 35184372088832 := by norm_num
  have e2 : (4503600710658293 / 33554432 * 1 : ℚ) = 4503600710658293 / 33554432 := by
    norm_num
  have e3 : (0 + 4503600710658293 / 33554432 : ℚ) = 4503600710658293 / 33554432 := by
    norm_num
  rw [B32.M_PI_eq, h1, B32.dmul_fin _ _ (by norm_num), e1, d1, B32.dmul_fin _ _ (by norm_num),
    e2, d2, B32.dadd_fin, e3, d2, F.rnd, c1]

/-- C12 as stated fails in binary32: from the heading `0`, with the look axis
    value `42722840` and the elapsed time `1`, the heading becomes the `float`
    `134217760`, at which `pangle -= 2*M_PI` changes nothing, and the second
    normalisation loop of `update` does not terminate: the heading update returns
    for no amount of fuel. -/
theorem heading_never_normalised :
    (F.fin 0).ge (F.fin 0) = true ∧ (F.fin 0).lt B32.two_pi = true ∧
    ∀ fuel, B32.heading_step fuel (F.fin 0) 42722840 (F.fin 1) = none := by
  refine ⟨by rw [F.ge_fin]; norm_num, by rw [B32.two_pi_eq, F.lt_fin]; norm_num,
    fun fuel => ?_⟩
  have hlo : B32.norm_lo fuel (F.fin 134217760) = some (F.fin 134217760) := by
    cases fuel <;> norm_num [B32.norm_lo, F.lt_fin]
  rw [B32.heading_step, B32.heading_first, hlo, Option.some_bind, B32.norm_hi_stuck]

/-- C15 as stated fails in binary32: from the initial state of the program with
    the look axis value `42722840`, the call `update(pix, 1)` does not return: it
    stays in the second normalisation loop of the heading, before `r_push_area`. -/
theorem update_never_returns :
    (⟨area_init, 0, fun _ => area_init⟩ : AreaState).area_stack_top < AREA_STACK_SIZE ∧
    ∀ (fuel : ℕ) (sinf cosf : F → F) (pix : Canvas),
      B32.update fuel sinf cosf
        ⟨⟨area_init, 0, fun _ => area_init⟩, 0, 0, 42722840, F.fin 50, F.fin 50, F.fin 0⟩ pix
        (F.fin 1) = none := by
  refine ⟨by decide, fun fuel sinf cosf pix => ?_⟩
  have hlo : B32.norm_lo fuel (F.fin 134217760) = some (F.fin 134217760) := by
    cases fuel <;> norm_num [B32.norm_lo, F.lt_fin]
  have hs : B32.heading_step fuel (F.fin 0) 42722840 (F.fin 1) = none := by
    rw [B32.heading_step, B32.heading_first, hlo, Option.some_bind, B32.norm_hi_stuck]
  simp only [B32.update, hs, Option.none_bind]

/-! ## The frustum clip in binary32 -/

/-- The product `2^64 * -(2^64)` overflows to `-inf` in binary32. -/
theorem B32.fmul_overflow :
    B32.fmul (F.fin 18446744073709551616) (F.fin (-18446744073709551616)) = F.ninf := by
  have e : (18446744073709551616 * -18446744073709551616 : ℚ) =
      -340282366920938463463374607431768211456 := by norm_num
  have h : binary32.round (-340282366920938463463374607431768211456 : ℚ) =
      F.inf (decide ((-340282366920938463463374607431768211456 : ℚ) < 0)) :=
    Fmt.round_overflow binary32 _ (-8388608) 105 (by norm_num [binary32])
      (by right; norm_num [binary32, le_abs]) (by norm_num [binary32, abs_lt])
      (rne_eq _ _ (by left; norm_num)) (by norm_num) (by norm_num [binary32, le_abs])
  rw [B32.fmul_fin, if_neg (by norm_num), e, h]
  norm_num [F.inf]

/-- C13 as stated fails: for the player-local wall `(2^64, 2^64)-(-2^64, -2^64)`
    the products in `cross(rx0, ry0, rx1, ry1)` overflow to `-inf`, their difference
    is NaN and both calls of `intersect` return `(NaN, NaN)`; the first endpoint
    (`tz0 > 0`) is replaced by `(NaN, NaN)`, the guard `tz0 >= 0 || tz1 >= 0` is
    false for NaN, and the perspective divide is reached with a depth `tz0` that is
    NaN, not strictly negative. -/
theorem clip3d_overflow_nan_depth :
    B32.clip3d (F.fin 18446744073709551616) (F.fin 18446744073709551616)
        (F.fin (-18446744073709551616)) (F.fin (-18446744073709551616)) =
      Clip3D.visible F.nan F.nan (F.fin (-18446744073709551616))
        (F.fin (-18446744073709551616)) ∧
    F.nan.lt (F.fin 0) = false := by
  have hx : B32.cross (F.fin 18446744073709551616) (F.fin 18446744073709551616)
      (F.fin (-18446744073709551616)) (F.fin (-18446744073709551616)) = F.nan := by
    rw [B32.cross, B32.fmul_overflow]
    rfl
  have g0 : (F.fin 18446744073709551616).gt (F.fin 0) = true := by
    rw [F.gt_fin]; norm_num
  have g1 : (F.fin (-18446744073709551616)).gt (F.fin 0) = false := by
    rw [F.gt_fin]; norm_num
  have g2 : (F.fin (-18446744073709551616)).ge (F.fin 0) = false := by
    rw [F.ge_fin]; norm_num
  have n1 : F.nan.le (F.fin 0) = false := rfl
  have n2 : F.nan.ge (F.fin 0) = false := rfl
  refine ⟨?_, rfl⟩
  simp [B32.clip3d, B32.intersect_nan _ _ _ _ _ _ _ _ hx, frustum_pick, g0, g1, g2, n1, n2]

/-! ## Perspective projection in binary32 -/

/-- C16 as stated fails in binary32: for the player-local endpoints
    `(1, -2^25)` and `(-1, -2^25)` the offsets `(-x * 50) / z` are `25 / 2^24` and
    `-25 / 2^24`, less than half the distance between `50` and its neighbouring
    `float`s, and both screen x values are `50`: they are not distinct. -/
theorem project_rounding_not_distinct :
    (1 : ℚ) ≠ 0 ∧ (-33554432 : ℚ) < 0 ∧
    (B32.project (F.fin 1) (F.fin (-33554432)) (F.fin (-1)) (F.fin (-33554432)) 50 50).1 =
      F.fin 50 ∧
    (B32.project (F.fin 1) (F.fin (-33554432)) (F.fin (-1)) (F.fin (-33554432)) 50 50).2.1 =
      F.fin 50 := by
  have h50 : B32.ofInt 50 = F.fin 50 := by
    simpa using B32.ofInt_small 50 (by norm_num)
  have m1 : B32.fmul (F.fin (-1)) (F.fin 50) = F.fin (-50) := by
    rw [B32.fmul_fin, if_neg (by norm_num)]
    have e : (-1 * 50 : ℚ) = -50 := by norm_num
    rw [e]
    simpa using round32_int (-50) (by norm_num)
  have m2 : B32.fmul (F.fin 1) (F.fin 50) = F.fin 50 := by
    rw [B32.fmul_fin, if_neg (by norm_num)]
    have e : (1 * 50 : ℚ) = 50 := by norm_num
    rw [e]
    simpa using round32_int 50 (by norm_num)
  have d1 : B32.fdiv (F.fin (-50)) (F.fin (-33554432)) = F.fin (25 / 16777216) := by
    rw [B32.fdiv_fin _ _ (by norm_num), if_neg (by norm_num)]
    have e : (-50 / -33554432 : ℚ) = 25 / 16777216 := by norm_num
    rw [e]
    exact round32_exact _ 25 (-24) (by norm_num) (by norm_num) (by norm_num)
      (by norm_num [abs_lt])
  have d2 : B32.fdiv (F.fin 50) (F.fin (-33554432)) = F.fin (-(25 / 16777216)) := by
    rw [B32.fdiv_fin _ _ (by norm_num), if_neg (by norm_num)]
    have e : (50 / -33554432 : ℚ) = -(25 / 16777216) := by norm_num
    rw [e]
    exact round32_exact _ (-25) (-24) (by norm_num) (by norm_num) (by norm_num)
      (by norm_num [abs_lt])
  have a1 : B32.fadd (F.fin (25 / 16777216)) (F.fin 50) = F.fin 50 := by
    rw [B32.fadd_fin]
    exact round32_eq _ _ 13107200 (-18) (by norm_num) (by norm_num)
      (by right; norm_num [le_abs]) (by norm_num [abs_lt]) (by left; norm_num)
      (by norm_num) (by norm_num [abs_lt])
  have a2 : B32.fadd (F.fin (-(25 / 16777216))) (F.fin 50) = F.fin 50 := by
    rw [B32.fadd_fin]
    exact round32_eq _ _ 13107200 (-18) (by norm_num) (by norm_num)
      (by right; norm_num [le_abs]) (by norm_num [abs_lt]) (by left; norm_num)
      (by norm_num) (by norm_num [abs_lt])
  have n1 : (F.fin 1).neg = F.fin (-1) := by norm_num [F.neg]
  have n2 : (F.fin (-1)).neg = F.fin 1 := by norm_num [F.neg]
  refine ⟨by norm_num, by norm_num, ?_, ?_⟩
  · show B32.fadd (B32.fdiv (B32.fmul (F.fin 1).neg (B32.ofInt 50)) (F.fin (-33554432)))
      (B32.ofInt 50) = _
    rw [h50, n1, m1, d1, a1]
  · show B32.fadd (B32.fdiv (B32.fmul (F.fin (-1)).neg (B32.ofInt 50)) (F.fin (-33554432)))
      (B32.ofInt 50) = _
    rw [h50, n2, m2, d2, a2]

/-- The screen x of an endpoint with lateral offset zero (either zero) at a
    strictly negative depth, in binary32: `(-x * 50) / z` is a zero and the sum
    with `midx` is `midx`. -/
theorem B32.proj_x_zero_rounded (x tz : F) (hx : x = F.fin 0 ∨ x = F.nzero)
    (hz : tz.lt (F.fin 0) = true) (midx : ℤ) (hm : |midx| < 2 ^ 24) :
    B32.fadd (B32.fdiv (B32.fmul x.neg (B32.ofInt 50)) tz) (B32.ofInt midx) = F.fin midx := by
  have h50 : B32.ofInt 50 = F.fin 50 := by
    simpa using B32.ofInt_small 50 (by norm_num)
  have hmid : binary32.round (midx : ℚ) = F.fin midx := round32_int midx hm
  have key : ∀ w : F, w = F.fin 0 ∨ w = F.nzero →
      B32.fadd w (B32.ofInt midx) = F.fin midx := by
    intro w hw
    rw [B32.ofInt_small midx hm]
    rcases hw with rfl | rfl
    · rw [B32.fadd_fin, zero_add, hmid]
    · rw [B32.fadd, F.add_nzero_fin]
      exact hmid
  apply key
  rw [h50]
  rcases hx with rfl | rfl
  · have e1 : B32.fmul (F.fin 0).neg (F.fin 50) = F.nzero := by
      norm_num [B32.fmul, F.neg, F.mul, F.isNaN, F.isInf, F.val, F.sgn, F.mk, F.zero, F.rnd]
    rw [e1]
    cases tz with
    | fin z =>
      have hz1 : z < 0 := by simpa [F.lt_fin] using hz
      left
      simp [B32.fdiv, F.nzero_div_neg z hz1, F.rnd, round_zero]
    | nzero => simp [F.lt, F.isNaN, F.isInf, F.val] at hz
    | pinf => simp [F.lt, F.isNaN, F.isInf, F.sgn] at hz
    | ninf => left; simp [B32.fdiv, F.div, F.isNaN, F.isInf, F.sgn, F.zero, F.rnd, round_zero]
    | nan => simp [F.lt, F.isNaN] at hz
  · have e1 : B32.fmul F.nzero.neg (F.fin 50) = F.fin 0 := by
      norm_num [B32.fmul, F.neg, F.mul, F.isNaN, F.isInf, F.val, F.sgn, F.mk, F.zero, F.rnd,
        round_zero]
    rw [e1]
    cases tz with
    | fin z =>
      have hz1 : z < 0 := by simpa [F.lt_fin] using hz
      right
      simp [B32.fdiv, F.zero_div_neg z hz1, F.rnd]
    | nzero => simp [F.lt, F.isNaN, F.isInf, F.val] at hz
    | pinf => simp [F.lt, F.isNaN, F.isInf, F.sgn] at hz
    | ninf => right; simp [B32.fdiv, F.div, F.isNaN, F.isInf, F.sgn, F.zero, F.rnd]
    | nan => simp [F.lt, F.isNaN] at hz

/-- The screen x of an endpoint with lateral offset zero (either zero) at a
    strictly negative depth, in exact arithmetic. -/
theorem proj_x_zero (x tz : F) (hx : x = F.fin 0 ∨ x = F.nzero)
    (hz : tz.lt (F.fin 0) = true) (midx : ℤ) :
    ((x.neg.mul (F.ofInt 50)).div tz).add (F.ofInt midx) = F.fin midx := by
  rcases hx with rfl | rfl
  · rw [F.neg_fin_zero, F.nzero_mul_fifty]
    cases tz with
    | fin z =>
      have hz1 : z < 0 := by simpa [F.lt_fin] using hz
      rw [F.nzero_div_neg z hz1, F.ofInt, F.add_fin_left _ _ (F.isFin_fin _), F.val_fin,
        zero_add]
    | nzero => simp [F.lt, F.isNaN, F.isInf, F.val] at hz
    | pinf => simp [F.lt, F.isNaN, F.isInf, F.sgn] at hz
    | ninf =>
      have e : F.nzero.div F.ninf = F.fin 0 := by
        simp [F.div, F.isNaN, F.isInf, F.sgn, F.zero]
      rw [e, F.ofInt, F.add_fin_left _ _ (F.isFin_fin _), F.val_fin, zero_add]
    | nan => simp [F.lt, F.isNaN] at hz
  · rw [F.neg_nzero, F.zero_mul_fifty]
    cases tz with
    | fin z =>
      have hz1 : z < 0 := by simpa [F.lt_fin] using hz
      rw [F.zero_div_neg z hz1, F.ofInt, F.add_nzero_fin]
    | nzero => simp [F.lt, F.isNaN, F.isInf, F.val] at hz
    | pinf => simp [F.lt, F.isNaN, F.isInf, F.sgn] at hz
    | ninf =>
      have e : (F.fin 0).div F.ninf = F.nzero := by
        simp [F.div, F.isNaN, F.isInf, F.sgn, F.zero]
      rw [e, F.ofInt, F.add_nzero_fin]
    | nan => simp [F.lt, F.isNaN] at hz

/-- C14: for a player-local endpoint with lateral offset `0` (either zero) and
    strictly negative depth `tz`, in particular `tz = -50`, the projected screen x
    `(-x * 50) / tz + midx` is `midx`, on the line of `tx0` and on the line of
    `tx1`, whatever the other endpoint is: in exact arithmetic for every `midx`,
    and in binary32 for every `midx` that is a `float` (`|midx| < 2^24`); for the
    first-person panel `(215, 50, 315, 150)`, `midx = area_w / 2` is `50`. -/
theorem project_lateral_zero (x tz u v : F) (hx : x = F.fin 0 ∨ x = F.nzero)
    (hz : tz.lt (F.fin 0) = true) (midx midy : ℤ) :
    ((project x tz u v midx midy).1 = F.fin midx ∧
      (project u v x tz midx midy).2.1 = F.fin midx) ∧
    (|midx| < 2 ^ 24 →
      (B32.project x tz u v midx midy).1 = F.fin midx ∧
      (B32.project u v x tz midx midy).2.1 = F.fin midx) ∧
    (F.fin (-50)).lt (F.fin 0) = true ∧
    Int.tdiv (area_w ⟨215, 50, 315, 150⟩) 2 = 50 :=
  ⟨⟨proj_x_zero x tz hx hz midx, proj_x_zero x tz hx hz midx⟩,
   fun hm => ⟨B32.proj_x_zero_rounded x tz hx hz midx hm, B32.proj_x_zero_rounded x tz hx hz midx hm⟩,
   by rw [F.lt_fin]; norm_num, by decide⟩

/-- C14 at depth `-50` and `midx = 50`, the other endpoint being `(10, -20)`. -/
theorem project_lateral_zero_witness :
    ((project (F.fin 0) (F.fin (-50)) (F.fin 10) (F.fin (-20)) 50 50).1 =
        F.fin ((50 : ℤ) : ℚ) ∧
      (project (F.fin 10) (F.fin (-20)) (F.fin 0) (F.fin (-50)) 50 50).2.1 =
        F.fin ((50 : ℤ) : ℚ)) ∧
    ((B32.project (F.fin 0) (F.fin (-50)) (F.fin 10) (F.fin (-20)) 50 50).1 =
        F.fin ((50 : ℤ) : ℚ) ∧
      (B32.project (F.fin 10) (F.fin (-20)) (F.fin 0) (F.fin (-50)) 50 50).2.1 =
        F.fin ((50 : ℤ) : ℚ)) :=
  ⟨(project_lateral_zero (F.fin 0) (F.fin (-50)) (F.fin 10) (F.fin (-20)) (Or.inl rfl)
      (by rw [F.lt_fin]; norm_num) 50 50).1,
   (project_lateral_zero (F.fin 0) (F.fin (-50)) (F.fin 10) (F.fin (-20)) (Or.inl rfl)
      (by rw [F.lt_fin]; norm_num) 50 50).2.1 (by norm_num)⟩

/-! ## `update` restores the clip region, in binary32 -/

/-- In binary32, a call of `update` that returns has restored `area` and
    `area_stack_top`. -/
theorem B32.update_restores (fuel : ℕ) (sinf cosf : F → F) (g g1 : B32.Game)
    (pix pix1 : Canvas) (tdelta : F)
    (h : B32.update fuel sinf cosf g pix tdelta = some (g1, pix1)) :
    g1.areas.area = g.areas.area ∧ g1.areas.area_stack_top = g.areas.area_stack_top := by
  unfold B32.update at h
  simp only [Option.bind_eq_some, Option.map_eq_some'] at h
  obtain ⟨a, -, s1, hpush, c1, -, c2, -, c3, -, s2, hpop, heq⟩ := h
  have htop : g.areas.area_stack_top < AREA_STACK_SIZE := by
    by_contra hn
    simp [r_push_area, hn] at hpush
  have hs1 : s1 = { g.areas with
      area_stack := Function.update g.areas.area_stack ⟨g.areas.area_stack_top, htop⟩
        g.areas.area
      area_stack_top := g.areas.area_stack_top + 1 } := by
    simp only [r_push_area, dif_pos htop, Option.some.injEq] at hpush
    exact hpush.symm
  obtain ⟨s3, p1, p2, p3, -⟩ := r_pop_area_of_top
    (r_area (r_area (r_area s1 5 50 105 150) 110 50 210 150) 215 50 315 150)
    g.areas.area_stack_top htop (by rw [hs1]; rfl)
  rw [p1] at hpop
  simp only [Option.some.injEq] at hpop
  simp only [Prod.mk.injEq] at heq
  rw [← heq.1]
  show s2.area = _ ∧ s2.area_stack_top = _
  rw [← hpop]
  refine ⟨?_, p3⟩
  rw [p2, hs1]
  simp [r_area]

/-! ## Scenario 1 in binary32 -/

theorem r_vline_terminates (area : Rect) (color x y0 y1 : ℤ) :
    Terminates (fun fuel c => r_vline fuel area c color x y0 y1) := by
  by_cases hin : x < area.l ∨ x ≥ area.r
  · exact ⟨0, fun fuel _ c => ⟨c, r_vline_outside _ _ _ _ _ _ _ hin⟩⟩
  · exact ⟨_, fun fuel hf c => ⟨_, r_vline_run fuel area c color x y0 y1 hin hf⟩⟩

theorem r_hline_terminates (area : Rect) (color x0 x1 y : ℤ) :
    Terminates (fun fuel c => r_hline fuel area c color x0 x1 y) := by
  by_cases hin : y < area.t ∨ y ≥ area.b
  · exact ⟨0, fun fuel _ c => ⟨c, r_hline_outside _ _ _ _ _ _ _ hin⟩⟩
  · exact ⟨_, fun fuel hf c => ⟨_, r_hline_run fuel area c color x0 x1 y hin hf⟩⟩

/-- The conversion of an `int` is never NaN: it compares equal to itself. -/
theorem B32.ofInt_beq_self (n : ℤ) : (B32.ofInt n).beq (B32.ofInt n) = true := by
  have h : ∀ x : F, x.isNaN = false → x.beq x = true := by
    intro x hx
    cases x <;> simp [F.beq, F.isNaN, F.isInf] at *
  apply h
  show (binary32.round (n : ℚ)).isNaN = false
  unfold Fmt.round
  split_ifs <;> first | rfl | (simp only [F.zero, F.inf]; split_ifs <;> rfl)

/-- In binary32, `r_line` between endpoints whose casts `(int)x0`, `(int)x1` are
    equal, or whose casts `(int)y0`, `(int)y1` are equal, goes to `r_vline` or
    `r_hline` and returns. -/
theorem B32.r_line_axis_terminates (area : Rect) (color : ℤ) (x0 y0 x1 y1 : F)
    (h : x0.toInt = x1.toInt ∨ y0.toInt = y1.toInt) :
    Terminates (fun fuel c => B32.r_line fuel area c color x0 y0 x1 y1) := by
  unfold B32.r_line
  dsimp only
  by_cases hx : (B32.ofInt (x0.toInt + area.l)).beq (B32.ofInt (x1.toInt + area.l)) = true
  · simp only [hx, if_true]
    exact r_vline_terminates _ _ _ _ _
  · have hy : (B32.ofInt (y0.toInt + area.t)).beq (B32.ofInt (y1.toInt + area.t)) = true := by
      rcases h with h | h
      · exact absurd (by rw [h]; exact B32.ofInt_beq_self _) hx
      · rw [h]; exact B32.ofInt_beq_self _
    simp only [hx, hy, if_true, Bool.false_eq_true, if_false]
    exact r_hline_terminates _ _ _ _ _

/-- In binary32, `r_rect` returns: its four lines are parallel to the axes. -/
theorem B32.r_rect_returns (area : Rect) (color l t r b : ℤ) :
    Terminates (fun fuel c => B32.r_rect fuel area c color l t r b) :=
  Terminates.seq _ _ (B32.r_line_axis_terminates area color _ _ _ _ (Or.inr rfl))
    (Terminates.seq _ _ (B32.r_line_axis_terminates area color _ _ _ _ (Or.inl rfl))
      (Terminates.seq _ _ (B32.r_line_axis_terminates area color _ _ _ _ (Or.inr rfl))
        (B32.r_line_axis_terminates area color _ _ _ _ (Or.inl rfl))))



/-- The frame of scenario 1 in binary32: no key is pressed, the heading `0`
    stays `0`. -/
theorem B32.heading_rest (fuel : ℕ) :
    B32.heading_step fuel (F.fin 0) 0 (F.fin (1 / 64)) = some (F.fin 0) := by
  have h0 : B32.dofInt 0 = F.fin 0 := by
    show binary64.round ((0 : ℤ) : ℚ) = _
    simp [round_zero]
  have m1 : B32.dmul B32.M_PI (F.fin 0) = F.fin 0 := by
    rw [B32.M_PI_eq]
    norm_num [B32.dmul, F.mul, F.isNaN, F.isInf, F.val, F.sgn, F.mk, F.zero, F.rnd, round_zero]
  have m2 : B32.dmul (F.fin 0) (F.fin (1 / 64)) = F.fin 0 := by
    norm_num [B32.dmul, F.mul, F.isNaN, F.isInf, F.val, F.sgn, F.mk, F.zero, F.rnd, round_zero]
  have a1 : B32.dadd (F.fin 0) (F.fin 0) = F.fin 0 := by
    rw [B32.dadd_fin, add_zero, round_zero]
  have c1 : (F.fin 0).rnd binary32 = F.fin 0 := round_zero _
  have hlo : B32.norm_lo fuel (F.fin 0) = some (F.fin 0) := by
    cases fuel <;> norm_num [B32.norm_lo, F.lt_fin]
  have hge : (F.fin 0).ge B32.two_pi = false := by
    rw [B32.two_pi_eq, F.ge_fin]
    norm_num
  have hhi : B32.norm_hi fuel (F.fin 0) = some (F.fin 0) := by
    cases fuel <;> simp [B32.norm_hi, hge]
  rw [B32.heading_step, h0, m1, m2, a1, c1, hlo, Option.some_bind, hhi]

/-- The player of scenario 1 does not move: `px` stays `50`. -/
theorem B32.px_rest :
    B32.fadd (F.fin 50) (B32.fmul (B32.fmul (B32.ofInt 20) (F.fin (1 / 64)))
      (B32.fadd (B32.fmul (B32.ofInt 0) (F.fin 1)) (B32.fmul (B32.ofInt 0) (F.fin 0)))) =
      F.fin 50 := by
  have h20 : B32.ofInt 20 = F.fin 20 := by simpa using B32.ofInt_small 20 (by norm_num)
  have h0 : B32.ofInt 0 = F.fin 0 := by simpa using B32.ofInt_small 0 (by norm_num)
  have r1 : binary32.round (5 / 16 : ℚ) = F.fin (5 / 16) :=
    round32_exact _ 5 (-4) (by norm_num) (by norm_num) (by norm_num) (by norm_num [abs_lt])
  have r2 : binary32.round (50 : ℚ) = F.fin 50 := by
    simpa using round32_int 50 (by norm_num)
  rw [h20, h0]
  norm_num [B32.fmul_fin, B32.fadd_fin, F.zero, round_zero, r1, r2]

/-- The player of scenario 1 does not move: `pz` stays `50`. -/
theorem B32.pz_rest :
    B32.fsub (F.fin 50) (B32.fmul (B32.fmul (B32.ofInt 20) (F.fin (1 / 64)))
      (B32.fadd (B32.fmul (B32.ofInt 0) (F.fin 0).neg) (B32.fmul (B32.ofInt 0) (F.fin 1)))) =
      F.fin 50 := by
  have h20 : B32.ofInt 20 = F.fin 20 := by simpa using B32.ofInt_small 20 (by norm_num)
  have h0 : B32.ofInt 0 = F.fin 0 := by simpa using B32.ofInt_small 0 (by norm_num)
  have r1 : binary32.round (5 / 16 : ℚ) = F.fin (5 / 16) :=
    round32_exact _ 5 (-4) (by norm_num) (by norm_num) (by norm_num) (by norm_num [abs_lt])
  have r2 : binary32.round (50 : ℚ) = F.fin 50 := by
    simpa using round32_int 50 (by norm_num)
  have m1 : B32.fmul (F.fin 0) (F.fin 0).neg = F.nzero := by
    norm_num [B32.fmul, F.neg, F.mul, F.isNaN, F.isInf, F.val, F.sgn, F.mk, F.zero, F.rnd]
  have a1 : B32.fadd F.nzero (F.fin 0) = F.fin 0 := by
    rw [B32.fadd, F.add_nzero_fin]
    exact round_zero _
  rw [h20, h0, m1]
  norm_num [B32.fmul_fin, B32.fsub_fin, F.zero, round_zero, r1, r2, a1]

/-- The wall of scenario 1 in the player's frame: `(-10, -20)-(10, -20)`. -/
theorem B32.local_wall_rest :
    B32.local_wall (F.fin 50) (F.fin 50) (F.fin 0) (F.fin 1) =
      (F.fin (-10), F.fin (-20), F.fin 10, F.fin (-20)) := by
  have i1 : ∀ n : ℤ, |n| < 2 ^ 24 → binary32.round (n : ℚ) = F.fin n := round32_int
  have h1 : binary32.round (-10 : ℚ) = F.fin (-10) := by simpa using i1 (-10) (by norm_num)
  have h2 : binary32.round (-20 : ℚ) = F.fin (-20) := by simpa using i1 (-20) (by norm_num)
  have h3 : binary32.round (10 : ℚ) = F.fin 10 := by simpa using i1 10 (by norm_num)
  have w0 : B32.ofInt wx0 = F.fin 40 := by simpa [wx0] using B32.ofInt_small 40 (by norm_num)
  have w1 : B32.ofInt wz0 = F.fin 30 := by simpa [wz0] using B32.ofInt_small 30 (by norm_num)
  have w2 : B32.ofInt wx1 = F.fin 60 := by simpa [wx1] using B32.ofInt_small 60 (by norm_num)
  have w3 : B32.ofInt wz1 = F.fin 30 := by simpa [wz1] using B32.ofInt_small 30 (by norm_num)
  have n0 : (F.fin 0).neg = F.nzero := F.neg_fin_zero
  have s1 : B32.fsub (F.fin 40) (F.fin 50) = F.fin (-10) := by
    norm_num [B32.fsub_fin, h1]
  have s2 : B32.fsub (F.fin 30) (F.fin 50) = F.fin (-20) := by
    norm_num [B32.fsub_fin, h2]
  have s3 : B32.fsub (F.fin 60) (F.fin 50) = F.fin 10 := by
    norm_num [B32.fsub_fin, h3]
  have m1 : B32.fmul (F.fin (-10)) (F.fin 1) = F.fin (-10) := by
    norm_num [B32.fmul_fin, h1]
  have m2 : B32.fmul (F.fin (-20)) (F.fin 0) = F.nzero := by
    norm_num [B32.fmul_fin, F.zero]
  have m3 : B32.fmul (F.fin 10) (F.fin 1) = F.fin 10 := by
    norm_num [B32.fmul_fin, h3]
  have m4 : B32.fmul (F.fin (-20)) (F.fin 1) = F.fin (-20) := by
    norm_num [B32.fmul_fin, h2]
  have m5 : B32.fmul (F.fin (-10)) F.nzero = F.fin 0 := by
    norm_num [B32.fmul, F.mul, F.isNaN, F.isInf, F.val, F.sgn, F.mk, F.zero, F.rnd, round_zero]
  have m6 : B32.fmul (F.fin 10) F.nzero = F.nzero := by
    norm_num [B32.fmul, F.mul, F.isNaN, F.isInf, F.val, F.sgn, F.mk, F.zero, F.rnd]
  have a1 : B32.fadd (F.fin (-10)) F.nzero = F.fin (-10) := by
    rw [B32.fadd_fin_nzero, h1]
  have a2 : B32.fadd (F.fin 10) F.nzero = F.fin 10 := by
    rw [B32.fadd_fin_nzero, h3]
  have a3 : B32.fadd (F.fin 0) (F.fin (-20)) = F.fin (-20) := by
    norm_num [B32.fadd_fin, h2]
  have a4 : B32.fadd F.nzero (F.fin (-20)) = F.fin (-20) := by
    rw [B32.fadd, F.add_nzero_fin]
    exact h2
  simp only [B32.local_wall, w0, w1, w2, w3, n0, s1, s2, s3, m1, m2, m3, m4, m5, m6, a1, a2, a3,
    a4]

/-- The frustum clip leaves the wall of scenario 1 as it is: both depths are
    negative already. -/
theorem B32.clip3d_rest :
    B32.clip3d (F.fin (-10)) (F.fin (-20)) (F.fin 10) (F.fin (-20)) =
      Clip3D.visible (F.fin (-10)) (F.fin (-20)) (F.fin 10) (F.fin (-20)) := by
  have g1 : (F.fin (-20)).gt (F.fin 0) = false := by rw [F.gt_fin]; norm_num
  have g2 : (F.fin (-20)).ge (F.fin 0) = false := by rw [F.ge_fin]; norm_num
  simp [B32.clip3d, frustum_pick, g1, g2]



/-- The static view of scenario 1 returns in binary32: its lines are parallel to
    the axes. -/
theorem B32.view_static_rest (area : Rect) :
    Terminates (fun fuel c => B32.view_static fuel area c (F.fin 50) (F.fin 50) (F.fin 0)
      (F.fin 1)) := by
  have h10 : B32.ofInt 10 = F.fin 10 := by simpa using B32.ofInt_small 10 (by norm_num)
  have e : B32.fadd (F.fin 50) (B32.fmul (B32.ofInt 10) (F.fin 0)) = F.fin 50 := by
    have r2 : binary32.round (50 : ℚ) = F.fin 50 := by
      simpa using round32_int 50 (by norm_num)
    rw [h10]
    norm_num [B32.fmul_fin, B32.fadd_fin, F.zero, r2]
  exact Terminates.seq _ _ (B32.r_line_axis_terminates area _ _ _ _ _ (Or.inr rfl))
    (Terminates.seq _ _ (B32.r_line_axis_terminates area _ _ _ _ _ (Or.inl (by rw [e])))
      (Terminates.seq _ _ (B32.r_line_axis_terminates area _ _ _ _ _ (Or.inl rfl))
        (B32.r_rect_returns area _ _ _ _ _)))

/-- The top-down view of a wall at one depth returns in binary32. -/
theorem B32.view_topdown_level (area : Rect) (tx0 tz tx1 : F) :
    Terminates (fun fuel c => B32.view_topdown fuel area c tx0 tz tx1 tz) :=
  Terminates.seq _ _ (B32.r_line_axis_terminates area _ _ _ _ _ (Or.inr rfl))
    (Terminates.seq _ _ (B32.r_line_axis_terminates area _ _ _ _ _ (Or.inl rfl))
      (Terminates.seq _ _ (B32.r_line_axis_terminates area _ _ _ _ _ (Or.inl rfl))
        (B32.r_rect_returns area _ _ _ _ _)))

/-- The four lines of a wall at one depth return in binary32: the top and the
    bottom are horizontal, the sides vertical. -/
theorem B32.draw_wall_level (area : Rect) (tx0 tz tx1 : F) (midx midy : ℤ) :
    Terminates (fun fuel c => B32.draw_wall fuel area c
      (B32.project tx0 tz tx1 tz midx midy)) :=
  Terminates.seq _ _ (B32.r_line_axis_terminates area _ _ _ _ _ (Or.inr rfl))
    (Terminates.seq _ _ (B32.r_line_axis_terminates area _ _ _ _ _ (Or.inl rfl))
      (Terminates.seq _ _ (B32.r_line_axis_terminates area _ _ _ _ _ (Or.inr rfl))
        (B32.r_line_axis_terminates area _ _ _ _ _ (Or.inl rfl))))

/-- The first-person view of scenario 1 returns in binary32. -/
theorem B32.view_3d_rest (area : Rect) :
    Terminates (fun fuel c => B32.view_3d fuel area c (F.fin (-10)) (F.fin (-20)) (F.fin 10)
      (F.fin (-20))) := by
  unfold B32.view_3d
  simp only [B32.clip3d_rest]
  exact Terminates.seq _ _ (B32.draw_wall_level area _ _ _ _ _) (B32.r_rect_returns _ _ _ _ _ _)

/-- Scenario 1 in binary32: from the initial state of the program, with no key
    pressed, `sin 0 = 0`, `cos 0 = 1` and a frame of `1/64` s, `update` returns. -/
theorem B32.update_rest_returns :
    ∃ N, ∀ fuel, N ≤ fuel → ∀ pix, ∃ g1 pix1,
      B32.update fuel (fun _ => F.fin 0) (fun _ => F.fin 1)
        ⟨⟨area_init, 0, fun _ => area_init⟩, 0, 0, 0, F.fin 50, F.fin 50, F.fin 0⟩ pix
        (F.fin (1 / 64)) = some (g1, pix1) := by
  obtain ⟨N1, h1⟩ := B32.view_static_rest ⟨5, 50, 105, 150⟩
  obtain ⟨N2, h2⟩ := B32.view_topdown_level ⟨110, 50, 210, 150⟩ (F.fin (-10)) (F.fin (-20))
    (F.fin 10)
  obtain ⟨N3, h3⟩ := B32.view_3d_rest ⟨215, 50, 315, 150⟩
  refine ⟨max N1 (max N2 N3), fun fuel hf pix => ?_⟩
  have f1 : N1 ≤ fuel := le_trans (le_max_left _ _) hf
  have f2 : N2 ≤ fuel := le_trans (le_trans (le_max_left _ _) (le_max_right _ _)) hf
  have f3 : N3 ≤ fuel := le_trans (le_trans (le_max_right _ _) (le_max_right _ _)) hf
  obtain ⟨c1, e1⟩ := h1 fuel f1 (r_clear pix 0)
  obtain ⟨c2, e2⟩ := h2 fuel f2 c1
  obtain ⟨c3, e3⟩ := h3 fuel f3 c2
  have hp : r_push_area ⟨area_init, 0, fun _ => area_init⟩ =
      some ⟨area_init, 1, Function.update (fun _ => area_init) ⟨0, by decide⟩ area_init⟩ := by
    simp [r_push_area, AREA_STACK_SIZE]
  have hpop : ∃ s2, r_pop_area (r_area (r_area (r_area
      ⟨area_init, 1, Function.update (fun _ => area_init) ⟨0, by decide⟩ area_init⟩
      5 50 105 150) 110 50 210 150) 215 50 315 150) = some s2 := by
    obtain ⟨s2, p1, -⟩ := r_pop_area_of_top (r_area (r_area (r_area
      ⟨area_init, 1, Function.update (fun _ => area_init) ⟨0, by decide⟩ area_init⟩
      5 50 105 150) 110 50 210 150) 215 50 315 150) 0 (by decide) rfl
    exact ⟨s2, p1⟩
  obtain ⟨s2, p1⟩ := hpop
  unfold B32.update
  simp only [B32.heading_rest, Option.some_bind, B32.px_rest, B32.pz_rest, hp,
    B32.local_wall_rest]
  dsimp only [r_area] at e1 e2 e3 p1 ⊢
  rw [e1, Option.some_bind, e2, Option.some_bind, e3, Option.some_bind, p1]
  exact ⟨_, _, rfl⟩

/-- C15, amended: from every state with `area_stack_top < AREA_STACK_SIZE`, a call
    of `update` that returns leaves `area` and `area_stack_top` as they were before
    the call, whichever of the three ways through the first-person view is taken:
    in exact arithmetic every call returns and does so, and in binary32 every call
    that returns does so. -/
theorem update_restores_area (s : AreaState) (h : s.area_stack_top < AREA_STACK_SIZE) :
    (∀ (sinf cosf : ℚ → ℚ) (g : Game) (pix : Canvas) (tdelta : ℚ), g.areas = s →
      ∃ N, ∀ fuel, N ≤ fuel → ∃ g1 pix1,
        update fuel sinf cosf g pix tdelta = some (g1, pix1) ∧
        g1.areas.area = s.area ∧ g1.areas.area_stack_top = s.area_stack_top) ∧
    (∀ (fuel : ℕ) (sinf cosf : F → F) (g g1 : B32.Game) (pix pix1 : Canvas) (tdelta : F),
      g.areas = s → B32.update fuel sinf cosf g pix tdelta = some (g1, pix1) →
        g1.areas.area = s.area ∧ g1.areas.area_stack_top = s.area_stack_top) := by
  constructor
  · intro sinf cosf g pix tdelta hg
    subst hg
    exact update_returns_exact sinf cosf g pix tdelta h
  · intro fuel sinf cosf g g1 pix pix1 tdelta hg hu
    subst hg
    exact B32.update_restores fuel sinf cosf g g1 pix pix1 tdelta hu

/-- C15, amended, at the initial state of the program with no key pressed,
    `sin 0 = 0` and `cos 0 = 1`: in exact arithmetic (a frame of `1/60` s) and in
    binary32 (a frame of `1/64` s) `update` returns and `area` is the full canvas
    again, with `area_stack_top = 0`. -/
theorem update_restores_area_witness :
    (∃ N, ∀ fuel, N ≤ fuel → ∃ g1 pix1,
      update fuel (fun _ => 0) (fun _ => 1)
          ⟨⟨area_init, 0, fun _ => area_init⟩, 0, 0, 0, 50, 50, 0⟩ ⟨fun _ => 0, []⟩ (1 / 60) =
        some (g1, pix1) ∧
      g1.areas.area = area_init ∧ g1.areas.area_stack_top = 0) ∧
    (∃ N, ∀ fuel, N ≤ fuel → ∃ g1 pix1,
      B32.update fuel (fun _ => F.fin 0) (fun _ => F.fin 1)
          ⟨⟨area_init, 0, fun _ => area_init⟩, 0, 0, 0, F.fin 50, F.fin 50, F.fin 0⟩
          ⟨fun _ => 0, []⟩ (F.fin (1 / 64)) = some (g1, pix1) ∧
      g1.areas.area = area_init ∧ g1.areas.area_stack_top = 0) :=
  ⟨(update_restores_area ⟨area_init, 0, fun _ => area_init⟩ (by decide)).1
      (fun _ => 0) (fun _ => 1) ⟨⟨area_init, 0, fun _ => area_init⟩, 0, 0, 0, 50, 50, 0⟩
      ⟨fun _ => 0, []⟩ (1 / 60) rfl,
   B32.update_rest_returns.imp fun _ hN fuel hf =>
    (hN fuel hf ⟨fun _ => 0, []⟩).imp fun g1 hg => hg.imp fun pix1 e =>
      ⟨e, (update_restores_area ⟨area_init, 0, fun _ => area_init⟩ (by decide)).2 fuel
        (fun _ => F.fin 0) (fun _ => F.fin 1)
        ⟨⟨area_init, 0, fun _ => area_init⟩, 0, 0, 0, F.fin 50, F.fin 50, F.fin 0⟩ g1
        ⟨fun _ => 0, []⟩ pix1 (F.fin (1 / 64)) rfl e⟩⟩

/-! ## `r_line` stays inside the clip rectangle: both readings -/

/-- The projection of scenario 1 in binary32: the screen x values are `25` and
    `75`. -/
theorem B32.project_rest :
    (B32.project (F.fin (-10)) (F.fin (-20)) (F.fin 10) (F.fin (-20)) 50 50).1 = F.fin 25 ∧
    (B32.project (F.fin (-10)) (F.fin (-20)) (F.fin 10) (F.fin (-20)) 50 50).2.1 = F.fin 75 := by
  have i1 : ∀ n : ℤ, |n| < 2 ^ 24 → binary32.round (n : ℚ) = F.fin n := round32_int
  have h50 : B32.ofInt 50 = F.fin 50 := by simpa using B32.ofInt_small 50 (by norm_num)
  have h1 : binary32.round (500 : ℚ) = F.fin 500 := by simpa using i1 500 (by norm_num)
  have h2 : binary32.round (-500 : ℚ) = F.fin (-500) := by simpa using i1 (-500) (by norm_num)
  have h3 : binary32.round (25 : ℚ) = F.fin 25 := by simpa using i1 25 (by norm_num)
  have h4 : binary32.round (-25 : ℚ) = F.fin (-25) := by simpa using i1 (-25) (by norm_num)
  have h5 : binary32.round (75 : ℚ) = F.fin 75 := by simpa using i1 75 (by norm_num)
  have n1 : (F.fin (-10)).neg = F.fin 10 := by norm_num [F.neg]
  have n2 : (F.fin 10).neg = F.fin (-10) := by norm_num [F.neg]
  constructor
  · show B32.fadd (B32.fdiv (B32.fmul (F.fin (-10)).neg (B32.ofInt 50)) (F.fin (-20)))
      (B32.ofInt 50) = _
    rw [h50, n1]
    norm_num [B32.fmul_fin, B32.fdiv_fin, B32.fadd_fin, h1, h3, h4]
  · show B32.fadd (B32.fdiv (B32.fmul (F.fin 10).neg (B32.ofInt 50)) (F.fin (-20)))
      (B32.ofInt 50) = _
    rw [h50, n2]
    norm_num [B32.fmul_fin, B32.fdiv_fin, B32.fadd_fin, h2, h3, h5]

/-- C16, amended: for player-local wall endpoints with equal strictly negative
    depth `z` and opposite lateral offsets `x`, `-x`, `x` not zero, the projection
    of `update` gives the same top and the same bottom y at both ends, in exact
    arithmetic and in binary32, and in exact arithmetic two finite, distinct screen
    x values with `sx0 + sx1 = 2 * midx`; for the wall `(40,30)-(60,30)` seen from
    `(50,50)` with `sin = 0`, `cos = 1` the local endpoints are `(-10,-20)` and
    `(10,-20)` and the screen x values are `25` and `75` for `midx = 50`, in exact
    arithmetic and in binary32. -/
theorem project_symmetric (x z : ℚ) (hx : x ≠ 0) (hz : z < 0) (midx midy : ℤ) :
    ((project (F.fin x) (F.fin z) (F.fin (-x)) (F.fin z) midx midy).1.isFin = true ∧
      (project (F.fin x) (F.fin z) (F.fin (-x)) (F.fin z) midx midy).2.1.isFin = true ∧
      (project (F.fin x) (F.fin z) (F.fin (-x)) (F.fin z) midx midy).1.val ≠
        (project (F.fin x) (F.fin z) (F.fin (-x)) (F.fin z) midx midy).2.1.val ∧
      (project (F.fin x) (F.fin z) (F.fin (-x)) (F.fin z) midx midy).1.val +
        (project (F.fin x) (F.fin z) (F.fin (-x)) (F.fin z) midx midy).2.1.val = 2 * midx ∧
      (project (F.fin x) (F.fin z) (F.fin (-x)) (F.fin z) midx midy).2.2.1 =
        (project (F.fin x) (F.fin z) (F.fin (-x)) (F.fin z) midx midy).2.2.2.1 ∧
      (project (F.fin x) (F.fin z) (F.fin (-x)) (F.fin z) midx midy).2.2.2.2.1 =
        (project (F.fin x) (F.fin z) (F.fin (-x)) (F.fin z) midx midy).2.2.2.2.2 ∧
      (project (F.fin x) (F.fin z) (F.fin (-x)) (F.fin z) midx midy).2.2.1.isFin = true ∧
      (project (F.fin x) (F.fin z) (F.fin (-x)) (F.fin z) midx midy).2.2.2.2.1.isFin = true) ∧
    (local_wall 50 50 0 1 = (-10, -20, 10, -20) ∧
      (project (F.fin (-10)) (F.fin (-20)) (F.fin 10) (F.fin (-20)) 50 50).1 = F.fin 25 ∧
      (project (F.fin (-10)) (F.fin (-20)) (F.fin 10) (F.fin (-20)) 50 50).2.1 = F.fin 75) ∧
    ((B32.project (F.fin x) (F.fin z) (F.fin (-x)) (F.fin z) midx midy).2.2.1 =
        (B32.project (F.fin x) (F.fin z) (F.fin (-x)) (F.fin z) midx midy).2.2.2.1 ∧
      (B32.project (F.fin x) (F.fin z) (F.fin (-x)) (F.fin z) midx midy).2.2.2.2.1 =
        (B32.project (F.fin x) (F.fin z) (F.fin (-x)) (F.fin z) midx midy).2.2.2.2.2) ∧
    (B32.local_wall (F.fin 50) (F.fin 50) (F.fin 0) (F.fin 1) =
        (F.fin (-10), F.fin (-20), F.fin 10, F.fin (-20)) ∧
      (B32.project (F.fin (-10)) (F.fin (-20)) (F.fin 10) (F.fin (-20)) 50 50).1 = F.fin 25 ∧
      (B32.project (F.fin (-10)) (F.fin (-20)) (F.fin 10) (F.fin (-20)) 50 50).2.1 =
        F.fin 75) :=
  ⟨(project_symmetric_exact x z hx hz midx midy).1, (project_symmetric_exact x z hx hz midx midy).2,
    ⟨rfl, rfl⟩, B32.local_wall_rest, B32.project_rest⟩

/-- C16, amended, at the scenario of the specification: local endpoints
    `(-10,-20)` and `(10,-20)`, `midx = midy = 50`. -/
theorem project_symmetric_witness :
    ((project (F.fin (-10)) (F.fin (-20)) (F.fin (- -10)) (F.fin (-20)) 50 50).1.val ≠
        (project (F.fin (-10)) (F.fin (-20)) (F.fin (- -10)) (F.fin (-20)) 50 50).2.1.val ∧
      (project (F.fin (-10)) (F.fin (-20)) (F.fin (- -10)) (F.fin (-20)) 50 50).1.val +
        (project (F.fin (-10)) (F.fin (-20)) (F.fin (- -10)) (F.fin (-20)) 50 50).2.1.val =
          2 * ((50 : ℤ) : ℚ)) ∧
    ((B32.project (F.fin (-10)) (F.fin (-20)) (F.fin (- -10)) (F.fin (-20)) 50 50).2.2.1 =
        (B32.project (F.fin (-10)) (F.fin (-20)) (F.fin (- -10)) (F.fin (-20)) 50 50).2.2.2.1 ∧
      (B32.project (F.fin (-10)) (F.fin (-20)) (F.fin (- -10)) (F.fin (-20)) 50 50).2.2.2.2.1 =
        (B32.project (F.fin (-10)) (F.fin (-20)) (F.fin (- -10)) (F.fin (-20)) 50
          50).2.2.2.2.2) ∧
    ((B32.project (F.fin (-10)) (F.fin (-20)) (F.fin 10) (F.fin (-20)) 50 50).1 = F.fin 25 ∧
      (B32.project (F.fin (-10)) (F.fin (-20)) (F.fin 10) (F.fin (-20)) 50 50).2.1 =
        F.fin 75) :=
  ⟨⟨(project_symmetric (-10) (-20) (by norm_num) (by norm_num) 50 50).1.2.2.1,
    (project_symmetric (-10) (-20) (by norm_num) (by norm_num) 50 50).1.2.2.2.1⟩,
   (project_symmetric (-10) (-20) (by norm_num) (by norm_num) 50 50).2.2.1,
   (project_symmetric (-10) (-20) (by norm_num) (by norm_num) 50 50).2.2.2.2⟩

/-! ## Heading normalisation on bounded input, in binary32 -/

theorem rne_abs_sub_le (x : ℚ) : |(rne x : ℚ) - x| ≤ 1 / 2 := by
  have hf1 : ((⌊x⌋ : ℤ) : ℚ) ≤ x := Int.floor_le x
  have hf2 : x < (⌊x⌋ : ℤ) + 1 := Int.lt_floor_add_one x
  have hd : Int.fract x = x - (⌊x⌋ : ℤ) := rfl
  unfold rne
  rw [hd, abs_le]
  split_ifs with a b c <;> push_cast <;> constructor <;> linarith

theorem rne_le_int (x : ℚ) (n : ℤ) (h : x ≤ n) : rne x ≤ n := by
  have h1 := (abs_le.1 (rne_abs_sub_le x)).2
  have h2 : ((rne x : ℤ) : ℚ) < n + 1 := by linarith
  have h3 : rne x < n + 1 := by exact_mod_cast h2
  omega

theorem int_le_rne (x : ℚ) (n : ℤ) (h : (n : ℚ) ≤ x) : n ≤ rne x := by
  have h1 := (abs_le.1 (rne_abs_sub_le x)).1
  have h2 : ((n : ℤ) : ℚ) < rne x + 1 := by linarith
  have h3 : n < rne x + 1 := by exact_mod_cast h2
  omega

/-- Rounding of a value of magnitude at most `2 ^ k`, below the overflow
    threshold: the result is finite, of magnitude at most `2 ^ k`, within
    `2 ^ (k - prec)` of the value, and of the same sign. -/
theorem Fmt.round_within (f : Fmt) (q : ℚ) (k : ℤ) (hp : 1 ≤ f.prec)
    (hk1 : f.emin + f.prec - 1 ≤ k) (hk2 : k < f.emax) (h : |q| ≤ (2 : ℚ) ^ k) :
    (f.round q).isFin = true ∧ |(f.round q).val| ≤ (2 : ℚ) ^ k ∧
    |(f.round q).val - q| ≤ (2 : ℚ) ^ (k - f.prec) ∧
    (0 ≤ q → 0 ≤ (f.round q).val) ∧ (q ≤ 0 → (f.round q).val ≤ 0) := by
  have hpos : ∀ z : ℤ, (0 : ℚ) < 2 ^ z := fun z => zpow_pos (by norm_num) z
  by_cases hq : q = 0
  · subst hq
    simp only [round_zero, F.isFin_fin, F.val_fin, sub_zero, abs_zero, le_refl, implies_true,
      and_true, true_and]
    exact ⟨(hpos _).le, (hpos _).le⟩
  have hlog : Int.log 2 |q| < k + 1 := by
    apply log_le_of_lt_zpow q hq
    calc |q| ≤ (2 : ℚ) ^ k := h
      _ < 2 ^ (k + 1) := zpow_lt_zpow_right₀ (by norm_num) (by omega)
  have he : max (Int.log 2 |q| - (f.prec - 1)) f.emin ≤ k - f.prec + 1 :=
    max_le (by omega) (by omega)
  unfold Fmt.round
  rw [if_neg hq]
  dsimp only
  generalize max (Int.log 2 |q| - (f.prec - 1)) f.emin = e at he
  obtain ⟨j, hj⟩ : ∃ j : ℕ, k = e + j := ⟨(k - e).toNat, by omega⟩
  have he0 : (2 : ℚ) ^ e ≠ 0 := (hpos e).ne'
  have hk : (2 : ℚ) ^ k = ((2 ^ j : ℤ) : ℚ) * 2 ^ e := by
    rw [hj, zpow_add₀ (by norm_num), zpow_natCast]
    push_cast
    ring
  have hx := abs_le.1 h
  have hx1 : q / 2 ^ e ≤ ((2 ^ j : ℤ) : ℚ) := by
    rw [div_le_iff₀ (hpos e), ← hk]
    exact hx.2
  have hx2 : ((-(2 ^ j) : ℤ) : ℚ) ≤ q / 2 ^ e := by
    rw [le_div_iff₀ (hpos e)]
    push_cast
    have := hx.1
    rw [hk] at this
    push_cast at this
    linarith
  have m1 := rne_le_int _ _ hx1
  have m2 := int_le_rne _ _ hx2
  have merr := abs_le.1 (rne_abs_sub_le (q / 2 ^ e))
  have hr1 : ((rne (q / 2 ^ e) : ℤ) : ℚ) * 2 ^ e ≤ 2 ^ k := by
    rw [hk]
    exact mul_le_mul_of_nonneg_right (by exact_mod_cast m1) (hpos e).le
  have hr2 : -(2 : ℚ) ^ k ≤ ((rne (q / 2 ^ e) : ℤ) : ℚ) * 2 ^ e := by
    rw [hk]
    have : ((-(2 ^ j) : ℤ) : ℚ) * 2 ^ e ≤ ((rne (q / 2 ^ e) : ℤ) : ℚ) * 2 ^ e :=
      mul_le_mul_of_nonneg_right (by exact_mod_cast m2) (hpos e).le
    push_cast at this ⊢
    linarith
  have hqe : q = q / 2 ^ e * 2 ^ e := (div_mul_cancel₀ q he0).symm
  have hhalf : (2 : ℚ) ^ e * (1 / 2) ≤ 2 ^ (k - f.prec) := by
    have e1 : (2 : ℚ) ^ e * (1 / 2) = 2 ^ (e - 1) := by
      rw [zpow_sub₀ (by norm_num), zpow_one]
      ring
    rw [e1]
    exact zpow_le_zpow_right₀ (by norm_num) (by omega)
  have herr : |((rne (q / 2 ^ e) : ℤ) : ℚ) * 2 ^ e - q| ≤ (2 : ℚ) ^ (k - f.prec) := by
    have e2 : ((rne (q / 2 ^ e) : ℤ) : ℚ) * 2 ^ e - q =
        (((rne (q / 2 ^ e) : ℤ) : ℚ) - q / 2 ^ e) * 2 ^ e := by
      rw [sub_mul, ← hqe]
    rw [e2, abs_mul, abs_of_pos (hpos e)]
    calc |((rne (q / 2 ^ e) : ℤ) : ℚ) - q / 2 ^ e| * 2 ^ e
        ≤ 1 / 2 * 2 ^ e := mul_le_mul_of_nonneg_right (rne_abs_sub_le _) (hpos e).le
      _ = 2 ^ e * (1 / 2) := by ring
      _ ≤ _ := hhalf
  have hs1 : 0 ≤ q → 0 ≤ ((rne (q / 2 ^ e) : ℤ) : ℚ) * 2 ^ e := by
    intro h0
    have : (0 : ℤ) ≤ rne (q / 2 ^ e) :=
      int_le_rne _ 0 (by simpa using div_nonneg h0 (hpos e).le)
    exact mul_nonneg (by exact_mod_cast this) (hpos e).le
  have hs2 : q ≤ 0 → ((rne (q / 2 ^ e) : ℤ) : ℚ) * 2 ^ e ≤ 0 := by
    intro h0
    have : rne (q / 2 ^ e) ≤ (0 : ℤ) :=
      rne_le_int _ 0 (by simpa using div_nonpos_of_nonpos_of_nonneg h0 (hpos e).le)
    exact mul_nonpos_of_nonpos_of_nonneg (by exact_mod_cast this) (hpos e).le
  by_cases hr0 : ((rne (q / 2 ^ e) : ℤ) : ℚ) * 2 ^ e = 0
  · rw [if_pos hr0]
    rw [hr0] at herr
    have hz : (F.zero (decide (q < 0))).isFin = true ∧ (F.zero (decide (q < 0))).val = 0 := by
      unfold F.zero
      split_ifs <;> exact ⟨rfl, rfl⟩
    rw [hz.1, hz.2]
    exact ⟨rfl, by simpa using (hpos k).le, herr, fun _ => le_rfl, fun _ => le_rfl⟩
  · rw [if_neg hr0]
    have hov : ¬ (2 : ℚ) ^ f.emax ≤ |((rne (q / 2 ^ e) : ℤ) : ℚ) * 2 ^ e| := by
      rw [not_le]
      calc |((rne (q / 2 ^ e) : ℤ) : ℚ) * 2 ^ e| ≤ (2 : ℚ) ^ k := abs_le.2 ⟨hr2, hr1⟩
        _ < 2 ^ f.emax := zpow_lt_zpow_right₀ (by norm_num) hk2
    rw [if_neg hov]
    exact ⟨rfl, abs_le.2 ⟨hr2, hr1⟩, herr, hs1, hs2⟩

theorem F.ge_of_isFin (x y : F) (hx : x.isFin = true) (hy : y.isFin = true) :
    x.ge y = decide (y.val ≤ x.val) := by
  rw [F.ge, F.le, F.lt_of_isFin y x hy hx, F.beq_of_isFin y x hy hx]
  by_cases h : y.val ≤ x.val
  · rcases h.lt_or_eq with h1 | h1 <;> simp [h, h1]
  · have h1 : ¬ y.val < x.val := fun c => h c.le
    have h2 : ¬ y.val = x.val := fun c => h c.le
    simp [h, h1, h2]

/-- Rounding of a finite value of magnitude at most `2 ^ k`. -/
theorem F.rnd_within (f : Fmt) (x : F) (k : ℤ) (hp : 1 ≤ f.prec)
    (hk1 : f.emin + f.prec - 1 ≤ k) (hk2 : k < f.emax) (hx : x.isFin = true)
    (h : |x.val| ≤ (2 : ℚ) ^ k) :
    (x.rnd f).isFin = true ∧ |(x.rnd f).val| ≤ (2 : ℚ) ^ k ∧
    |(x.rnd f).val - x.val| ≤ (2 : ℚ) ^ (k - f.prec) ∧
    (0 ≤ x.val → 0 ≤ (x.rnd f).val) ∧ (x.val ≤ 0 → (x.rnd f).val ≤ 0) := by
  cases x with
  | fin q => exact Fmt.round_within f q k hp hk1 hk2 h
  | nzero =>
    refine ⟨rfl, ?_, ?_, fun _ => le_rfl, fun _ => le_rfl⟩
    · simpa [F.rnd, F.val] using (zpow_pos (by norm_num : (0 : ℚ) < 2) k).le
    · simpa [F.rnd, F.val] using (zpow_pos (by norm_num : (0 : ℚ) < 2) (k - f.prec)).le
  | pinf => simp [F.isFin, F.isNaN, F.isInf] at hx
  | ninf => simp [F.isFin, F.isNaN, F.isInf] at hx
  | nan => simp [F.isFin, F.isNaN, F.isInf] at hx

theorem F.rnd64_within (x : F) (k : ℤ) (hk1 : -1022 ≤ k) (hk2 : k < 1024)
    (hx : x.isFin = true) (h : |x.val| ≤ (2 : ℚ) ^ k) :
    (x.rnd binary64).isFin = true ∧ |(x.rnd binary64).val| ≤ (2 : ℚ) ^ k ∧
    |(x.rnd binary64).val - x.val| ≤ (2 : ℚ) ^ (k - 53) ∧
    (0 ≤ x.val → 0 ≤ (x.rnd binary64).val) ∧ (x.val ≤ 0 → (x.rnd binary64).val ≤ 0) :=
  F.rnd_within binary64 x k (by decide) (by simpa [binary64] using hk1)
    (by simpa [binary64] using hk2) hx h

theorem F.rnd32_within (x : F) (k : ℤ) (hk1 : -126 ≤ k) (hk2 : k < 128)
    (hx : x.isFin = true) (h : |x.val| ≤ (2 : ℚ) ^ k) :
    (x.rnd binary32).isFin = true ∧ |(x.rnd binary32).val| ≤ (2 : ℚ) ^ k ∧
    |(x.rnd binary32).val - x.val| ≤ (2 : ℚ) ^ (k - 24) ∧
    (0 ≤ x.val → 0 ≤ (x.rnd binary32).val) ∧ (x.val ≤ 0 → (x.rnd binary32).val ≤ 0) :=
  F.rnd_within binary32 x k (by decide) (by simpa [binary32] using hk1)
    (by simpa [binary32] using hk2) hx h

/-- A `double` result converted to `float`, of magnitude at most `2 ^ 26`: the
    `float` is finite, of magnitude at most `2 ^ 26`, within `4 + 2 ^ (-27)` of
    the exact value, and of the same sign. -/
theorem F.rnd_double_float (x : F) (hx : x.isFin = true) (h : |x.val| ≤ (2 : ℚ) ^ (26 : ℤ)) :
    (((x.rnd binary64).rnd binary32).isFin = true ∧
      |((x.rnd binary64).rnd binary32).val| ≤ (2 : ℚ) ^ (26 : ℤ)) ∧
    |((x.rnd binary64).rnd binary32).val - x.val| ≤ 4 + 1 / 134217728 ∧
    (0 ≤ x.val → 0 ≤ ((x.rnd binary64).rnd binary32).val) := by
  obtain ⟨a1, a2, a3, a4, -⟩ := F.rnd64_within x 26 (by norm_num) (by norm_num) hx h
  obtain ⟨b1, b2, b3, b4, -⟩ :=
    F.rnd32_within (x.rnd binary64) 26 (by norm_num) (by norm_num) a1 a2
  refine ⟨⟨b1, b2⟩, ?_, fun h0 => b4 (a4 h0)⟩
  have e1 : (2 : ℚ) ^ ((26 : ℤ) - 53) = 1 / 134217728 := by norm_num [zpow_neg]
  have e2 : (2 : ℚ) ^ ((26 : ℤ) - 24) = 4 := by norm_num
  rw [e1] at a3
  rw [e2] at b3
  have a3' := abs_le.1 a3
  have b3' := abs_le.1 b3
  rw [abs_le]
  constructor <;> linarith [a3'.1, a3'.2, b3'.1, b3'.2]

theorem B32.two_pi_val :
    B32.two_pi.isFin = true ∧ 6 + 1 / 4 < B32.two_pi.val ∧ B32.two_pi.val < 7 := by
  rw [B32.two_pi_eq]
  refine ⟨rfl, ?_, ?_⟩ <;> norm_num [F.val]

/-- The loop `while (pangle >= 2*M_PI) pangle -= 2*M_PI;` in binary32, from a
    heading in `[0, 2 ^ 26]`: every pass lowers the heading by at least `2`, so the
    loop exits, with a heading in `[0, 2*M_PI)`. -/
theorem B32.norm_hi_bounded : ∀ (N : ℕ) (p : F), p.isFin = true → 0 ≤ p.val →
    p.val ≤ (2 : ℚ) ^ (26 : ℤ) → p.val < B32.two_pi.val + 2 * N →
    ∃ b, (∀ fuel, N ≤ fuel → B32.norm_hi fuel p = some b) ∧
      b.isFin = true ∧ 0 ≤ b.val ∧ b.val < B32.two_pi.val := by
  obtain ⟨t1, t2, t3⟩ := B32.two_pi_val
  intro N
  induction N with
  | zero =>
    intro p hp h0 _ hlt
    have hge : p.ge B32.two_pi = false := by
      rw [F.ge_of_isFin p _ hp t1]
      simpa using hlt
    refine ⟨p, fun fuel _ => ?_, hp, h0, by simpa using hlt⟩
    cases fuel <;> simp [B32.norm_hi, hge]
  | succ n ih =>
    intro p hp h0 hb hlt
    by_cases hc : p.val < B32.two_pi.val
    · have hge : p.ge B32.two_pi = false := by
        rw [F.ge_of_isFin p _ hp t1]
        simpa using hc
      refine ⟨p, fun fuel _ => ?_, hp, h0, hc⟩
      cases fuel <;> simp [B32.norm_hi, hge]
    · have hc1 : B32.two_pi.val ≤ p.val := not_lt.1 hc
      have hge : p.ge B32.two_pi = true := by
        rw [F.ge_of_isFin p _ hp t1]
        simpa using hc1
      obtain ⟨s1, s2⟩ := F.sub_of_isFin p B32.two_pi hp t1
      have hs : |(p.sub B32.two_pi).val| ≤ (2 : ℚ) ^ (26 : ℤ) := by
        rw [s2, abs_le]
        constructor <;> linarith [zpow_pos (by norm_num : (0 : ℚ) < 2) (26 : ℤ)]
      obtain ⟨⟨r1, r2⟩, r3, r4⟩ := F.rnd_double_float _ s1 hs
      have r3' := abs_le.1 r3
      have r2' := abs_le.1 r2
      rw [s2] at r3' r4
      obtain ⟨b, hb1, hb2⟩ := ih ((B32.dsub p B32.two_pi).rnd binary32) r1
        (r4 (by linarith)) r2'.2 (by
          show (((p.sub B32.two_pi).rnd binary64).rnd binary32).val < _
          push_cast at hlt
          linarith [r3'.2])
      refine ⟨b, fun fuel hf => ?_, hb2⟩
      obtain ⟨m, rfl⟩ : ∃ m, fuel = m + 1 := ⟨fuel - 1, by omega⟩
      rw [B32.norm_hi, if_pos hge]
      exact hb1 m (by omega)

/-- The loop `while (pangle < 0) pangle += 2*M_PI;` in binary32, from a heading of
    magnitude at most `2 ^ 26`: every pass raises the heading by at least `2`, so
    the loop exits, with a heading in `[0, 2 ^ 26]`. -/
theorem B32.norm_lo_bounded : ∀ (N : ℕ) (p : F), p.isFin = true →
    |p.val| ≤ (2 : ℚ) ^ (26 : ℤ) → -(2 * (N : ℚ)) ≤ p.val →
    ∃ b, (∀ fuel, N ≤ fuel → B32.norm_lo fuel p = some b) ∧
      b.isFin = true ∧ 0 ≤ b.val ∧ b.val ≤ (2 : ℚ) ^ (26 : ℤ) := by
  obtain ⟨t1, t2, t3⟩ := B32.two_pi_val
  have hexit : ∀ p : F, p.isFin = true → |p.val| ≤ (2 : ℚ) ^ (26 : ℤ) → 0 ≤ p.val →
      ∃ b, (∀ fuel : ℕ, B32.norm_lo fuel p = some b) ∧
        b.isFin = true ∧ 0 ≤ b.val ∧ b.val ≤ (2 : ℚ) ^ (26 : ℤ) := by
    intro p hp hb h0
    have hlt : p.lt (F.fin 0) = false := by
      rw [F.lt_of_isFin p (F.fin 0) hp rfl]
      simpa [F.val] using h0
    refine ⟨p, fun fuel => ?_, hp, h0, (abs_le.1 hb).2⟩
    cases fuel <;> simp [B32.norm_lo, hlt]
  intro N
  induction N with
  | zero =>
    intro p hp hb h0
    obtain ⟨b, hb1, hb2⟩ := hexit p hp hb (by simpa using h0)
    exact ⟨b, fun fuel _ => hb1 fuel, hb2⟩
  | succ n ih =>
    intro p hp hb hlow
    by_cases hc : 0 ≤ p.val
    · obtain ⟨b, hb1, hb2⟩ := hexit p hp hb hc
      exact ⟨b, fun fuel _ => hb1 fuel, hb2⟩
    · have hc1 : p.val < 0 := not_le.1 hc
      have hlt : p.lt (F.fin 0) = true := by
        rw [F.lt_of_isFin p (F.fin 0) hp rfl]
        simpa [F.val] using hc1
      obtain ⟨s1, s2⟩ := F.add_of_isFin p B32.two_pi hp t1
      have hb' := abs_le.1 hb
      have hs : |(p.add B32.two_pi).val| ≤ (2 : ℚ) ^ (26 : ℤ) := by
        rw [s2, abs_le]
        have : (7 : ℚ) ≤ 2 ^ (26 : ℤ) := by norm_num
        constructor <;> linarith
      obtain ⟨⟨r1, r2⟩, r3, -⟩ := F.rnd_double_float _ s1 hs
      have r3' := abs_le.1 r3
      rw [s2] at r3'
      obtain ⟨b, hb1, hb2⟩ := ih ((B32.dadd p B32.two_pi).rnd binary32) r1 r2 (by
          show _ ≤ (((p.add B32.two_pi).rnd binary64).rnd binary32).val
          push_cast at hlow
          linarith [r3'.1])
      refine ⟨b, fun fuel hf => ?_, hb2⟩
      obtain ⟨m, rfl⟩ : ∃ m, fuel = m + 1 := ⟨fuel - 1, by omega⟩
      rw [B32.norm_lo, if_pos hlt]
      exact hb1 m (by omega)

theorem F.in_range_iff (p : F) :
    (p.ge (F.fin 0) = true ∧ p.lt B32.two_pi = true) ↔
      (p.isFin = true ∧ 0 ≤ p.val ∧ p.val < B32.two_pi.val) := by
  obtain ⟨t1, -, -⟩ := B32.two_pi_val
  constructor
  · rintro ⟨h0, h1⟩
    have hp : p.isFin = true := by
      rw [B32.two_pi_eq] at h1
      cases p <;> simp [F.isFin, F.isNaN, F.isInf, F.ge, F.le, F.lt, F.beq, F.sgn] at *
    rw [F.ge_of_isFin p (F.fin 0) hp rfl] at h0
    rw [F.lt_of_isFin p _ hp t1] at h1
    exact ⟨hp, by simpa [F.val] using h0, by simpa using h1⟩
  · rintro ⟨hp, h0, h1⟩
    rw [F.ge_of_isFin p (F.fin 0) hp rfl, F.lt_of_isFin p _ hp t1]
    exact ⟨by simpa [F.val] using h0, by simpa using h1⟩

/-- The assignment `pangle += M_PI * wishlook * tdelta` in binary32, from a heading
    in `[0, 2*M_PI)`, with `|wishlook| ≤ 2 ^ a`, `|tdelta| ≤ 2 ^ b` and `a + b ≤ 23`:
    the new heading is finite, of magnitude at most `2 ^ 26`. -/
theorem B32.heading_add_bounded (pangle : F) (wishlook : ℤ) (tdelta : F) (a b : ℕ)
    (hab : a + b ≤ 23) (hp : pangle.isFin = true) (h0 : 0 ≤ pangle.val)
    (h1 : pangle.val < B32.two_pi.val) (hw : |wishlook| ≤ 2 ^ a)
    (ht : tdelta.isFin = true) (htd : |tdelta.val| ≤ 2 ^ b) :
    ((B32.dadd pangle (B32.dmul (B32.dmul B32.M_PI (B32.dofInt wishlook)) tdelta)).rnd
        binary32).isFin = true ∧
    |((B32.dadd pangle (B32.dmul (B32.dmul B32.M_PI (B32.dofInt wishlook)) tdelta)).rnd
        binary32).val| ≤ (2 : ℚ) ^ (26 : ℤ) := by
  obtain ⟨-, -, t3⟩ := B32.two_pi_val
  have hw1 : |(F.ofInt wishlook).val| ≤ (2 : ℚ) ^ (a : ℤ) := by
    show |((wishlook : ℤ) : ℚ)| ≤ _
    rw [zpow_natCast]
    exact_mod_cast hw
  obtain ⟨w1, w2, -⟩ := F.rnd64_within (F.ofInt wishlook) a (by omega) (by omega) rfl hw1
  have hpi : B32.M_PI.isFin = true ∧ |B32.M_PI.val| ≤ (2 : ℚ) ^ (2 : ℤ) := by
    rw [B32.M_PI_eq]
    refine ⟨rfl, ?_⟩
    norm_num [F.val, abs_le]
  obtain ⟨m1, m2⟩ := F.mul_of_isFin B32.M_PI (B32.dofInt wishlook) hpi.1 w1
  have hm : |(B32.M_PI.mul (B32.dofInt wishlook)).val| ≤ (2 : ℚ) ^ ((a : ℤ) + 2) := by
    rw [m2, abs_mul, zpow_add₀ (by norm_num), mul_comm]
    exact mul_le_mul w2 hpi.2 (abs_nonneg _) (zpow_pos (by norm_num) _).le
  obtain ⟨n1, n2, -⟩ := F.rnd64_within _ ((a : ℤ) + 2) (by omega) (by omega) m1 hm
  obtain ⟨o1, o2⟩ := F.mul_of_isFin (B32.dmul B32.M_PI (B32.dofInt wishlook)) tdelta n1 ht
  have ho : |((B32.dmul B32.M_PI (B32.dofInt wishlook)).mul tdelta).val| ≤
      (2 : ℚ) ^ ((a : ℤ) + 2 + b) := by
    rw [o2, abs_mul, zpow_add₀ (by norm_num) ((a : ℤ) + 2) (b : ℤ)]
    refine mul_le_mul n2 ?_ (abs_nonneg _) (zpow_pos (by norm_num) _).le
    rw [zpow_natCast]
    exact htd
  obtain ⟨q1, q2, -⟩ := F.rnd64_within _ ((a : ℤ) + 2 + b) (by omega) (by omega) o1 ho
  have q3 : |(B32.dmul (B32.dmul B32.M_PI (B32.dofInt wishlook)) tdelta).val| ≤
      (2 : ℚ) ^ (25 : ℤ) :=
    le_trans q2 (zpow_le_zpow_right₀ (by norm_num) (by omega))
  have q1' : (B32.dmul (B32.dmul B32.M_PI (B32.dofInt wishlook)) tdelta).isFin = true := q1
  obtain ⟨s1, s2⟩ := F.add_of_isFin pangle
    (B32.dmul (B32.dmul B32.M_PI (B32.dofInt wishlook)) tdelta) hp q1'
  have q3' := abs_le.1 q3
  have hs : |(pangle.add (B32.dmul (B32.dmul B32.M_PI (B32.dofInt wishlook)) tdelta)).val| ≤
      (2 : ℚ) ^ (26 : ℤ) := by
    rw [s2, abs_le]
    have e1 : (2 : ℚ) ^ (25 : ℤ) = 33554432 := by norm_num
    have e2 : (2 : ℚ) ^ (26 : ℤ) = 67108864 := by norm_num
    rw [e1] at q3'
    rw [e2]
    constructor <;> linarith [q3'.1, q3'.2]
  exact (F.rnd_double_float _ s1 hs).1

/-- The heading update in binary32 on bounded input: from a heading in
    `[0, 2*M_PI)`, with `|wishlook| ≤ 2 ^ a`, `|tdelta| ≤ 2 ^ b` and `a + b ≤ 23`,
    the two normalisation loops terminate and the heading is again in
    `[0, 2*M_PI)`. -/
theorem B32.heading_step_bounded (pangle : F) (wishlook : ℤ) (tdelta : F) (a b : ℕ)
    (hab : a + b ≤ 23) (h0 : pangle.ge (F.fin 0) = true)
    (h1 : pangle.lt B32.two_pi = true) (hw : |wishlook| ≤ 2 ^ a)
    (ht : tdelta.isFin = true) (htd : |tdelta.val| ≤ 2 ^ b) :
    ∃ r, (∀ fuel, 33554432 ≤ fuel → B32.heading_step fuel pangle wishlook tdelta = some r) ∧
      r.ge (F.fin 0) = true ∧ r.lt B32.two_pi = true := by
  obtain ⟨hp, p0, p1⟩ := (F.in_range_iff pangle).1 ⟨h0, h1⟩
  obtain ⟨c1, c2⟩ := B32.heading_add_bounded pangle wishlook tdelta a b hab hp p0 p1 hw ht htd
  have c2' := abs_le.1 c2
  have e2 : (2 : ℚ) ^ (26 : ℤ) = 67108864 := by norm_num
  obtain ⟨x, hx, x1, x2, x3⟩ := B32.norm_lo_bounded 33554432 _ c1 c2 (by
    rw [e2] at c2'
    push_cast
    linarith [c2'.1])
  obtain ⟨t1, t2, -⟩ := B32.two_pi_val
  obtain ⟨r, hr, r1, r2, r3⟩ := B32.norm_hi_bounded 33554432 x x1 x2 x3 (by
    rw [e2] at x3
    push_cast
    linarith)
  refine ⟨r, fun fuel hf => ?_, (F.in_range_iff r).2 ⟨r1, r2, r3⟩⟩
  rw [B32.heading_step, hx fuel hf, Option.some_bind, hr fuel hf]

/-- The heading over a sequence of bounded frames in binary32. -/
theorem B32.heading_seq_bounded (frames : List (ℤ × F))
    (hf : ∀ f ∈ frames, f.2.isFin = true ∧
      ∃ a b : ℕ, a + b ≤ 23 ∧ |f.1| ≤ 2 ^ a ∧ |f.2.val| ≤ 2 ^ b) :
    ∀ p : F, p.ge (F.fin 0) = true → p.lt B32.two_pi = true →
      ∃ r, (∀ fuel, 33554432 ≤ fuel → B32.heading_seq fuel frames p = some r) ∧
        r.ge (F.fin 0) = true ∧ r.lt B32.two_pi = true := by
  induction frames with
  | nil => exact fun p h0 h1 => ⟨p, fun _ _ => rfl, h0, h1⟩
  | cons f fs ih =>
    intro p h0 h1
    obtain ⟨ht, a, b, hab, hw, htd⟩ := hf f (List.mem_cons_self _ _)
    obtain ⟨x, hx, x0, x1⟩ := B32.heading_step_bounded p f.1 f.2 a b hab h0 h1 hw ht htd
    obtain ⟨r, hr, r0, r1⟩ := ih (fun g hg => hf g (List.mem_cons_of_mem _ hg)) x x0 x1
    refine ⟨r, fun fuel hfl => ?_, r0, r1⟩
    show (B32.heading_step fuel p f.1 f.2).bind (B32.heading_seq fuel fs) = some r
    rw [hx fuel hfl, Option.some_bind, hr fuel hfl]

/-- C12, amended: in exact arithmetic, for every heading before a frame (in
    particular one in `[0, 2*M_PI)`), every look axis value and every elapsed time,
    the two normalisation loops of `update` terminate and the heading after the
    frame is in `[0, 2*M_PI)`, hence also after every sequence of frames from the
    initial heading `0`; in binary32 the same holds on bounded input: for every
    heading in `[0, 2*M_PI)` before a frame, every look axis value of magnitude at
    most `2 ^ a` and every finite elapsed time of magnitude at most `2 ^ b`, where
    `a + b ≤ 23`, the two loops terminate and the heading after the frame is again
    in `[0, 2*M_PI)`, hence also after every sequence of such frames from the
    initial heading `0`. -/
theorem heading_in_range :
    ((∀ (pangle : ℚ) (wishlook : ℤ) (tdelta : ℚ),
        ∃ N b, (∀ fuel, N ≤ fuel → heading_step fuel pangle wishlook tdelta = some b) ∧
          0 ≤ b ∧ b < 2 * M_PI) ∧
      (∀ frames : List (ℤ × ℚ),
        ∃ N b, (∀ fuel, N ≤ fuel → heading_seq fuel frames 0 = some b) ∧
          0 ≤ b ∧ b < 2 * M_PI)) ∧
    (∀ (pangle : F) (wishlook : ℤ) (tdelta : F) (a b : ℕ), a + b ≤ 23 →
        pangle.ge (F.fin 0) = true → pangle.lt B32.two_pi = true →
        |wishlook| ≤ 2 ^ a → tdelta.isFin = true → |tdelta.val| ≤ 2 ^ b →
        ∃ N r, (∀ fuel, N ≤ fuel →
            B32.heading_step fuel pangle wishlook tdelta = some r) ∧
          r.ge (F.fin 0) = true ∧ r.lt B32.two_pi = true) ∧
    (∀ frames : List (ℤ × F),
        (∀ f ∈ frames, f.2.isFin = true ∧
          ∃ a b : ℕ, a + b ≤ 23 ∧ |f.1| ≤ 2 ^ a ∧ |f.2.val| ≤ 2 ^ b) →
        ∃ N r, (∀ fuel, N ≤ fuel → B32.heading_seq fuel frames (F.fin 0) = some r) ∧
          r.ge (F.fin 0) = true ∧ r.lt B32.two_pi = true) :=
  ⟨heading_in_range_exact,
   fun pangle wishlook tdelta a b hab h0 h1 hw ht htd =>
     ⟨33554432, B32.heading_step_bounded pangle wishlook tdelta a b hab h0 h1 hw ht htd⟩,
   fun frames hf =>
     ⟨33554432, B32.heading_seq_bounded frames hf (F.fin 0)
       (by rw [F.ge_fin]; norm_num) (by rw [B32.two_pi_eq, F.lt_fin]; norm_num)⟩⟩

/-- C12 in binary32 at the heading `0` with the look axis value `100` and the
    elapsed time `1/64` (`a = 7`, `b = 0`), and over the two frames `(100, 1/64)`
    and `(-8192, 1024)`. -/
theorem heading_in_range_witness :
    (∃ N r, (∀ fuel, N ≤ fuel →
        B32.heading_step fuel (F.fin 0) 100 (F.fin (1 / 64)) = some r) ∧
      r.ge (F.fin 0) = true ∧ r.lt B32.two_pi = true) ∧
    (∃ N r, (∀ fuel, N ≤ fuel →
        B32.heading_seq fuel [(100, F.fin (1 / 64)), (-8192, F.fin 1024)] (F.fin 0) =
          some r) ∧
      r.ge (F.fin 0) = true ∧ r.lt B32.two_pi = true) :=
  ⟨heading_in_range.2.1 (F.fin 0) 100 (F.fin (1 / 64)) 7 0 (by norm_num)
      (by rw [F.ge_fin]; norm_num) (by rw [B32.two_pi_eq, F.lt_fin]; norm_num)
      (by norm_num [abs_le]) rfl (by norm_num [F.val, abs_le]),
   heading_in_range.2.2 [(100, F.fin (1 / 64)), (-8192, F.fin 1024)] (by
      intro f hf
      simp only [List.mem_cons, List.mem_singleton, List.not_mem_nil, or_false] at hf
      rcases hf with rfl | rfl
      · exact ⟨rfl, 7, 0, by norm_num, by norm_num [abs_le], by norm_num [F.val, abs_le]⟩
      · exact ⟨rfl, 13, 10, by norm_num, by norm_num [abs_le], by norm_num [F.val, abs_le]⟩)⟩

end SwWall
